import Mathlib

/-!
# Layer kernels of caffe: softmax, inner product, split, log and cuDNN activations

A shallow embedding of `softmax_layer.cpp`, `inner_product_layer.cpp`,
`split_layer.cpp`, `log_layer.cpp`, `cudnn_relu_layer.cpp` and
`cudnn_sigmoid_layer.cpp`.  Values live in an ordered field `α` (exact arithmetic); the
exponential and the logarithm are parameters of the softmax and log layers,
instantiated with `Real.exp` and `Real.log` in the theorems.  A buffer is the map from element offset to value, a pointer
into a buffer is an offset.  A fatal `CHECK` is an `Except.error`.  Element
counts and dimensions of a blob are natural numbers; the `int` member `N_` of
the inner product layer, which is narrowed from the `uint32` option
`num_output`, is an integer.
-/

namespace Caffe

open Finset

/-- Ways in which a call can abort: a failed `CHECK` or an undefined access. -/
inductive Fatal where
  | axis_out_of_range
  | count_range
  | index_out_of_range
  | division_by_zero
  | input_size_incompatible
  | negative_dimension
  | in_place
  | count_mismatch
  | base_not_positive
  | nan_result
  | inf_result
  deriving DecidableEq, Repr

/-- Contiguous storage addressed by element offset. -/
abbrev Buf (α : Type) := Nat → α

/-- The pointer `X + off`, read-only. -/
def ptr {α : Type} (X : Buf α) (off : Nat) : Buf α := fun t => X (off + t)

/-- The loop `for (i = 0; i < n; ++i) body(i)` threading a state. -/
def forLoop {σ : Type} : Nat → (Nat → σ → σ) → σ → σ
  | 0, _, s => s
  | n + 1, body, s => body n (forLoop n body s)

/-- The loop `for (i = 0; i < n; ++i) body(i)` whose body may abort. -/
def forLoopM {σ : Type} : Nat → (Nat → σ → Except Fatal σ) → σ → Except Fatal σ
  | 0, _, s => .ok s
  | n + 1, body, s => forLoopM n body s >>= body n

/-- The element `v[i]` of a `std::vector`; an index past the end is undefined. -/
def vecAt {β : Type} (v : List β) (i : Nat) : Except Fatal β :=
  match v[i]? with
  | some x => .ok x
  | none => .error Fatal.index_out_of_range

/-- The call `v.resize(n, fill)` of a `std::vector`. -/
def vecResize {β : Type} (v : List β) (n : Nat) (fill : β) : List β :=
  v.take n ++ List.replicate (n - v.length) fill

/-! ## Tensor buffer -/

/-- Modelled from the spec: the tensor buffer `Blob` (blob.hpp is not among the
sources): an ordered sequence of dimensions with a data array and a gradient
array. -/
structure Blob (α : Type) where
  shape_ : List Nat
  data_ : Buf α
  diff_ : Buf α

namespace Blob

variable {α : Type}

/-- Modelled from the spec: `Blob::num_axes`, the rank. -/
def num_axes (b : Blob α) : Nat := b.shape_.length

/-- Modelled from the spec: `Blob::Reshape(dims)`, which sets the dimensions of
both arrays. -/
def Reshape (b : Blob α) (dims : List Nat) : Blob α := { b with shape_ := dims }

/-- Modelled from the spec: `Blob::Reshape(dims)` on a `vector<int>` whose
entries are not known to be dimensions: it must not be called with a negative
dimension, which is fatal; otherwise it sets the dimensions. -/
def ReshapeSigned (b : Blob α) (dims : List Int) : Except Fatal (Blob α) :=
  if ∀ d ∈ dims, 0 ≤ d then .ok (b.Reshape (dims.map Int.toNat))
  else .error Fatal.negative_dimension

/-- Modelled from the spec: `Blob::ReshapeLike(other)` copies the shape of
`other`. -/
def ReshapeLike (b other : Blob α) : Blob α := b.Reshape other.shape_

/-- Modelled from the spec: `Blob::count()`, the product of all dimensions. -/
def count (b : Blob α) : Nat := b.shape_.prod

/-- Modelled from the spec: `Blob::count(axisStart, axisEnd)`, the product over
the dimension range, which must satisfy `0 <= axisStart <= axisEnd <= rank`. -/
def countRange (b : Blob α) (start_axis end_axis : Nat) : Except Fatal Nat :=
  if start_axis ≤ end_axis ∧ end_axis ≤ b.num_axes then
    .ok ((b.shape_.drop start_axis).take (end_axis - start_axis)).prod
  else .error Fatal.count_range

/-- Modelled from the spec: `Blob::count(axisStart)`, the product of the
dimensions from `axisStart` to the end. -/
def countFrom (b : Blob α) (start_axis : Nat) : Except Fatal Nat :=
  b.countRange start_axis b.num_axes

/-- Modelled from the spec: `Blob::CanonicalAxisIndex(axis)` resolves a negative
index from the end (`axis + rank`) and fails when the result is outside
`[0, rank)`. -/
def CanonicalAxisIndex (b : Blob α) (axis_index : Int) : Except Fatal Nat :=
  if -(b.num_axes : Int) ≤ axis_index ∧ axis_index < (b.num_axes : Int) then
    if axis_index < 0 then .ok (axis_index + (b.num_axes : Int)).toNat
    else .ok axis_index.toNat
  else .error Fatal.axis_out_of_range

/-- Modelled from the spec: `Blob::shape(index)`, the dimension at a canonical
axis. -/
def shape (b : Blob α) (index : Int) : Except Fatal Nat := do
  let i ← b.CanonicalAxisIndex index
  vecAt b.shape_ i

end Blob

/-! ## Numeric kernel library -/

section Kernels

variable {α : Type} [LinearOrderedField α]

/-- Transposition flag of the matrix kernels. -/
inductive CBLAS_TRANSPOSE where
  | CblasNoTrans
  | CblasTrans
  deriving DecidableEq, Repr

open CBLAS_TRANSPOSE

/-- Modelled from the spec: kernel `caffe_set` (math_functions is not among the
sources): `Y[i] = alpha` for `i < N`, `Y` being the pointer `Ybuf + y0`. -/
def caffe_set (N : Nat) (alpha : α) (Ybuf : Buf α) (y0 : Nat) : Buf α :=
  fun p => if y0 ≤ p ∧ p < y0 + N then alpha else Ybuf p

/-- Modelled from the spec: kernel `caffe_copy` (math_functions is not among the
sources): `Y[i] = X[i]` for `i < N`. -/
def caffe_copy (N : Nat) (X : Buf α) (Ybuf : Buf α) (y0 : Nat) : Buf α :=
  fun p => if y0 ≤ p ∧ p < y0 + N then X (p - y0) else Ybuf p

/-- Modelled from the spec: kernel `caffe_exp` (math_functions is not among the
sources): `y[i] = exp(a[i])` for `i < n`. -/
def caffe_exp (exp : α → α) (n : Nat) (a : Buf α) (Ybuf : Buf α) (y0 : Nat) : Buf α :=
  fun p => if y0 ≤ p ∧ p < y0 + n then exp (a (p - y0)) else Ybuf p

/-- Modelled from the spec: kernel `caffe_div` (math_functions is not among the
sources): `y[i] = a[i] / b[i]` for `i < n`. -/
def caffe_div (n : Nat) (a b : Buf α) (Ybuf : Buf α) (y0 : Nat) : Buf α :=
  fun p => if y0 ≤ p ∧ p < y0 + n then a (p - y0) / b (p - y0) else Ybuf p

/-- Modelled from the spec: kernel `caffe_mul` (math_functions is not among the
sources): `y[i] = a[i] * b[i]` for `i < n`. -/
def caffe_mul (n : Nat) (a b : Buf α) (Ybuf : Buf α) (y0 : Nat) : Buf α :=
  fun p => if y0 ≤ p ∧ p < y0 + n then a (p - y0) * b (p - y0) else Ybuf p

/-- Modelled from the spec: kernel `caffe_add` (math_functions is not among the
sources): `y[i] = a[i] + b[i]` for `i < n`. -/
def caffe_add (n : Nat) (a b : Buf α) (Ybuf : Buf α) (y0 : Nat) : Buf α :=
  fun p => if y0 ≤ p ∧ p < y0 + n then a (p - y0) + b (p - y0) else Ybuf p

/-- Modelled from the spec: kernel `caffe_axpy` (math_functions is not among the
sources): `Y[i] = alpha * X[i] + Y[i]` for `i < N`. -/
def caffe_axpy (N : Nat) (alpha : α) (X : Buf α) (Ybuf : Buf α) (y0 : Nat) : Buf α :=
  fun p => if y0 ≤ p ∧ p < y0 + N then alpha * X (p - y0) + Ybuf p else Ybuf p

/-- Modelled from the spec: kernel `caffe_cpu_strided_dot` (math_functions is not
among the sources): the dot product of `n` elements of `x` taken `incx` apart
with `n` elements of `y` taken `incy` apart. -/
def caffe_cpu_strided_dot (n : Nat) (x : Buf α) (incx : Nat) (y : Buf α) (incy : Nat) : α :=
  ∑ t ∈ range n, x (t * incx) * y (t * incy)

/-- Modelled from the spec: kernel `caffe_cpu_gemm` (math_functions is not among
the sources), the row-major generalized matrix multiply
`C = alpha * op(A) * op(B) + beta * C` with `op(A)` of size `M x K`,
`op(B)` of size `K x N` and `C` of size `M x N` at the pointer `Cbuf + c0`. -/
def caffe_cpu_gemm (TransA TransB : CBLAS_TRANSPOSE) (M N K : Nat) (alpha : α)
    (A B : Buf α) (beta : α) (Cbuf : Buf α) (c0 : Nat) : Buf α :=
  fun p =>
    if c0 ≤ p ∧ p < c0 + M * N then
      let i := (p - c0) / N
      let j := (p - c0) % N
      let opA : Nat → α := fun l =>
        match TransA with
        | CblasNoTrans => A (i * K + l)
        | CblasTrans => A (l * M + i)
      let opB : Nat → α := fun l =>
        match TransB with
        | CblasNoTrans => B (l * N + j)
        | CblasTrans => B (j * K + l)
      alpha * (∑ l ∈ range K, opA l * opB l) + beta * Cbuf p
    else Cbuf p

/-- Modelled from the spec: kernel `caffe_cpu_gemv` (math_functions is not among
the sources), the row-major matrix-vector multiply
`y = alpha * op(A) * x + beta * y` with `A` of size `M x N`; `y` has `M`
elements without transposition and `N` elements with it. -/
def caffe_cpu_gemv (TransA : CBLAS_TRANSPOSE) (M N : Nat) (alpha : α)
    (A x : Buf α) (beta : α) (Ybuf : Buf α) (y0 : Nat) : Buf α :=
  fun p =>
    match TransA with
    | CblasNoTrans =>
      if y0 ≤ p ∧ p < y0 + M then
        alpha * (∑ j ∈ range N, A ((p - y0) * N + j) * x j) + beta * Ybuf p
      else Ybuf p
    | CblasTrans =>
      if y0 ≤ p ∧ p < y0 + N then
        alpha * (∑ i ∈ range M, A (i * N + (p - y0)) * x i) + beta * Ybuf p
      else Ybuf p

/-- Modelled from the spec: kernel `caffe_scal` (math_functions is not among the
sources): `X[i] = alpha * X[i]` for `i < N`. -/
def caffe_scal (N : Nat) (alpha : α) (Xbuf : Buf α) (x0 : Nat) : Buf α :=
  fun p => if x0 ≤ p ∧ p < x0 + N then alpha * Xbuf p else Xbuf p

/-- Modelled from the spec: kernel `caffe_add_scalar` (math_functions is not
among the sources): `X[i] = X[i] + alpha` for `i < N`. -/
def caffe_add_scalar (N : Nat) (alpha : α) (Xbuf : Buf α) (x0 : Nat) : Buf α :=
  fun p => if x0 ≤ p ∧ p < x0 + N then Xbuf p + alpha else Xbuf p

/-- Modelled from the spec: kernel `caffe_log` (math_functions is not among the
sources): `y[i] = log(a[i])` for `i < n`. -/
def caffe_log (log : α → α) (n : Nat) (a : Buf α) (Ybuf : Buf α) (y0 : Nat) : Buf α :=
  fun p => if y0 ≤ p ∧ p < y0 + n then log (a (p - y0)) else Ybuf p

/-- Modelled from the spec: kernel `caffe_powx` (math_functions is not among the
sources): `y[i] = a[i] ^ b` for `i < n`, for an integer exponent `b`. -/
def caffe_powx (n : Nat) (a : Buf α) (b : Int) (Ybuf : Buf α) (y0 : Nat) : Buf α :=
  fun p => if y0 ≤ p ∧ p < y0 + n then (a (p - y0)) ^ b else Ybuf p

end Kernels

/-! ## Softmax layer (`softmax_layer.cpp`) -/

/-- The members of `SoftmaxLayer` and the `axis` of its `softmax_param`. -/
structure SoftmaxLayer (α : Type) where
  axis : Int
  softmax_axis_ : Nat
  outer_num_ : Nat
  inner_num_ : Nat
  sum_multiplier_ : Blob α
  scale_ : Blob α

namespace SoftmaxLayer

variable {α : Type} [LinearOrderedField α]

open CBLAS_TRANSPOSE

/-- `SoftmaxLayer::Reshape` on `bottom[0]` and `top[0]`; returns the layer
and `top[0]`. -/
def Reshape (L : SoftmaxLayer α) (bottom top : Blob α) :
    Except Fatal (SoftmaxLayer α × Blob α) := do
  let softmax_axis_ ← bottom.CanonicalAxisIndex L.axis
  let top := top.ReshapeLike bottom
  let mult_dims := [← bottom.shape softmax_axis_]
  let sum_multiplier_ := L.sum_multiplier_.Reshape mult_dims
  let multiplier_data := sum_multiplier_.data_
  let sum_multiplier_ :=
    { sum_multiplier_ with data_ := caffe_set sum_multiplier_.count 1 multiplier_data 0 }
  let outer_num_ ← bottom.countRange 0 softmax_axis_
  let inner_num_ ← bottom.countFrom (softmax_axis_ + 1)
  let scale_dims := bottom.shape_
  let scale_dims := scale_dims.set softmax_axis_ 1
  let scale_ := L.scale_.Reshape scale_dims
  return ({ L with softmax_axis_ := softmax_axis_, sum_multiplier_ := sum_multiplier_,
                   outer_num_ := outer_num_, inner_num_ := inner_num_, scale_ := scale_ }, top)

/-- The running maximum of `Forward_cpu`: the loops over `j` and `k` that update
`scale_data[k]` with `std::max`. -/
def Forward_cpu_max (channels inner_num_ dim i : Nat) (bottom_data scale_data : Buf α) :
    Buf α :=
  forLoop channels (fun j scale_data =>
    forLoop inner_num_ (fun k scale_data =>
      Function.update scale_data k
        (max (scale_data k) (bottom_data (i * dim + j * inner_num_ + k)))) scale_data)
    scale_data

/-- The body of the loop over the outer index `i` in `Forward_cpu`.  The state is
`scale_data`, the top buffer and the offset of the moving pointer `top_data`. -/
def Forward_cpu_body (exp : α → α) (L : SoftmaxLayer α) (channels dim : Nat)
    (bottom_data : Buf α) (i : Nat) (st : Buf α × Buf α × Nat) : Buf α × Buf α × Nat :=
  let (scale_data, top_buf, top_data) := st
  -- initialize scale_data to the first plane
  let scale_data := caffe_copy L.inner_num_ (ptr bottom_data (i * dim)) scale_data 0
  let scale_data := Forward_cpu_max channels L.inner_num_ dim i bottom_data scale_data
  -- subtraction
  let top_buf := caffe_cpu_gemm CblasNoTrans CblasNoTrans channels L.inner_num_ 1 (-1)
    L.sum_multiplier_.data_ scale_data 1 top_buf top_data
  -- exponentiation
  let top_buf := caffe_exp exp dim (ptr top_buf top_data) top_buf top_data
  -- sum after exp
  let scale_data := caffe_cpu_gemv CblasTrans channels L.inner_num_ 1
    (ptr top_buf top_data) L.sum_multiplier_.data_ 0 scale_data 0
  -- division
  let (top_buf, top_data) := forLoop channels (fun _ (st : Buf α × Nat) =>
    let (top_buf, top_data) := st
    let top_buf := caffe_div L.inner_num_ (ptr top_buf top_data) scale_data top_buf top_data
    (top_buf, top_data + L.inner_num_)) (top_buf, top_data)
  (scale_data, top_buf, top_data)

/-- `SoftmaxLayer::Forward_cpu` on `bottom[0]` and `top[0]`; returns the layer
(whose scratch buffer `scale_` was written) and `top[0]`.  The integer division
by `outer_num_` is undefined for zero. -/
def Forward_cpu (exp : α → α) (L : SoftmaxLayer α) (bottom top : Blob α) :
    Except Fatal (SoftmaxLayer α × Blob α) := do
  let bottom_data := bottom.data_
  let top_buf := top.data_
  let scale_data := L.scale_.data_
  let channels ← bottom.shape L.softmax_axis_
  if L.outer_num_ = 0 then throw Fatal.division_by_zero
  let dim := bottom.count / L.outer_num_
  let top_buf := caffe_copy bottom.count bottom_data top_buf 0
  let (scale_data, top_buf, _) :=
    forLoop L.outer_num_ (Forward_cpu_body exp L channels dim bottom_data)
      (scale_data, top_buf, 0)
  return ({ L with scale_ := { L.scale_ with data_ := scale_data } },
          { top with data_ := top_buf })

/-- The body of the loop over the outer index `i` in `Backward_cpu`.  The state is
`scale_data` and the bottom gradient buffer. -/
def Backward_cpu_body (L : SoftmaxLayer α) (channels dim : Nat) (top_data : Buf α)
    (i : Nat) (st : Buf α × Buf α) : Buf α × Buf α :=
  let (scale_data, bottom_diff) := st
  -- compute dot(top_diff, top_data) and subtract them from the bottom diff
  let scale_data := forLoop L.inner_num_ (fun k scale_data =>
    Function.update scale_data k
      (caffe_cpu_strided_dot channels (ptr bottom_diff (i * dim + k)) L.inner_num_
        (ptr top_data (i * dim + k)) L.inner_num_)) scale_data
  -- subtraction
  let bottom_diff := caffe_cpu_gemm CblasNoTrans CblasNoTrans channels L.inner_num_ 1 (-1)
    L.sum_multiplier_.data_ scale_data 1 bottom_diff (i * dim)
  (scale_data, bottom_diff)

/-- `SoftmaxLayer::Backward_cpu` on `top[0]` and `bottom[0]`; returns the layer
and `bottom[0]`. -/
def Backward_cpu (L : SoftmaxLayer α) (top : Blob α) (propagate_down : List Bool)
    (bottom : Blob α) : Except Fatal (SoftmaxLayer α × Blob α) := do
  let _ := propagate_down
  let top_diff := top.diff_
  let top_data := top.data_
  let bottom_diff := bottom.diff_
  let scale_data := L.scale_.data_
  let channels ← top.shape L.softmax_axis_
  if L.outer_num_ = 0 then throw Fatal.division_by_zero
  let dim := top.count / L.outer_num_
  let bottom_diff := caffe_copy top.count top_diff bottom_diff 0
  let (scale_data, bottom_diff) :=
    forLoop L.outer_num_ (Backward_cpu_body L channels dim top_data) (scale_data, bottom_diff)
  -- elementwise multiplication
  let bottom_diff := caffe_mul top.count bottom_diff top_data bottom_diff 0
  return ({ L with scale_ := { L.scale_ with data_ := scale_data } },
          { bottom with diff_ := bottom_diff })

end SoftmaxLayer

/-! ## Inner product layer (`inner_product_layer.cpp`) -/

/-- The conversion of a `uint32` value to `int`, as in
`const int num_output = ...num_output()`: the value modulo `2^32`, read as a
32-bit two's complement number. -/
def uint32_to_int (u : Nat) : Int :=
  if u % 2 ^ 32 < 2 ^ 31 then ((u % 2 ^ 32 : Nat) : Int)
  else ((u % 2 ^ 32 : Nat) : Int) - 2 ^ 32

/-- The members of `InnerProductLayer` and the fields of its
`inner_product_param` (`num_output`, `bias_term`, `axis`).  The option
`num_output` is a `uint32`; the member `N_` is the `int` it is narrowed to and
can be negative.  `M_` and `K_` are element counts of a blob. -/
structure InnerProductLayer (α : Type) where
  num_output : Nat
  bias_term : Bool
  axis : Int
  M_ : Nat
  K_ : Nat
  N_ : Int
  bias_term_ : Bool
  bias_multiplier_ : Blob α
  blobs_ : List (Blob α)
  param_propagate_down_ : List Bool

namespace InnerProductLayer

variable {α : Type} [LinearOrderedField α]

open CBLAS_TRANSPOSE

/-- The constructor `Blob(shape)` on a `vector<int>`: a zero-filled buffer that
is reshaped to the given shape, which is fatal on a negative dimension. -/
def newBlob (dims : List Int) : Except Fatal (Blob α) :=
  (Blob.mk [] (fun _ => 0) (fun _ => 0)).ReshapeSigned dims

/-- `InnerProductLayer::LayerSetUp`.  The filler strategies are collaborators
and are passed in. -/
def LayerSetUp (L : InnerProductLayer α) (weight_filler bias_filler : Blob α → Blob α)
    (bottom : Blob α) : Except Fatal (InnerProductLayer α) := do
  let num_output : Int := uint32_to_int L.num_output
  let bias_term_ := L.bias_term
  let N_ := num_output
  let axis ← bottom.CanonicalAxisIndex L.axis
  let K_ ← bottom.countFrom axis
  let blobs_ ←
    -- Check if we need to set up the weights
    if L.blobs_.length > 0 then pure L.blobs_
    else do
      -- Intialize the weight
      let weight_shape : List Int := [N_, (K_ : Int)]
      let weight ← newBlob weight_shape
      -- fill the weights
      let weight := weight_filler weight
      -- If necessary, intiialize and fill the bias term
      if bias_term_ then
        let bias_shape : List Int := [N_]
        let bias ← newBlob bias_shape
        let bias := bias_filler bias
        pure [weight, bias]
      else
        pure [weight]
  return { L with bias_term_ := bias_term_, N_ := N_, K_ := K_, blobs_ := blobs_,
                  param_propagate_down_ :=
                    vecResize L.param_propagate_down_ blobs_.length true }

/-- `InnerProductLayer::Reshape` on `bottom[0]` and `top[0]`; returns the layer
and `top[0]`. -/
def Reshape (L : InnerProductLayer α) (bottom top : Blob α) :
    Except Fatal (InnerProductLayer α × Blob α) := do
  -- Figure out the dimensions
  let axis ← bottom.CanonicalAxisIndex L.axis
  let new_K ← bottom.countFrom axis
  if L.K_ ≠ new_K then throw Fatal.input_size_incompatible
  let M_ ← bottom.countRange 0 axis
  let top_shape : List Int := bottom.shape_.map Int.ofNat
  let top_shape := vecResize top_shape (axis + 1) 0
  let top_shape := top_shape.set axis L.N_
  let top ← top.ReshapeSigned top_shape
  -- Set up the bias multiplier
  if L.bias_term_ then
    let bias_shape := [M_]
    let bias_multiplier_ := L.bias_multiplier_.Reshape bias_shape
    let bias_multiplier_ :=
      { bias_multiplier_ with data_ := caffe_set M_ 1 bias_multiplier_.data_ 0 }
    return ({ L with M_ := M_, bias_multiplier_ := bias_multiplier_ }, top)
  else
    return ({ L with M_ := M_ }, top)

/-- `InnerProductLayer::Forward_cpu` on `bottom[0]` and `top[0]`; returns
`top[0]`.  The kernels take the `int` `N_` as a count of rows or columns, here
and in `Backward_cpu`; after a `Reshape` that returned, `N_` is not negative. -/
def Forward_cpu (L : InnerProductLayer α) (bottom top : Blob α) : Except Fatal (Blob α) := do
  let bottom_data := bottom.data_
  let top_data := top.data_
  let weight := (← vecAt L.blobs_ 0).data_
  let top_data := caffe_cpu_gemm CblasNoTrans CblasTrans L.M_ L.N_.toNat L.K_ 1
    bottom_data weight 0 top_data 0
  if L.bias_term_ then
    let bias := (← vecAt L.blobs_ 1).data_
    let top_data := caffe_cpu_gemm CblasNoTrans CblasNoTrans L.M_ L.N_.toNat 1 1
      L.bias_multiplier_.data_ bias 1 top_data 0
    return { top with data_ := top_data }
  else
    return { top with data_ := top_data }

/-- The weight-gradient step of `Backward_cpu`, taken when
`param_propagate_down_[0]` holds. -/
def Backward_cpu_weight (L : InnerProductLayer α) (top bottom : Blob α) :
    Except Fatal (InnerProductLayer α) := do
  if (← vecAt L.param_propagate_down_ 0) then
    let top_diff := top.diff_
    let bottom_data := bottom.data_
    -- Gradient with respect to weight
    let w ← vecAt L.blobs_ 0
    let w_diff := caffe_cpu_gemm CblasTrans CblasNoTrans L.N_.toNat L.K_ L.M_ 1
      top_diff bottom_data 1 w.diff_ 0
    return { L with blobs_ := L.blobs_.set 0 { w with diff_ := w_diff } }
  else
    return L

/-- The bias-gradient step of `Backward_cpu`, taken when `bias_term_` and
`param_propagate_down_[1]` hold. -/
def Backward_cpu_bias (L : InnerProductLayer α) (top : Blob α) :
    Except Fatal (InnerProductLayer α) := do
  if L.bias_term_ then
    if (← vecAt L.param_propagate_down_ 1) then
      let top_diff := top.diff_
      -- Gradient with respect to bias
      let b ← vecAt L.blobs_ 1
      let b_diff := caffe_cpu_gemv CblasTrans L.M_ L.N_.toNat 1 top_diff
        L.bias_multiplier_.data_ 1 b.diff_ 0
      return { L with blobs_ := L.blobs_.set 1 { b with diff_ := b_diff } }
    else
      return L
  else
    return L

/-- The input-gradient step of `Backward_cpu`, taken when `propagate_down[0]`
holds. -/
def Backward_cpu_bottom (L : InnerProductLayer α) (top : Blob α)
    (propagate_down : List Bool) (bottom : Blob α) : Except Fatal (Blob α) := do
  if (← vecAt propagate_down 0) then
    let top_diff := top.diff_
    -- Gradient with respect to bottom data
    let w ← vecAt L.blobs_ 0
    let bottom_diff := caffe_cpu_gemm CblasNoTrans CblasNoTrans L.M_ L.K_ L.N_.toNat 1
      top_diff w.data_ 0 bottom.diff_ 0
    return { bottom with diff_ := bottom_diff }
  else
    return bottom

/-- `InnerProductLayer::Backward_cpu` on `top[0]` and `bottom[0]`: the three
steps in source order; returns the layer (whose parameter gradients were
written) and `bottom[0]`. -/
def Backward_cpu (L : InnerProductLayer α) (top : Blob α) (propagate_down : List Bool)
    (bottom : Blob α) : Except Fatal (InnerProductLayer α × Blob α) := do
  let L ← Backward_cpu_weight L top bottom
  let L ← Backward_cpu_bias L top
  let bottom ← Backward_cpu_bottom L top propagate_down bottom
  return (L, bottom)

end InnerProductLayer

/-! ## Split layer (`split_layer.cpp`) -/

/-- The blobs of the net by address: a `BlobBase*` is an address. -/
abbrev Mem (α : Type) := Nat → Blob α

/-- The member of `SplitLayer`. -/
structure SplitLayer where
  count_ : Nat
  deriving DecidableEq, Repr

namespace SplitLayer

variable {α : Type} [LinearOrderedField α]

/-- The body of the loop over the outputs in `Reshape`. -/
def Reshape_body (count_ : Nat) (bottom top : List Nat) (i : Nat) (mem : Mem α) :
    Except Fatal (Mem α) := do
  let top_i ← vecAt top i
  let bottom_0 ← vecAt bottom 0
  if top_i = bottom_0 then throw Fatal.in_place
  let mem := Function.update mem top_i ((mem top_i).ReshapeLike (mem bottom_0))
  if count_ ≠ (mem top_i).count then throw Fatal.count_mismatch
  return mem

/-- `SplitLayer::Reshape` on the addresses `bottom` and `top`. -/
def Reshape (_L : SplitLayer) (mem : Mem α) (bottom top : List Nat) :
    Except Fatal (SplitLayer × Mem α) := do
  let count_ := (mem (← vecAt bottom 0)).count
  let mem ← forLoopM top.length (Reshape_body count_ bottom top) mem
  return ({ count_ := count_ }, mem)

/-- The body of the loop `for (i = 2; i < top.size(); ++i)` in `Backward_cpu`;
the loop counter starts at zero here, hence `top[i + 2]`. -/
def Backward_cpu_body (L : SplitLayer) (top bottom : List Nat) (i : Nat) (mem : Mem α) :
    Except Fatal (Mem α) := do
  let top_diff := (mem (← vecAt top (i + 2))).diff_
  let bottom_0 ← vecAt bottom 0
  let bottom_diff := (mem bottom_0).diff_
  let bottom_diff := caffe_axpy L.count_ 1 top_diff bottom_diff 0
  return Function.update mem bottom_0 { mem bottom_0 with diff_ := bottom_diff }

/-- `SplitLayer::Backward_cpu` on the addresses `top` and `bottom`. -/
def Backward_cpu (L : SplitLayer) (mem : Mem α) (top : List Nat)
    (propagate_down : List Bool) (bottom : List Nat) : Except Fatal (Mem α) := do
  if !(← vecAt propagate_down 0) then return mem
  if top.length = 1 then
    let top_0 ← vecAt top 0
    let bottom_0 ← vecAt bottom 0
    let bottom_diff := caffe_copy L.count_ (mem top_0).diff_ (mem bottom_0).diff_ 0
    return Function.update mem bottom_0 { mem bottom_0 with diff_ := bottom_diff }
  let top_0 ← vecAt top 0
  let top_1 ← vecAt top 1
  let bottom_0 ← vecAt bottom 0
  let bottom_diff := caffe_add L.count_ (mem top_0).diff_ (mem top_1).diff_
    (mem bottom_0).diff_ 0
  let mem := Function.update mem bottom_0 { mem bottom_0 with diff_ := bottom_diff }
  -- Add remaining top blob diffs.
  forLoopM (top.length - 2) (Backward_cpu_body L top bottom) mem

end SplitLayer

/-! ## Log layer (`log_layer.cpp`) -/

/-- The result of a floating-point operation on finite operands, computed
exactly: a finite value, an infinity or a NaN. -/
inductive Fp (α : Type) where
  | finite (x : α)
  | inf
  | nan

namespace Fp

variable {α : Type} [LinearOrderedField α]

/-- The library call `log(x)` on a finite `x`: finite for `0 < x`, an infinity
at zero and a NaN below zero. -/
def log (ln : α → α) (x : α) : Fp α :=
  if 0 < x then finite (ln x) else if x = 0 then inf else nan

/-- The quotient `a / b` of finite operands: an infinity for a nonzero `a` over
zero and a NaN for zero over zero. -/
def div (a b : α) : Fp α :=
  if b = 0 then (if a = 0 then nan else inf) else finite (a / b)

/-- The pair of checks `CHECK(!isnan(v))` and `CHECK(!isinf(v))`: a NaN fails
the first, an infinity the second, and a finite value passes both. -/
def checked : Fp α → Except Fatal α
  | nan => .error Fatal.nan_result
  | inf => .error Fatal.inf_result
  | finite x => .ok x

end Fp

/-- The members of `LogLayer` and the fields `base`, `scale`, `shift` of its
`log_param`. -/
structure LogLayer (α : Type) where
  base : α
  scale : α
  shift : α
  base_scale_ : α
  input_scale_ : α
  input_shift_ : α
  backward_num_scale_ : α

namespace LogLayer

variable {α : Type} [LinearOrderedField α]

/-- The local `log_base` of `LayerSetUp`: exactly one for the base `-1`, else the
logarithm of the base. -/
def LayerSetUp_log_base (ln : α → α) (base : α) : Fp α :=
  if base = -1 then Fp.finite 1 else Fp.log ln base

/-- `LogLayer::LayerSetUp`, after the set-up of the base class.  The checks on
`log_base` and on `base_scale_` are `Fp.checked`. -/
def LayerSetUp (ln : α → α) (L : LogLayer α) : Except Fatal (LogLayer α) := do
  let base := L.base
  if base ≠ -1 then
    if ¬ (base > 0) then throw Fatal.base_not_positive
  -- If base == -1, interpret the base as e and set log_base = 1 exactly.
  -- Otherwise, calculate its log explicitly.
  let log_base ← (LayerSetUp_log_base ln base).checked
  let base_scale_ ← (Fp.div 1 log_base).checked
  let input_scale_ := L.scale
  let input_shift_ := L.shift
  let backward_num_scale_ := input_scale_ / log_base
  return { L with base_scale_ := base_scale_, input_scale_ := input_scale_,
                  input_shift_ := input_shift_, backward_num_scale_ := backward_num_scale_ }

/-- `LogLayer::Forward_cpu` on `bottom[0]` and `top[0]`; returns `top[0]`. -/
def Forward_cpu (ln : α → α) (L : LogLayer α) (bottom top : Blob α) : Blob α :=
  let count := bottom.count
  let bottom_data := bottom.data_
  let top_data := top.data_
  let top_data :=
    if L.input_scale_ = 1 ∧ L.input_shift_ = 0 then
      caffe_log ln count bottom_data top_data 0
    else
      let top_data := caffe_copy count bottom_data top_data 0
      let top_data :=
        if L.input_scale_ ≠ 1 then caffe_scal count L.input_scale_ top_data 0 else top_data
      let top_data :=
        if L.input_shift_ ≠ 0 then caffe_add_scalar count L.input_shift_ top_data 0
        else top_data
      caffe_log ln count top_data top_data 0
  let top_data :=
    if L.base_scale_ ≠ 1 then caffe_scal count L.base_scale_ top_data 0 else top_data
  { top with data_ := top_data }

/-- `LogLayer::Backward_cpu` on `top[0]` and `bottom[0]`; returns `bottom[0]`. -/
def Backward_cpu (L : LogLayer α) (top : Blob α) (propagate_down : List Bool)
    (bottom : Blob α) : Except Fatal (Blob α) := do
  if !(← vecAt propagate_down 0) then return bottom
  let count := bottom.count
  let bottom_data := bottom.data_
  let top_diff := top.diff_
  let bottom_diff := bottom.diff_
  let bottom_diff := caffe_copy count bottom_data bottom_diff 0
  let bottom_diff :=
    if L.input_scale_ ≠ 1 then caffe_scal count L.input_scale_ bottom_diff 0 else bottom_diff
  let bottom_diff :=
    if L.input_shift_ ≠ 0 then caffe_add_scalar count L.input_shift_ bottom_diff 0
    else bottom_diff
  let bottom_diff := caffe_powx count bottom_diff (-1) bottom_diff 0
  let bottom_diff :=
    if L.backward_num_scale_ ≠ 1 then caffe_scal count L.backward_num_scale_ bottom_diff 0
    else bottom_diff
  let bottom_diff := caffe_mul count top_diff bottom_diff bottom_diff 0
  return { bottom with diff_ := bottom_diff }

end LogLayer

/-! ## cuDNN activation layers (`cudnn_relu_layer.cpp`, `cudnn_sigmoid_layer.cpp`) -/

/-- A call of the descriptor interface on a descriptor handle. -/
inductive DescEvent where
  | create (desc : Nat)
  | destroy (desc : Nat)
  deriving DecidableEq, Repr

/-- Modelled from the spec: the device descriptor interface (cudnn.hpp is not
among the sources): descriptors are opaque handles; the state is the next
unused handle and the calls made so far, oldest first. -/
structure Cudnn where
  next : Nat
  calls : List DescEvent
  deriving DecidableEq, Repr

namespace Cudnn

/-- Modelled from the spec: `cudnn::createTensor4dDesc(&desc)` (cudnn.hpp is not
among the sources): creates a descriptor and stores its handle in `desc`. -/
def createTensor4dDesc (B : Cudnn) : Nat × Cudnn :=
  (B.next, { next := B.next + 1, calls := B.calls ++ [DescEvent.create B.next] })

/-- Modelled from the spec: `cudnnDestroyTensorDescriptor(desc)` (the cuDNN
library is not among the sources): releases the descriptor. -/
def cudnnDestroyTensorDescriptor (B : Cudnn) (desc : Nat) : Cudnn :=
  { B with calls := B.calls ++ [DescEvent.destroy desc] }

/-- The calls made between the state `B0` and the later state `B1`. -/
def callsSince (B0 B1 : Cudnn) : List DescEvent :=
  B1.calls.drop B0.calls.length

/-- The descriptors created by a sequence of calls, in call order. -/
def created (calls : List DescEvent) : List Nat :=
  calls.filterMap (fun e => match e with
    | DescEvent.create d => some d
    | DescEvent.destroy _ => none)

/-- The descriptors destroyed by a sequence of calls, in call order. -/
def destroyed (calls : List DescEvent) : List Nat :=
  calls.filterMap (fun e => match e with
    | DescEvent.create _ => none
    | DescEvent.destroy d => some d)

end Cudnn

/-- The members of `CuDNNReLULayer`. -/
structure CuDNNReLULayer where
  handles_setup_ : Bool
  bottom_desc_ : Nat
  top_desc_ : Nat
  deriving DecidableEq, Repr

namespace CuDNNReLULayer

/-- `CuDNNReLULayer::LayerSetUp`, after the set-up of the base class. -/
def LayerSetUp (L : CuDNNReLULayer) (B : Cudnn) : CuDNNReLULayer × Cudnn :=
  -- initialize cuDNN
  let (bottom_desc_, B) := B.createTensor4dDesc
  let (top_desc_, B) := B.createTensor4dDesc
  ({ L with bottom_desc_ := bottom_desc_, top_desc_ := top_desc_, handles_setup_ := true }, B)

/-- The destructor `CuDNNReLULayer::~CuDNNReLULayer`. -/
def destructor (L : CuDNNReLULayer) (B : Cudnn) : Cudnn :=
  -- Check that handles have been setup before destroying.
  if !L.handles_setup_ then B
  else
    let B := B.cudnnDestroyTensorDescriptor L.bottom_desc_
    let B := B.cudnnDestroyTensorDescriptor L.top_desc_
    B

end CuDNNReLULayer

/-- The members of `CuDNNSigmoidLayer`. -/
structure CuDNNSigmoidLayer where
  handles_setup_ : Bool
  bottom_desc_ : Nat
  top_desc_ : Nat
  deriving DecidableEq, Repr

namespace CuDNNSigmoidLayer

/-- `CuDNNSigmoidLayer::LayerSetUp`, after the set-up of the base class. -/
def LayerSetUp (L : CuDNNSigmoidLayer) (B : Cudnn) : CuDNNSigmoidLayer × Cudnn :=
  -- initialize cuDNN
  let (bottom_desc_, B) := B.createTensor4dDesc
  let (top_desc_, B) := B.createTensor4dDesc
  ({ L with bottom_desc_ := bottom_desc_, top_desc_ := top_desc_, handles_setup_ := true }, B)

/-- The destructor `CuDNNSigmoidLayer::~CuDNNSigmoidLayer`. -/
def destructor (L : CuDNNSigmoidLayer) (B : Cudnn) : Cudnn :=
  -- Check that handles have been setup before destroying.
  if !L.handles_setup_ then B
  else
    let B := B.cudnnDestroyTensorDescriptor L.bottom_desc_
    let B := B.cudnnDestroyTensorDescriptor L.top_desc_
    B

end CuDNNSigmoidLayer

/-! ## Reference functions used in the statements -/

section Reference

variable {α : Type} [LinearOrderedField α]

/-- The running maximum that `SoftmaxLayer::Forward_cpu` holds in `scale_data[k]`
for the outer index `i`: it starts at the first plane and is folded with
`std::max` over the channels. -/
def chanMax (channels inner_num dim i : Nat) (x : Buf α) (k : Nat) : α :=
  forLoop channels (fun j m => max m (x (i * dim + j * inner_num + k))) (x (i * dim + k))

/-- The value `exp(x - m) / sum over the channels of exp(x - m)` at outer index
`i`, channel `c` and inner position `k`, with `m` the running maximum. -/
def softmaxRef (exp : α → α) (channels inner_num dim : Nat) (x : Buf α) (i c k : Nat) : α :=
  exp (x (i * dim + c * inner_num + k) - chanMax channels inner_num dim i x k)
    / ∑ c' ∈ range channels,
        exp (x (i * dim + c' * inner_num + k) - chanMax channels inner_num dim i x k)

/-- The naive softmax of the specification, without the subtraction of the
maximum: `exp(x) / sum over the channels of exp(x)` at outer index `i`, channel
`c` and inner position `k`. -/
def naiveSoftmax (exp : α → α) (channels inner_num dim : Nat) (x : Buf α) (i c k : Nat) : α :=
  exp (x (i * dim + c * inner_num + k))
    / ∑ c' ∈ range channels, exp (x (i * dim + c' * inner_num + k))

/-- The layer that `InnerProductLayer::Reshape` leaves behind when it computed
`M_ = M`: the bias multiplier is reallocated and set to ones only with a bias. -/
def InnerProductLayer.reshaped (L : InnerProductLayer α) (M : Nat) : InnerProductLayer α :=
  if L.bias_term_ then
    { L with M_ := M, bias_multiplier_ :=
        { (L.bias_multiplier_.Reshape [M]) with
          data_ := caffe_set M 1 (L.bias_multiplier_.Reshape [M]).data_ 0 } }
  else { L with M_ := M }

end Reference

/-! ## Concrete inputs -/

section Examples

variable (α : Type) [LinearOrderedField α]

/-- A softmax layer over axis 1 that has not been reshaped yet. -/
def exSoftmaxLayer : SoftmaxLayer α :=
  { axis := 1, softmax_axis_ := 0, outer_num_ := 0, inner_num_ := 0,
    sum_multiplier_ := ⟨[], fun _ => 0, fun _ => 0⟩,
    scale_ := ⟨[], fun _ => 0, fun _ => 0⟩ }

/-- A `2 x 3 x 2` input holding `0, 1, 2, ...`. -/
def exBottom : Blob α := ⟨[2, 3, 2], fun p => (p : α), fun _ => 0⟩

/-- The input `exBottom` with 5 added to every value. -/
def exBottomShifted : Blob α := ⟨[2, 3, 2], fun p => (p : α) + 5, fun _ => 0⟩

/-- A `2 x 3 x 2` output holding `1, 2, 3, ...` with gradient `0, 2, 4, ...`. -/
def exGrad : Blob α := ⟨[2, 3, 2], fun p => (p : α) + 1, fun p => 2 * (p : α)⟩

/-- A `2 x 3 x 2` output holding `1/3` everywhere with gradient `0, 1, 2, ...`. -/
def exUniform : Blob α := ⟨[2, 3, 2], fun _ => 1 / 3, fun p => (p : α)⟩

/-- An output blob that has not been shaped yet. -/
def exTop : Blob α := ⟨[], fun _ => 0, fun _ => 0⟩

/-- An inner product layer with two outputs and a bias over axis 1 before
`LayerSetUp`. -/
def exInnerProductFresh : InnerProductLayer α :=
  { num_output := 2, bias_term := true, axis := 1, M_ := 0, K_ := 0, N_ := 0,
    bias_term_ := false, bias_multiplier_ := ⟨[], fun _ => 0, fun _ => 0⟩,
    blobs_ := [], param_propagate_down_ := [] }

/-- A `2 x 10` weight holding `0, 1, 2, ...` with zero gradient. -/
def exWeight : Blob α := ⟨[2, 10], fun p => (p : α), fun _ => 0⟩

/-- A bias `7, 8` with zero gradient. -/
def exBias : Blob α := ⟨[2], fun p => (p : α) + 7, fun _ => 0⟩

/-- An inner product layer with two outputs and a bias over axis 1, set up for
ten features with the parameters `exWeight` and `exBias`. -/
def exInnerProductLayer : InnerProductLayer α :=
  { num_output := 2, bias_term := true, axis := 1, M_ := 0, K_ := 10, N_ := 2,
    bias_term_ := true, bias_multiplier_ := ⟨[], fun _ => 0, fun _ => 0⟩,
    blobs_ := [exWeight α, exBias α],
    param_propagate_down_ := [true, true] }

/-- An inner product layer over axis 1 before `LayerSetUp` whose option
`num_output` is `4294967295` and whose parameter blobs `exWeight` and `exBias`
are already attached. -/
def exInnerProductAttached : InnerProductLayer α :=
  { num_output := 4294967295, bias_term := true, axis := 1, M_ := 0, K_ := 0, N_ := 0,
    bias_term_ := false, bias_multiplier_ := ⟨[], fun _ => 0, fun _ => 0⟩,
    blobs_ := [exWeight α, exBias α],
    param_propagate_down_ := [] }

/-- Three samples of ten features. -/
def exInput10 : Blob α := ⟨[3, 10], fun p => (p : α), fun _ => 0⟩

/-- Three samples of twelve features. -/
def exInput12 : Blob α := ⟨[3, 12], fun p => (p : α), fun _ => 0⟩

/-- An output of three samples and two values with gradient `1, 2, 3, ...`. -/
def exOutput : Blob α := ⟨[3, 2], fun _ => 0, fun p => (p : α) + 1⟩

/-- A memory of `2 x 2` blobs: the blob at address `a` holds the gradient
`10 a, 10 a + 1, ...`. -/
def exMem : Mem α := fun a => ⟨[2, 2], fun p => (p : α), fun p => 10 * (a : α) + (p : α)⟩

/-- A log layer with the natural base (the sentinel `-1`), scale 1 and shift 0
before `LayerSetUp`. -/
def exLogNatural : LogLayer α := ⟨-1, 1, 0, 0, 0, 0, 0⟩

/-- A log layer with base 2, scale 3 and shift 1 before `LayerSetUp`. -/
def exLogBase2 : LogLayer α := ⟨2, 3, 1, 0, 0, 0, 0⟩

/-- Four positive inputs `1, 2, 3, 4` with gradient `0`. -/
def exPositive : Blob α := ⟨[4], fun p => (p : α) + 1, fun _ => 0⟩

/-- Four outputs with gradient `5, 6, 7, 8`. -/
def exLogTop : Blob α := ⟨[4], fun _ => 0, fun p => (p : α) + 5⟩

/-- A cuDNN ReLU layer before `LayerSetUp`. -/
def exReLU : CuDNNReLULayer := ⟨false, 0, 0⟩

/-- A cuDNN sigmoid layer before `LayerSetUp`. -/
def exSigmoid : CuDNNSigmoidLayer := ⟨false, 0, 0⟩

/-- A descriptor interface on which nothing was called yet. -/
def exCudnn : Cudnn := ⟨0, []⟩

end Examples

end Caffe

namespace Caffe

open Finset

/-! ## Loops and index arithmetic -/

theorem forLoop_succ {σ : Type} (n : Nat) (body : Nat → σ → σ) (s : σ) :
    forLoop (n + 1) body s = body n (forLoop n body s) := rfl

theorem forLoopM_succ {σ : Type} (n : Nat) (body : Nat → σ → Except Fatal σ) (s : σ) :
    forLoopM (n + 1) body s = forLoopM n body s >>= body n := rfl

/-- A loop that rewrites cell `k` of a buffer at step `k` from its old value. -/
theorem forLoop_update {β : Type} (n : Nat) (g : Nat → β → β) (sd : Nat → β) :
    forLoop n (fun k sd => Function.update sd k (g k (sd k))) sd
      = fun k => if k < n then g k (sd k) else sd k := by
  induction n with
  | zero => funext k; simp [forLoop]
  | succ n ih =>
    rw [forLoop_succ, ih]
    funext k
    by_cases hk : k = n
    · subst hk; simp
    · rw [Function.update_noteq hk]
      by_cases hlt : k < n
      · have : k < n + 1 := by omega
        simp [hlt, this]
      · have : ¬ k < n + 1 := by omega
        simp [hlt, this]

/-- A loop that writes cell `k` of a buffer at step `k` with a fixed value. -/
theorem forLoop_update_const {β : Type} (n : Nat) (g : Nat → β) (sd : Nat → β) :
    forLoop n (fun k sd => Function.update sd k (g k)) sd
      = fun k => if k < n then g k else sd k :=
  forLoop_update n (fun k _ => g k) sd

theorem idx_lt {c C k I : Nat} (hc : c < C) (hk : k < I) : c * I + k < C * I := by
  calc c * I + k < c * I + I := by omega
    _ = (c + 1) * I := by ring
    _ ≤ C * I := Nat.mul_le_mul_right I hc

theorem idx_div {c k I : Nat} (hk : k < I) : (c * I + k) / I = c := by
  have hI : 0 < I := by omega
  rw [Nat.add_comm, Nat.add_mul_div_right _ _ hI, Nat.div_eq_of_lt hk, Nat.zero_add]

theorem idx_mod {c k I : Nat} (hk : k < I) : (c * I + k) % I = k := by
  rw [Nat.add_comm, Nat.add_mul_mod_self_right, Nat.mod_eq_of_lt hk]

/-! ## Tensor buffer facts -/

namespace Blob

variable {α : Type}

theorem CanonicalAxisIndex_ok (b : Blob α) (axis : Int)
    (h : -(b.num_axes : Int) ≤ axis ∧ axis < (b.num_axes : Int)) :
    ∃ a, b.CanonicalAxisIndex axis = .ok a ∧ a < b.num_axes := by
  unfold CanonicalAxisIndex
  rw [if_pos h]
  by_cases hneg : axis < 0
  · refine ⟨(axis + (b.num_axes : Int)).toNat, by rw [if_pos hneg], ?_⟩
    omega
  · refine ⟨axis.toNat, by rw [if_neg hneg], ?_⟩
    omega

theorem CanonicalAxisIndex_nat (b : Blob α) (a : Nat) (h : a < b.num_axes) :
    b.CanonicalAxisIndex (a : Int) = .ok a := by
  unfold CanonicalAxisIndex
  have h1 : -(b.num_axes : Int) ≤ (a : Int) ∧ (a : Int) < (b.num_axes : Int) := by omega
  have h2 : ¬ (a : Int) < 0 := by omega
  rw [if_pos h1, if_neg h2]
  simp

theorem CanonicalAxisIndex_lt (b : Blob α) (axis : Int) (a : Nat)
    (h : b.CanonicalAxisIndex axis = .ok a) : a < b.num_axes := by
  unfold CanonicalAxisIndex at h
  split_ifs at h with h1 h2
  · cases h; omega
  · cases h; omega

theorem shape_nat (b : Blob α) (a : Nat) (h : a < b.num_axes) :
    b.shape (a : Int) = .ok (b.shape_.getD a 0) := by
  unfold shape
  rw [CanonicalAxisIndex_nat b a h]
  have h2 : a < b.shape_.length := h
  simp [vecAt, bind, Except.bind, List.getElem?_eq_getElem h2, List.getD_eq_getElem _ _ h2]

theorem countRange_ok (b : Blob α) (s e : Nat) (h : s ≤ e ∧ e ≤ b.num_axes) :
    b.countRange s e = .ok ((b.shape_.drop s).take (e - s)).prod := by
  unfold countRange
  rw [if_pos h]

theorem countFrom_ok (b : Blob α) (s : Nat) (h : s ≤ b.num_axes) :
    b.countFrom s = .ok (b.shape_.drop s).prod := by
  unfold countFrom
  rw [countRange_ok b s _ ⟨h, le_refl _⟩]
  have : (b.shape_.drop s).take (b.num_axes - s) = b.shape_.drop s := by
    apply List.take_of_length_le
    simp [num_axes]
  rw [this]

theorem prod_split (s : List Nat) (a : Nat) (h : a < s.length) :
    s.prod = (s.take a).prod * (s.getD a 0 * (s.drop (a + 1)).prod) := by
  have h1 : s.prod = (s.take a).prod * (s.drop a).prod := (List.prod_take_mul_prod_drop s a).symm
  have h2 : s.drop a = s[a] :: s.drop (a + 1) := List.drop_eq_getElem_cons h
  rw [h1, h2, List.prod_cons, List.getD_eq_getElem _ _ h]

end Blob

end Caffe

namespace Caffe

open Finset CBLAS_TRANSPOSE

/-! ## Kernel facts -/

section KernelFacts

variable {α : Type} [LinearOrderedField α]

theorem caffe_cpu_gemm_out (TA TB : CBLAS_TRANSPOSE) (M N K : Nat) (alpha beta : α)
    (A B C : Buf α) (c0 p : Nat) (h : p < c0 ∨ c0 + M * N ≤ p) :
    caffe_cpu_gemm TA TB M N K alpha A B beta C c0 p = C p := by
  unfold caffe_cpu_gemm
  have : ¬ (c0 ≤ p ∧ p < c0 + M * N) := by omega
  simp only [this, if_false]

theorem caffe_cpu_gemm_nn (M N K : Nat) (alpha beta : α) (A B C : Buf α) (c0 i j : Nat)
    (hi : i < M) (hj : j < N) :
    caffe_cpu_gemm CblasNoTrans CblasNoTrans M N K alpha A B beta C c0 (c0 + (i * N + j))
      = alpha * (∑ l ∈ range K, A (i * K + l) * B (l * N + j))
        + beta * C (c0 + (i * N + j)) := by
  unfold caffe_cpu_gemm
  have h1 : c0 ≤ c0 + (i * N + j) ∧ c0 + (i * N + j) < c0 + M * N := by
    have := idx_lt hi hj
    omega
  simp only [h1, and_self, if_true, Nat.add_sub_cancel_left, idx_div hj, idx_mod hj]

theorem caffe_cpu_gemm_nt (M N K : Nat) (alpha beta : α) (A B C : Buf α) (c0 i j : Nat)
    (hi : i < M) (hj : j < N) :
    caffe_cpu_gemm CblasNoTrans CblasTrans M N K alpha A B beta C c0 (c0 + (i * N + j))
      = alpha * (∑ l ∈ range K, A (i * K + l) * B (j * K + l))
        + beta * C (c0 + (i * N + j)) := by
  unfold caffe_cpu_gemm
  have h1 : c0 ≤ c0 + (i * N + j) ∧ c0 + (i * N + j) < c0 + M * N := by
    have := idx_lt hi hj
    omega
  simp only [h1, and_self, if_true, Nat.add_sub_cancel_left, idx_div hj, idx_mod hj]

theorem caffe_cpu_gemm_tn (M N K : Nat) (alpha beta : α) (A B C : Buf α) (c0 i j : Nat)
    (hi : i < M) (hj : j < N) :
    caffe_cpu_gemm CblasTrans CblasNoTrans M N K alpha A B beta C c0 (c0 + (i * N + j))
      = alpha * (∑ l ∈ range K, A (l * M + i) * B (l * N + j))
        + beta * C (c0 + (i * N + j)) := by
  unfold caffe_cpu_gemm
  have h1 : c0 ≤ c0 + (i * N + j) ∧ c0 + (i * N + j) < c0 + M * N := by
    have := idx_lt hi hj
    omega
  simp only [h1, and_self, if_true, Nat.add_sub_cancel_left, idx_div hj, idx_mod hj]

/-- The rank-one update used for broadcasting: `C[i][j] += alpha * A[i] * B[j]`. -/
theorem caffe_cpu_gemm_rank1 (M N : Nat) (alpha : α) (A B C : Buf α) (c0 i j : Nat)
    (hi : i < M) (hj : j < N) :
    caffe_cpu_gemm CblasNoTrans CblasNoTrans M N 1 alpha A B 1 C c0 (c0 + (i * N + j))
      = alpha * (A i * B j) + C (c0 + (i * N + j)) := by
  rw [caffe_cpu_gemm_nn M N 1 alpha 1 A B C c0 i j hi hj]
  simp

theorem caffe_cpu_gemv_t_in (M N : Nat) (alpha beta : α) (A x Y : Buf α) (k : Nat)
    (hk : k < N) :
    caffe_cpu_gemv CblasTrans M N alpha A x beta Y 0 k
      = alpha * (∑ i ∈ range M, A (i * N + k) * x i) + beta * Y k := by
  unfold caffe_cpu_gemv
  simp [hk]

theorem caffe_cpu_gemv_t_out (M N : Nat) (alpha beta : α) (A x Y : Buf α) (k : Nat)
    (hk : N ≤ k) :
    caffe_cpu_gemv CblasTrans M N alpha A x beta Y 0 k = Y k := by
  unfold caffe_cpu_gemv
  have : ¬ k < N := by omega
  simp [this]

end KernelFacts

end Caffe

namespace Caffe

open Finset CBLAS_TRANSPOSE

/-! ## Softmax forward pass -/

namespace SoftmaxLayer

variable {α : Type} [LinearOrderedField α]

/-- The running maximum after the loops over `j` and `k`. -/
theorem Forward_cpu_max_eq (channels inner dim i : Nat) (x sd : Buf α) :
    Forward_cpu_max channels inner dim i x sd
      = fun k => if k < inner then
          forLoop channels (fun j m => max m (x (i * dim + j * inner + k))) (sd k)
        else sd k := by
  induction channels with
  | zero => funext k; simp [Forward_cpu_max, forLoop]
  | succ n ih =>
    have hstep : Forward_cpu_max (n + 1) inner dim i x sd
        = forLoop inner (fun k sd => Function.update sd k
            ((fun k v => max v (x (i * dim + n * inner + k))) k (sd k)))
            (Forward_cpu_max n inner dim i x sd) := rfl
    rw [hstep, forLoop_update inner (fun k v => max v (x (i * dim + n * inner + k))), ih]
    funext k
    by_cases hk : k < inner
    · simp [hk, forLoop]
    · simp [hk]

/-- The division loop: every one of the `n` planes is divided by `scale_data`
and the pointer advances by `inner` per plane. -/
theorem Forward_cpu_div_loop (inner n : Nat) (sd tb : Buf α) (tp : Nat) :
    (forLoop n (fun _ (st : Buf α × Nat) =>
        (caffe_div inner (ptr st.1 st.2) sd st.1 st.2, st.2 + inner)) (tb, tp)).2
        = tp + n * inner ∧
    (∀ c < n, ∀ k < inner,
      (forLoop n (fun _ (st : Buf α × Nat) =>
        (caffe_div inner (ptr st.1 st.2) sd st.1 st.2, st.2 + inner)) (tb, tp)).1
          (tp + (c * inner + k)) = tb (tp + (c * inner + k)) / sd k) ∧
    (∀ p, (p < tp ∨ tp + n * inner ≤ p) →
      (forLoop n (fun _ (st : Buf α × Nat) =>
        (caffe_div inner (ptr st.1 st.2) sd st.1 st.2, st.2 + inner)) (tb, tp)).1 p = tb p) := by
  induction n with
  | zero =>
    refine ⟨by simp [forLoop], ?_, by simp [forLoop]⟩
    intro c hc; omega
  | succ n ih =>
    obtain ⟨ih1, ih2, ih3⟩ := ih
    rw [forLoop_succ]
    generalize forLoop n (fun _ (st : Buf α × Nat) =>
        (caffe_div inner (ptr st.1 st.2) sd st.1 st.2, st.2 + inner)) (tb, tp) = r at ih1 ih2 ih3
    obtain ⟨rb, rp⟩ := r
    simp only at ih1 ih2 ih3
    subst ih1
    refine ⟨by simp only; ring, ?_, ?_⟩
    · intro c hc k hk
      simp only [caffe_div]
      by_cases hcn : c = n
      · subst hcn
        have h1 : tp + c * inner ≤ tp + (c * inner + k)
            ∧ tp + (c * inner + k) < tp + c * inner + inner := by omega
        have h2 : tp + (c * inner + k) - (tp + c * inner) = k := by omega
        rw [if_pos h1, h2]
        simp only [ptr]
        rw [ih3 _ (Or.inr (by omega))]
        congr 2
        omega
      · have hc2 : c < n := by omega
        have hlt := idx_lt hc2 hk
        have h1 : ¬ (tp + n * inner ≤ tp + (c * inner + k)
            ∧ tp + (c * inner + k) < tp + n * inner + inner) := by omega
        rw [if_neg h1]
        exact ih2 c hc2 k hk
    · intro p hp
      simp only [caffe_div]
      have h1 : ¬ (tp + n * inner ≤ p ∧ p < tp + n * inner + inner) := by
        rcases hp with hp | hp
        · omega
        · have : (n + 1) * inner = n * inner + inner := by ring
          omega
      rw [if_neg h1]
      apply ih3
      rcases hp with hp | hp
      · exact Or.inl hp
      · have : (n + 1) * inner = n * inner + inner := by ring
        exact Or.inr (by omega)

end SoftmaxLayer

end Caffe

namespace Caffe

open Finset CBLAS_TRANSPOSE

namespace SoftmaxLayer

variable {α : Type} [LinearOrderedField α]

/-- One pass of the outer loop of `Forward_cpu`: the group at the pointer is
replaced by its normalized exponentials, everything else is kept, and the
pointer advances by `dim`. -/
theorem Forward_cpu_body_spec (exp : α → α) (L : SoftmaxLayer α) (channels dim i : Nat)
    (x sd tb : Buf α) (tp : Nat)
    (hdim : dim = channels * L.inner_num_)
    (hones : ∀ c < channels, L.sum_multiplier_.data_ c = 1)
    (hx : ∀ c < channels, ∀ k < L.inner_num_,
      tb (tp + (c * L.inner_num_ + k)) = x (i * dim + c * L.inner_num_ + k)) :
    (Forward_cpu_body exp L channels dim x i (sd, tb, tp)).2.2 = tp + dim ∧
    (∀ c < channels, ∀ k < L.inner_num_,
      (Forward_cpu_body exp L channels dim x i (sd, tb, tp)).2.1 (tp + (c * L.inner_num_ + k))
        = exp (x (i * dim + c * L.inner_num_ + k) - chanMax channels L.inner_num_ dim i x k)
          / ∑ c' ∈ range channels,
              exp (x (i * dim + c' * L.inner_num_ + k)
                - chanMax channels L.inner_num_ dim i x k)) ∧
    (∀ p, (p < tp ∨ tp + dim ≤ p) →
      (Forward_cpu_body exp L channels dim x i (sd, tb, tp)).2.1 p = tb p) := by
  -- the intermediate values of the body, in source order
  let sd1 := Forward_cpu_max channels L.inner_num_ dim i x
    (caffe_copy L.inner_num_ (ptr x (i * dim)) sd 0)
  let tb1 := caffe_cpu_gemm CblasNoTrans CblasNoTrans channels L.inner_num_ 1 (-1)
    L.sum_multiplier_.data_ sd1 1 tb tp
  let tb2 := caffe_exp exp dim (ptr tb1 tp) tb1 tp
  let sd2 := caffe_cpu_gemv CblasTrans channels L.inner_num_ 1
    (ptr tb2 tp) L.sum_multiplier_.data_ 0 sd1 0
  let r := forLoop channels (fun _ (st : Buf α × Nat) =>
    (caffe_div L.inner_num_ (ptr st.1 st.2) sd2 st.1 st.2, st.2 + L.inner_num_)) (tb2, tp)
  have hbody : Forward_cpu_body exp L channels dim x i (sd, tb, tp) = (sd2, r.1, r.2) := rfl
  have hsd1 : ∀ k < L.inner_num_, sd1 k = chanMax channels L.inner_num_ dim i x k := by
    intro k hk
    show Forward_cpu_max channels L.inner_num_ dim i x
      (caffe_copy L.inner_num_ (ptr x (i * dim)) sd 0) k = _
    rw [Forward_cpu_max_eq]
    simp [hk, caffe_copy, ptr, chanMax]
  have htb1 : ∀ c < channels, ∀ k < L.inner_num_,
      tb1 (tp + (c * L.inner_num_ + k))
        = x (i * dim + c * L.inner_num_ + k) - chanMax channels L.inner_num_ dim i x k := by
    intro c hc k hk
    show caffe_cpu_gemm CblasNoTrans CblasNoTrans channels L.inner_num_ 1 (-1)
      L.sum_multiplier_.data_ sd1 1 tb tp (tp + (c * L.inner_num_ + k)) = _
    rw [caffe_cpu_gemm_rank1 _ _ _ _ _ _ _ _ _ hc hk, hones c hc, hsd1 k hk, hx c hc k hk]
    ring
  have htb1_out : ∀ p, (p < tp ∨ tp + dim ≤ p) → tb1 p = tb p := by
    intro p hp
    exact caffe_cpu_gemm_out _ _ _ _ _ _ _ _ _ _ _ _ (by rw [← hdim]; exact hp)
  have htb2 : ∀ c < channels, ∀ k < L.inner_num_,
      tb2 (tp + (c * L.inner_num_ + k))
        = exp (x (i * dim + c * L.inner_num_ + k)
            - chanMax channels L.inner_num_ dim i x k) := by
    intro c hc k hk
    have hlt := idx_lt hc hk
    show caffe_exp exp dim (ptr tb1 tp) tb1 tp (tp + (c * L.inner_num_ + k)) = _
    have h1 : tp ≤ tp + (c * L.inner_num_ + k) ∧ tp + (c * L.inner_num_ + k) < tp + dim := by
      omega
    simp only [caffe_exp, h1, and_self, if_true, ptr, Nat.add_sub_cancel_left]
    rw [htb1 c hc k hk]
  have htb2_out : ∀ p, (p < tp ∨ tp + dim ≤ p) → tb2 p = tb p := by
    intro p hp
    show caffe_exp exp dim (ptr tb1 tp) tb1 tp p = _
    have h1 : ¬ (tp ≤ p ∧ p < tp + dim) := by omega
    simp only [caffe_exp, h1, if_false]
    exact htb1_out p hp
  have hsd2 : ∀ k < L.inner_num_,
      sd2 k = ∑ c' ∈ range channels,
        exp (x (i * dim + c' * L.inner_num_ + k)
          - chanMax channels L.inner_num_ dim i x k) := by
    intro k hk
    show caffe_cpu_gemv CblasTrans channels L.inner_num_ 1
      (ptr tb2 tp) L.sum_multiplier_.data_ 0 sd1 0 k = _
    rw [caffe_cpu_gemv_t_in _ _ _ _ _ _ _ _ hk]
    simp only [one_mul, zero_mul, add_zero]
    apply Finset.sum_congr rfl
    intro c hc
    rw [Finset.mem_range] at hc
    rw [hones c hc, mul_one]
    exact htb2 c hc k hk
  obtain ⟨hr1, hr2, hr3⟩ := Forward_cpu_div_loop L.inner_num_ channels sd2 tb2 tp
  rw [hbody]
  refine ⟨?_, ?_, ?_⟩
  · show r.2 = _
    rw [hdim]; exact hr1
  · intro c hc k hk
    show r.1 _ = _
    rw [hr2 c hc k hk, htb2 c hc k hk, hsd2 k hk]
  · intro p hp
    show r.1 p = _
    rw [hr3 p (by rw [← hdim]; exact hp)]
    exact htb2_out p hp

end SoftmaxLayer

end Caffe

namespace Caffe

open Finset CBLAS_TRANSPOSE

namespace SoftmaxLayer

variable {α : Type} [LinearOrderedField α]

/-- The outer loop of `Forward_cpu` after `n` groups. -/
theorem Forward_cpu_loop_spec (exp : α → α) (L : SoftmaxLayer α) (channels dim : Nat)
    (x sd0 tb0 : Buf α) (N : Nat)
    (hdim : dim = channels * L.inner_num_)
    (hones : ∀ c < channels, L.sum_multiplier_.data_ c = 1)
    (hx0 : ∀ p < N * dim, tb0 p = x p) (n : Nat) (hn : n ≤ N) :
    (forLoop n (Forward_cpu_body exp L channels dim x) (sd0, tb0, 0)).2.2 = n * dim ∧
    (∀ i < n, ∀ c < channels, ∀ k < L.inner_num_,
      (forLoop n (Forward_cpu_body exp L channels dim x) (sd0, tb0, 0)).2.1
          (i * dim + c * L.inner_num_ + k)
        = softmaxRef exp channels L.inner_num_ dim x i c k) ∧
    (∀ p, n * dim ≤ p →
      (forLoop n (Forward_cpu_body exp L channels dim x) (sd0, tb0, 0)).2.1 p = tb0 p) := by
  induction n with
  | zero =>
    refine ⟨by simp [forLoop], ?_, by simp [forLoop]⟩
    intro i hi; omega
  | succ n ih =>
    obtain ⟨ih1, ih2, ih3⟩ := ih (by omega)
    rw [forLoop_succ]
    generalize forLoop n (Forward_cpu_body exp L channels dim x) (sd0, tb0, 0) = r
      at ih1 ih2 ih3
    obtain ⟨sd, tb, tp⟩ := r
    simp only at ih1 ih2 ih3
    subst ih1
    have hN : n * dim + dim ≤ N * dim := by
      have := Nat.mul_le_mul_right dim hn
      rwa [Nat.succ_mul] at this
    have hx : ∀ c < channels, ∀ k < L.inner_num_,
        tb (n * dim + (c * L.inner_num_ + k)) = x (n * dim + c * L.inner_num_ + k) := by
      intro c hc k hk
      have hlt := idx_lt hc hk
      rw [ih3 _ (by omega), hx0 _ (by omega), Nat.add_assoc]
    obtain ⟨b1, b2, b3⟩ := Forward_cpu_body_spec exp L channels dim n x sd tb (n * dim)
      hdim hones hx
    refine ⟨by rw [b1, Nat.succ_mul], ?_, ?_⟩
    · intro i hi c hc k hk
      have hlt := idx_lt hc hk
      by_cases hin : i = n
      · subst hin
        rw [Nat.add_assoc, b2 c hc k hk]
        rfl
      · have hi2 : i < n := by omega
        have h1 : i * dim + dim ≤ n * dim := by
          have := Nat.mul_le_mul_right dim (show i + 1 ≤ n by omega)
          rwa [Nat.succ_mul] at this
        rw [b3 _ (Or.inl (by omega))]
        exact ih2 i hi2 c hc k hk
    · intro p hp
      rw [Nat.succ_mul] at hp
      rw [b3 _ (Or.inr hp)]
      exact ih3 p (by omega)

/-- `Forward_cpu` returns once the axis is in range and `outer_num_` is not zero. -/
theorem Forward_cpu_eq (exp : α → α) (L : SoftmaxLayer α) (bottom top : Blob α)
    (channels : Nat)
    (hshape : bottom.shape L.softmax_axis_ = .ok channels)
    (houter : 0 < L.outer_num_) :
    Forward_cpu exp L bottom top = .ok
      ({ L with scale_ := { L.scale_ with data_ :=
          (forLoop L.outer_num_
            (Forward_cpu_body exp L channels (bottom.count / L.outer_num_) bottom.data_)
            (L.scale_.data_, caffe_copy bottom.count bottom.data_ top.data_ 0, 0)).1 } },
       { top with data_ :=
          (forLoop L.outer_num_
            (Forward_cpu_body exp L channels (bottom.count / L.outer_num_) bottom.data_)
            (L.scale_.data_, caffe_copy bottom.count bottom.data_ top.data_ 0, 0)).2.1 }) := by
  unfold Forward_cpu
  simp only [hshape, houter.ne', bind, Except.bind, if_false, pure, Except.pure]

/-- `Forward_cpu` on a reshaped layer returns, and writes the normalized
exponentials of every group. -/
theorem Forward_cpu_spec (exp : α → α) (L : SoftmaxLayer α) (bottom top : Blob α)
    (channels : Nat)
    (hshape : bottom.shape L.softmax_axis_ = .ok channels)
    (houter : 0 < L.outer_num_)
    (hcount : bottom.count = L.outer_num_ * (channels * L.inner_num_))
    (hones : ∀ c < channels, L.sum_multiplier_.data_ c = 1) :
    ∃ L2 top2, Forward_cpu exp L bottom top = .ok (L2, top2) ∧
      bottom.count / L.outer_num_ = channels * L.inner_num_ ∧
      top2.shape_ = top.shape_ ∧ top2.diff_ = top.diff_ ∧
      (∀ i < L.outer_num_, ∀ c < channels, ∀ k < L.inner_num_,
        top2.data_ (i * (channels * L.inner_num_) + c * L.inner_num_ + k)
          = softmaxRef exp channels L.inner_num_ (channels * L.inner_num_) bottom.data_ i c k) ∧
      (∀ p, bottom.count ≤ p → top2.data_ p = top.data_ p) := by
  have hdim : bottom.count / L.outer_num_ = channels * L.inner_num_ := by
    rw [hcount, Nat.mul_div_cancel_left _ houter]
  have hx0 : ∀ p < L.outer_num_ * (channels * L.inner_num_),
      caffe_copy bottom.count bottom.data_ top.data_ 0 p = bottom.data_ p := by
    intro p hp
    simp [caffe_copy, hcount, hp]
  obtain ⟨l1, l2, l3⟩ := Forward_cpu_loop_spec exp L channels (channels * L.inner_num_)
    bottom.data_ L.scale_.data_ (caffe_copy bottom.count bottom.data_ top.data_ 0)
    L.outer_num_ rfl hones hx0 L.outer_num_ (le_refl _)
  refine ⟨_, _, Forward_cpu_eq exp L bottom top channels hshape houter, hdim, rfl, rfl, ?_, ?_⟩
  · intro i hi c hc k hk
    simp only [hdim]
    exact l2 i hi c hc k hk
  · intro p hp
    simp only [hdim]
    rw [l3 p (by rw [← hcount]; exact hp)]
    have : ¬ p < bottom.count := by omega
    simp [caffe_copy, this]

/-- `Reshape` returns once the axis is in range. -/
theorem Reshape_eq (L : SoftmaxLayer α) (bottom top : Blob α) (a : Nat)
    (ha : bottom.CanonicalAxisIndex L.axis = .ok a) :
    Reshape L bottom top = .ok
      ({ L with
          softmax_axis_ := a
          sum_multiplier_ :=
            { (L.sum_multiplier_.Reshape [bottom.shape_.getD a 0]) with
              data_ := caffe_set (L.sum_multiplier_.Reshape [bottom.shape_.getD a 0]).count 1
                (L.sum_multiplier_.Reshape [bottom.shape_.getD a 0]).data_ 0 }
          outer_num_ := (bottom.shape_.take a).prod
          inner_num_ := (bottom.shape_.drop (a + 1)).prod
          scale_ := L.scale_.Reshape (bottom.shape_.set a 1) },
       top.ReshapeLike bottom) := by
  have halt := Blob.CanonicalAxisIndex_lt bottom L.axis a ha
  have h1 := Blob.shape_nat bottom a halt
  have h2 := Blob.countRange_ok bottom 0 a ⟨Nat.zero_le _, le_of_lt halt⟩
  have h3 := Blob.countFrom_ok bottom (a + 1) halt
  unfold Reshape
  simp only [ha, h1, h2, h3, bind, Except.bind, pure, Except.pure]
  rfl

/-- `Reshape` succeeds on a valid axis and sets the members from the shape. -/
theorem Reshape_spec (L : SoftmaxLayer α) (bottom top : Blob α)
    (haxis : -(bottom.num_axes : Int) ≤ L.axis ∧ L.axis < (bottom.num_axes : Int)) :
    ∃ a L1 top1, bottom.CanonicalAxisIndex L.axis = .ok a ∧ a < bottom.num_axes ∧
      Reshape L bottom top = .ok (L1, top1) ∧
      L1.axis = L.axis ∧ L1.softmax_axis_ = a ∧
      L1.outer_num_ = (bottom.shape_.take a).prod ∧
      L1.inner_num_ = (bottom.shape_.drop (a + 1)).prod ∧
      L1.sum_multiplier_.shape_ = [bottom.shape_.getD a 0] ∧
      (∀ c < bottom.shape_.getD a 0, L1.sum_multiplier_.data_ c = 1) ∧
      L1.scale_.shape_ = bottom.shape_.set a 1 ∧
      top1.shape_ = bottom.shape_ ∧ top1.data_ = top.data_ ∧ top1.diff_ = top.diff_ := by
  obtain ⟨a, ha, halt⟩ := Blob.CanonicalAxisIndex_ok bottom L.axis haxis
  refine ⟨a, _, _, ha, halt, Reshape_eq L bottom top a ha, rfl, rfl, rfl, rfl, rfl, ?_,
    rfl, rfl, rfl, rfl⟩
  intro c hc
  have hc2 : 0 ≤ c ∧ c < 0 + bottom.shape_.getD a 0 := by omega
  simp only [caffe_set, Blob.Reshape, Blob.count, List.prod_cons, List.prod_nil, mul_one]
  rw [if_pos hc2]

end SoftmaxLayer

end Caffe

namespace Caffe

open Finset CBLAS_TRANSPOSE

theorem idx_decomp (O C I p : Nat) (hp : p < O * (C * I)) :
    ∃ i, i < O ∧ ∃ c, c < C ∧ ∃ k, k < I ∧ p = i * (C * I) + c * I + k := by
  have hCI : 0 < C * I := by
    rcases Nat.eq_zero_or_pos (C * I) with h | h
    · rw [h] at hp; omega
    · exact h
  have hI : 0 < I := Nat.pos_of_mul_pos_left hCI
  refine ⟨p / (C * I), ?_, (p % (C * I)) / I, ?_, (p % (C * I)) % I, Nat.mod_lt _ hI, ?_⟩
  · have hq : p < C * I * O := by
      have h2 : O * (C * I) = C * I * O := Nat.mul_comm _ _
      omega
    exact Nat.div_lt_of_lt_mul hq
  · have hr : p % (C * I) < I * C := by
      have h1 := Nat.mod_lt p hCI
      have h2 : C * I = I * C := Nat.mul_comm _ _
      omega
    exact Nat.div_lt_of_lt_mul hr
  · have h1 := Nat.div_add_mod p (C * I)
    have h2 := Nat.div_add_mod (p % (C * I)) I
    rw [Nat.mul_comm] at h1 h2
    omega

namespace SoftmaxLayer

variable {α : Type} [LinearOrderedField α]

/-- `Reshape` followed by `Forward_cpu` on a tensor without empty dimensions. -/
theorem Reshape_Forward_spec (exp : α → α) (L : SoftmaxLayer α) (bottom top : Blob α)
    (hdims : ∀ d ∈ bottom.shape_, 1 ≤ d)
    (haxis : -(bottom.num_axes : Int) ≤ L.axis ∧ L.axis < (bottom.num_axes : Int)) :
    ∃ L1 top1 L2 top2 channels,
      Reshape L bottom top = .ok (L1, top1) ∧
      Forward_cpu exp L1 bottom top1 = .ok (L2, top2) ∧
      bottom.shape L1.softmax_axis_ = .ok channels ∧
      0 < channels ∧ 0 < L1.outer_num_ ∧
      bottom.count = L1.outer_num_ * (channels * L1.inner_num_) ∧
      bottom.count / L1.outer_num_ = channels * L1.inner_num_ ∧
      top2.shape_ = bottom.shape_ ∧ top2.diff_ = top.diff_ ∧
      (∀ i < L1.outer_num_, ∀ c < channels, ∀ k < L1.inner_num_,
        top2.data_ (i * (channels * L1.inner_num_) + c * L1.inner_num_ + k)
          = softmaxRef exp channels L1.inner_num_ (channels * L1.inner_num_)
              bottom.data_ i c k) ∧
      (∀ p, bottom.count ≤ p → top2.data_ p = top.data_ p) := by
  obtain ⟨a, L1, top1, ha, halt, hR, _, hsa, hout, hinn, _, hones, _, hts, htd, htf⟩ :=
    Reshape_spec L bottom top haxis
  have hlen : a < bottom.shape_.length := halt
  have hshape : bottom.shape L1.softmax_axis_ = .ok (bottom.shape_.getD a 0) := by
    rw [hsa]; exact Blob.shape_nat bottom a halt
  have hch : 0 < bottom.shape_.getD a 0 := by
    rw [List.getD_eq_getElem _ _ hlen]
    exact hdims _ (List.getElem_mem hlen)
  have houter : 0 < L1.outer_num_ := by
    rw [hout]
    apply List.prod_pos
    intro d hd
    exact hdims d (List.mem_of_mem_take hd)
  have hcount : bottom.count = L1.outer_num_ * (bottom.shape_.getD a 0 * L1.inner_num_) := by
    rw [hout, hinn]
    exact Blob.prod_split bottom.shape_ a hlen
  obtain ⟨L2, top2, hF, hdim, h2s, h2d, hval, hrest⟩ :=
    Forward_cpu_spec exp L1 bottom top1 (bottom.shape_.getD a 0) hshape houter hcount hones
  refine ⟨L1, top1, L2, top2, _, hR, hF, hshape, hch, houter, hcount, hdim, ?_, ?_, hval, ?_⟩
  · rw [h2s, hts]
  · rw [h2d, htf]
  · intro p hp
    rw [hrest p hp, htd]

/-- The normalized exponentials of one position sum to one. -/
theorem softmaxRef_sum (exp : α → α) (hexp : ∀ t, 0 < exp t) (channels inner dim : Nat)
    (x : Buf α) (i k : Nat) (hch : 0 < channels) :
    ∑ c ∈ range channels, softmaxRef exp channels inner dim x i c k = 1 := by
  unfold softmaxRef
  rw [← Finset.sum_div]
  apply div_self
  apply ne_of_gt
  apply Finset.sum_pos
  · intro c _; exact hexp _
  · exact ⟨0, Finset.mem_range.mpr hch⟩

/-- A normalized exponential lies in `(0, 1]`. -/
theorem softmaxRef_range (exp : α → α) (hexp : ∀ t, 0 < exp t) (channels inner dim : Nat)
    (x : Buf α) (i c k : Nat) (hc : c < channels) :
    0 < softmaxRef exp channels inner dim x i c k
      ∧ softmaxRef exp channels inner dim x i c k ≤ 1 := by
  unfold softmaxRef
  have hpos : 0 < ∑ c' ∈ range channels,
      exp (x (i * dim + c' * inner + k) - chanMax channels inner dim i x k) := by
    apply Finset.sum_pos
    · intro c _; exact hexp _
    · exact ⟨c, Finset.mem_range.mpr hc⟩
  refine ⟨div_pos (hexp _) hpos, ?_⟩
  rw [div_le_one hpos]
  exact Finset.single_le_sum
    (f := fun c' => exp (x (i * dim + c' * inner + k) - chanMax channels inner dim i x k))
    (fun c' _ => le_of_lt (hexp _)) (Finset.mem_range.mpr hc)

end SoftmaxLayer

/-- C1: in exact real arithmetic, for every input tensor whose dimensions are
all at least 1 and every valid softmax axis, `Reshape` and `Forward_cpu`
return, the `channels` outputs `top[i*dim + c*inner_num + k]` of every outer
index `i` and inner position `k` sum to exactly 1, and every output value
lies in `(0, 1]`. -/
theorem softmax_forward_normalized (L : SoftmaxLayer ℝ) (bottom top : Blob ℝ)
    (hdims : ∀ d ∈ bottom.shape_, 1 ≤ d)
    (haxis : -(bottom.num_axes : Int) ≤ L.axis ∧ L.axis < (bottom.num_axes : Int)) :
    ∃ L1 top1 L2 top2 channels,
      SoftmaxLayer.Reshape L bottom top = .ok (L1, top1) ∧
      SoftmaxLayer.Forward_cpu Real.exp L1 bottom top1 = .ok (L2, top2) ∧
      bottom.shape L1.softmax_axis_ = .ok channels ∧
      top2.count = L1.outer_num_ * (channels * L1.inner_num_) ∧
      (∀ i < L1.outer_num_, ∀ k < L1.inner_num_,
        ∑ c ∈ range channels,
          top2.data_ (i * (bottom.count / L1.outer_num_) + c * L1.inner_num_ + k) = 1) ∧
      (∀ p < top2.count, 0 < top2.data_ p ∧ top2.data_ p ≤ 1) := by
  obtain ⟨L1, top1, L2, top2, channels, hR, hF, hshape, hch, _, hcount, hdim, hts, _,
    hval, _⟩ := SoftmaxLayer.Reshape_Forward_spec Real.exp L bottom top hdims haxis
  have htc : top2.count = L1.outer_num_ * (channels * L1.inner_num_) := by
    rw [← hcount]; simp only [Blob.count, hts]
  refine ⟨L1, top1, L2, top2, channels, hR, hF, hshape, htc, ?_, ?_⟩
  · intro i hi k hk
    rw [hdim]
    rw [Finset.sum_congr rfl (fun c hc => hval i hi c (Finset.mem_range.mp hc) k hk)]
    exact SoftmaxLayer.softmaxRef_sum Real.exp Real.exp_pos _ _ _ _ i k hch
  · intro p hp
    rw [htc] at hp
    obtain ⟨i, hi, c, hc, k, hk, rfl⟩ := idx_decomp _ _ _ p hp
    rw [hval i hi c hc k hk]
    exact SoftmaxLayer.softmaxRef_range Real.exp Real.exp_pos _ _ _ _ i c k hc

end Caffe

namespace Caffe

open Finset CBLAS_TRANSPOSE

/-- Witness of C1 on a `2 x 3 x 2` input with softmax axis 1. -/
theorem softmax_forward_normalized_witness :
    (∀ d ∈ (exBottom ℝ).shape_, 1 ≤ d) ∧
    (-((exBottom ℝ).num_axes : Int) ≤ (exSoftmaxLayer ℝ).axis
      ∧ (exSoftmaxLayer ℝ).axis < ((exBottom ℝ).num_axes : Int)) ∧
    ∃ L1 top1 L2 top2 channels,
      SoftmaxLayer.Reshape (exSoftmaxLayer ℝ) (exBottom ℝ) (exTop ℝ) = .ok (L1, top1) ∧
      SoftmaxLayer.Forward_cpu Real.exp L1 (exBottom ℝ) top1 = .ok (L2, top2) ∧
      (exBottom ℝ).shape L1.softmax_axis_ = .ok channels ∧
      top2.count = L1.outer_num_ * (channels * L1.inner_num_) ∧
      (∀ i < L1.outer_num_, ∀ k < L1.inner_num_,
        ∑ c ∈ range channels,
          top2.data_ (i * ((exBottom ℝ).count / L1.outer_num_) + c * L1.inner_num_ + k) = 1) ∧
      (∀ p < top2.count, 0 < top2.data_ p ∧ top2.data_ p ≤ 1) :=
  ⟨by simp [exBottom], by simp [exBottom, exSoftmaxLayer, Blob.num_axes],
   softmax_forward_normalized (exSoftmaxLayer ℝ) (exBottom ℝ) (exTop ℝ)
     (by simp [exBottom]) (by simp [exBottom, exSoftmaxLayer, Blob.num_axes])⟩

namespace SoftmaxLayer

variable {α : Type} [LinearOrderedField α]

/-- Shifting every folded value and the start by `d` shifts a running maximum by `d`. -/
theorem forLoop_max_shift (n : Nat) (f g : Nat → α) (m0 d : α)
    (h : ∀ j < n, g j = f j + d) :
    forLoop n (fun j m => max m (g j)) (m0 + d) = forLoop n (fun j m => max m (f j)) m0 + d := by
  induction n with
  | zero => rfl
  | succ n ih =>
    rw [forLoop_succ, forLoop_succ, ih (fun j hj => h j (by omega)), h n (by omega)]
    exact max_add_add_right _ _ _

/-- A per-position shift of the input shifts the running maximum. -/
theorem chanMax_shift (channels inner dim i k : Nat) (x y : Buf α) (d : α)
    (hch : 0 < channels)
    (h : ∀ c < channels, y (i * dim + c * inner + k) = x (i * dim + c * inner + k) + d) :
    chanMax channels inner dim i y k = chanMax channels inner dim i x k + d := by
  unfold chanMax
  have h0 : y (i * dim + k) = x (i * dim + k) + d := by
    have := h 0 hch
    simpa using this
  rw [h0]
  exact forLoop_max_shift channels _ _ _ d h

/-- A per-position shift of the input leaves the normalized exponentials unchanged. -/
theorem softmaxRef_shift (exp : α → α) (channels inner dim i c k : Nat) (x y : Buf α) (d : α)
    (hc : c < channels)
    (h : ∀ c < channels, y (i * dim + c * inner + k) = x (i * dim + c * inner + k) + d) :
    softmaxRef exp channels inner dim y i c k = softmaxRef exp channels inner dim x i c k := by
  unfold softmaxRef
  rw [chanMax_shift channels inner dim i k x y d (by omega) h]
  have hterm : ∀ c' < channels,
      exp (y (i * dim + c' * inner + k) - (chanMax channels inner dim i x k + d))
        = exp (x (i * dim + c' * inner + k) - chanMax channels inner dim i x k) := by
    intro c' hc'
    rw [h c' hc']
    congr 1
    ring
  rw [hterm c hc, Finset.sum_congr rfl (fun c' hc' => hterm c' (Finset.mem_range.mp hc'))]

end SoftmaxLayer

/-- C2: `Forward_cpu` is shift invariant in exact real arithmetic: for an input
`x` whose dimensions are all at least 1, a valid axis and offsets `d i k`, the
input `x'` with `x'[i][c][k] = x[i][c][k] + d i k` for every channel `c` yields
exactly the same output blob as `x`. -/
theorem softmax_forward_shift_invariant (L : SoftmaxLayer ℝ) (bottom bottom' top : Blob ℝ)
    (d : Nat → Nat → ℝ)
    (hdims : ∀ n ∈ bottom.shape_, 1 ≤ n)
    (haxis : -(bottom.num_axes : Int) ≤ L.axis ∧ L.axis < (bottom.num_axes : Int))
    (hshape : bottom'.shape_ = bottom.shape_)
    (hshift : ∀ L1 top1 channels, SoftmaxLayer.Reshape L bottom top = .ok (L1, top1) →
      bottom.shape L1.softmax_axis_ = .ok channels →
      ∀ i < L1.outer_num_, ∀ c < channels, ∀ k < L1.inner_num_,
        bottom'.data_ (i * (bottom.count / L1.outer_num_) + c * L1.inner_num_ + k)
          = bottom.data_ (i * (bottom.count / L1.outer_num_) + c * L1.inner_num_ + k)
            + d i k) :
    ∃ L1 top1 L2 L2' top2,
      SoftmaxLayer.Reshape L bottom top = .ok (L1, top1) ∧
      SoftmaxLayer.Reshape L bottom' top = .ok (L1, top1) ∧
      SoftmaxLayer.Forward_cpu Real.exp L1 bottom top1 = .ok (L2, top2) ∧
      SoftmaxLayer.Forward_cpu Real.exp L1 bottom' top1 = .ok (L2', top2) := by
  have hdims' : ∀ n ∈ bottom'.shape_, 1 ≤ n := by rw [hshape]; exact hdims
  have hrank : bottom'.num_axes = bottom.num_axes := by simp only [Blob.num_axes, hshape]
  have haxis' : -(bottom'.num_axes : Int) ≤ L.axis ∧ L.axis < (bottom'.num_axes : Int) := by
    rw [hrank]; exact haxis
  obtain ⟨L1, top1, L2, top2, channels, hR, hF, hsh, hch, hout, hcount, hdim, hts, htd,
    hval, hrest⟩ := SoftmaxLayer.Reshape_Forward_spec Real.exp L bottom top hdims haxis
  obtain ⟨L1', top1', L2', top2', channels', hR', hF', hsh', _, _, hcount', _, hts', htd',
    hval', hrest'⟩ := SoftmaxLayer.Reshape_Forward_spec Real.exp L bottom' top hdims' haxis'
  -- `Reshape` reads the shape only
  obtain ⟨a, ha, _⟩ := Blob.CanonicalAxisIndex_ok bottom L.axis haxis
  have ha' : bottom'.CanonicalAxisIndex L.axis = .ok a := by
    simp only [Blob.CanonicalAxisIndex, hrank] at ha ⊢
    exact ha
  have hRR : SoftmaxLayer.Reshape L bottom' top = SoftmaxLayer.Reshape L bottom top := by
    rw [SoftmaxLayer.Reshape_eq L bottom top a ha, SoftmaxLayer.Reshape_eq L bottom' top a ha']
    simp only [hshape, Blob.ReshapeLike]
  rw [hRR, hR] at hR'
  have hL : L1' = L1 := by
    have := Except.ok.inj hR'
    exact (congrArg Prod.fst this).symm
  have hT : top1' = top1 := by
    have := Except.ok.inj hR'
    exact (congrArg Prod.snd this).symm
  subst hL; subst hT
  have hchan : channels' = channels := by
    have h1 : bottom'.shape L1'.softmax_axis_ = bottom.shape L1'.softmax_axis_ := by
      simp only [Blob.shape, Blob.CanonicalAxisIndex, hrank, hshape]
    rw [h1, hsh] at hsh'
    exact (Except.ok.inj hsh').symm
  subst hchan
  have hcnt : bottom'.count = bottom.count := by simp only [Blob.count, hshape]
  have hdata : top2'.data_ = top2.data_ := by
    funext p
    by_cases hp : p < bottom.count
    · rw [hcount] at hp
      obtain ⟨i, hi, c, hc, k, hk, rfl⟩ := idx_decomp _ _ _ p hp
      rw [hval i hi c hc k hk, hval' i hi c hc k hk]
      apply SoftmaxLayer.softmaxRef_shift Real.exp _ _ _ i c k _ _ (d i k) hc
      intro c' hc'
      have := hshift L1' top1' channels' hR hsh i hi c' hc' k hk
      rw [hdim] at this
      exact this
    · rw [hrest p (by omega), hrest' p (by omega)]
  have hblob : top2' = top2 := by
    cases top2' with
    | mk s1 d1 f1 =>
      cases top2 with
      | mk s2 d2 f2 =>
        simp only at hts hts' htd htd' hdata
        rw [hts, hts', htd, htd', hdata, hshape]
  subst hblob
  exact ⟨L1', top1', L2, L2', top2', hR, hRR ▸ hR, hF, hF'⟩

/-- Witness of C2: the input `0, 1, 2, ...` of shape `2 x 3 x 2` and the same
input with 5 added everywhere. -/
theorem softmax_forward_shift_invariant_witness :
    (∀ n ∈ (exBottom ℝ).shape_, 1 ≤ n) ∧
    (exBottomShifted ℝ).shape_ = (exBottom ℝ).shape_ ∧
    (∀ p, (exBottomShifted ℝ).data_ p = (exBottom ℝ).data_ p + 5) ∧
    ∃ L1 top1 L2 L2' top2,
      SoftmaxLayer.Reshape (exSoftmaxLayer ℝ) (exBottom ℝ) (exTop ℝ) = .ok (L1, top1) ∧
      SoftmaxLayer.Reshape (exSoftmaxLayer ℝ) (exBottomShifted ℝ) (exTop ℝ) = .ok (L1, top1) ∧
      SoftmaxLayer.Forward_cpu Real.exp L1 (exBottom ℝ) top1 = .ok (L2, top2) ∧
      SoftmaxLayer.Forward_cpu Real.exp L1 (exBottomShifted ℝ) top1 = .ok (L2', top2) :=
  ⟨by simp [exBottom], rfl, fun _ => rfl,
   softmax_forward_shift_invariant (exSoftmaxLayer ℝ) (exBottom ℝ) (exBottomShifted ℝ)
     (exTop ℝ) (fun _ _ => 5) (by simp [exBottom])
     (by simp [exBottom, exSoftmaxLayer, Blob.num_axes]) rfl
     (fun _ _ _ _ _ _ _ _ _ _ _ => rfl)⟩

end Caffe

namespace Caffe

open Finset CBLAS_TRANSPOSE

/-! ## Softmax backward pass -/

namespace SoftmaxLayer

variable {α : Type} [LinearOrderedField α]

/-- One pass of the outer loop of `Backward_cpu`: the dot product of the group
is subtracted from every channel of the group, everything else is kept. -/
theorem Backward_cpu_body_spec (L : SoftmaxLayer α) (channels dim i : Nat)
    (y sd bd : Buf α)
    (hdim : dim = channels * L.inner_num_)
    (hones : ∀ c < channels, L.sum_multiplier_.data_ c = 1) :
    (∀ c < channels, ∀ k < L.inner_num_,
      (Backward_cpu_body L channels dim y i (sd, bd)).2 (i * dim + c * L.inner_num_ + k)
        = bd (i * dim + c * L.inner_num_ + k)
          - ∑ c' ∈ range channels,
              bd (i * dim + c' * L.inner_num_ + k) * y (i * dim + c' * L.inner_num_ + k)) ∧
    (∀ p, (p < i * dim ∨ i * dim + dim ≤ p) →
      (Backward_cpu_body L channels dim y i (sd, bd)).2 p = bd p) := by
  let sd1 := forLoop L.inner_num_ (fun k scale_data =>
    Function.update scale_data k
      (caffe_cpu_strided_dot channels (ptr bd (i * dim + k)) L.inner_num_
        (ptr y (i * dim + k)) L.inner_num_)) sd
  let bd1 := caffe_cpu_gemm CblasNoTrans CblasNoTrans channels L.inner_num_ 1 (-1)
    L.sum_multiplier_.data_ sd1 1 bd (i * dim)
  have hbody : Backward_cpu_body L channels dim y i (sd, bd) = (sd1, bd1) := rfl
  have hsd1 : ∀ k < L.inner_num_, sd1 k = ∑ c' ∈ range channels,
      bd (i * dim + c' * L.inner_num_ + k) * y (i * dim + c' * L.inner_num_ + k) := by
    intro k hk
    show forLoop L.inner_num_ (fun k scale_data =>
      Function.update scale_data k
        (caffe_cpu_strided_dot channels (ptr bd (i * dim + k)) L.inner_num_
          (ptr y (i * dim + k)) L.inner_num_)) sd k = _
    rw [forLoop_update_const L.inner_num_ (fun k =>
      caffe_cpu_strided_dot channels (ptr bd (i * dim + k)) L.inner_num_
        (ptr y (i * dim + k)) L.inner_num_)]
    simp only [hk, if_true, caffe_cpu_strided_dot, ptr]
    apply Finset.sum_congr rfl
    intro c' _
    have : i * dim + k + c' * L.inner_num_ = i * dim + c' * L.inner_num_ + k := by omega
    rw [this]
  rw [hbody]
  refine ⟨?_, ?_⟩
  · intro c hc k hk
    show caffe_cpu_gemm CblasNoTrans CblasNoTrans channels L.inner_num_ 1 (-1)
      L.sum_multiplier_.data_ sd1 1 bd (i * dim) (i * dim + c * L.inner_num_ + k) = _
    rw [Nat.add_assoc, caffe_cpu_gemm_rank1 _ _ _ _ _ _ _ _ _ hc hk, hones c hc, hsd1 k hk]
    ring
  · intro p hp
    show bd1 p = bd p
    exact caffe_cpu_gemm_out _ _ _ _ _ _ _ _ _ _ _ _ (by rw [← hdim]; exact hp)

/-- The outer loop of `Backward_cpu` after `n` groups: the dot product of every
group is taken over the values `g` the buffer held before the loop. -/
theorem Backward_cpu_loop_spec (L : SoftmaxLayer α) (channels dim : Nat)
    (y g sd0 bd0 : Buf α) (N : Nat)
    (hdim : dim = channels * L.inner_num_)
    (hones : ∀ c < channels, L.sum_multiplier_.data_ c = 1)
    (hg : ∀ p < N * dim, bd0 p = g p) (n : Nat) (hn : n ≤ N) :
    (∀ i < n, ∀ c < channels, ∀ k < L.inner_num_,
      (forLoop n (Backward_cpu_body L channels dim y) (sd0, bd0)).2
          (i * dim + c * L.inner_num_ + k)
        = g (i * dim + c * L.inner_num_ + k)
          - ∑ c' ∈ range channels,
              g (i * dim + c' * L.inner_num_ + k) * y (i * dim + c' * L.inner_num_ + k)) ∧
    (∀ p, n * dim ≤ p → (forLoop n (Backward_cpu_body L channels dim y) (sd0, bd0)).2 p = bd0 p) := by
  induction n with
  | zero =>
    refine ⟨?_, by simp [forLoop]⟩
    intro i hi; omega
  | succ n ih =>
    obtain ⟨ih1, ih2⟩ := ih (by omega)
    rw [forLoop_succ]
    generalize forLoop n (Backward_cpu_body L channels dim y) (sd0, bd0) = r at ih1 ih2
    obtain ⟨sd, bd⟩ := r
    simp only at ih1 ih2
    have hN : n * dim + dim ≤ N * dim := by
      have := Nat.mul_le_mul_right dim hn
      rwa [Nat.succ_mul] at this
    obtain ⟨b1, b2⟩ := Backward_cpu_body_spec L channels dim n y sd bd hdim hones
    refine ⟨?_, ?_⟩
    · intro i hi c hc k hk
      have hlt := idx_lt hc hk
      by_cases hin : i = n
      · subst hin
        rw [b1 c hc k hk, ih2 _ (by omega), hg _ (by omega)]
        congr 1
        apply Finset.sum_congr rfl
        intro c' hc'
        have hlt' := idx_lt (Finset.mem_range.mp hc') hk
        rw [ih2 _ (by omega), hg _ (by omega)]
      · have hi2 : i < n := by omega
        have h1 : i * dim + dim ≤ n * dim := by
          have := Nat.mul_le_mul_right dim (show i + 1 ≤ n by omega)
          rwa [Nat.succ_mul] at this
        rw [b2 _ (Or.inl (by omega))]
        exact ih1 i hi2 c hc k hk
    · intro p hp
      rw [Nat.succ_mul] at hp
      rw [b2 _ (Or.inr hp)]
      exact ih2 p (by omega)

/-- `Backward_cpu` returns once the axis is in range and `outer_num_` is not zero. -/
theorem Backward_cpu_eq (L : SoftmaxLayer α) (top bottom : Blob α) (pd : List Bool)
    (channels : Nat)
    (hshape : top.shape L.softmax_axis_ = .ok channels)
    (houter : 0 < L.outer_num_) :
    Backward_cpu L top pd bottom = .ok
      ({ L with scale_ := { L.scale_ with data_ :=
          (forLoop L.outer_num_
            (Backward_cpu_body L channels (top.count / L.outer_num_) top.data_)
            (L.scale_.data_, caffe_copy top.count top.diff_ bottom.diff_ 0)).1 } },
       { bottom with diff_ :=
          (caffe_mul top.count
            (forLoop L.outer_num_
              (Backward_cpu_body L channels (top.count / L.outer_num_) top.data_)
              (L.scale_.data_, caffe_copy top.count top.diff_ bottom.diff_ 0)).2
            top.data_
            (forLoop L.outer_num_
              (Backward_cpu_body L channels (top.count / L.outer_num_) top.data_)
              (L.scale_.data_, caffe_copy top.count top.diff_ bottom.diff_ 0)).2 0) }) := by
  unfold Backward_cpu
  simp only [hshape, houter.ne', bind, Except.bind, if_false, pure, Except.pure]

/-- `Backward_cpu` on a reshaped layer returns the closed-form gradient. -/
theorem Backward_cpu_spec (L : SoftmaxLayer α) (top bottom : Blob α) (pd : List Bool)
    (channels : Nat)
    (hshape : top.shape L.softmax_axis_ = .ok channels)
    (houter : 0 < L.outer_num_)
    (hcount : top.count = L.outer_num_ * (channels * L.inner_num_))
    (hones : ∀ c < channels, L.sum_multiplier_.data_ c = 1) :
    ∃ L2 bottom2, Backward_cpu L top pd bottom = .ok (L2, bottom2) ∧
      top.count / L.outer_num_ = channels * L.inner_num_ ∧
      bottom2.shape_ = bottom.shape_ ∧ bottom2.data_ = bottom.data_ ∧
      (∀ i < L.outer_num_, ∀ c < channels, ∀ k < L.inner_num_,
        bottom2.diff_ (i * (channels * L.inner_num_) + c * L.inner_num_ + k)
          = (top.diff_ (i * (channels * L.inner_num_) + c * L.inner_num_ + k)
              - ∑ c' ∈ range channels,
                  top.diff_ (i * (channels * L.inner_num_) + c' * L.inner_num_ + k)
                    * top.data_ (i * (channels * L.inner_num_) + c' * L.inner_num_ + k))
            * top.data_ (i * (channels * L.inner_num_) + c * L.inner_num_ + k)) ∧
      (∀ p, top.count ≤ p → bottom2.diff_ p = bottom.diff_ p) := by
  have hdim : top.count / L.outer_num_ = channels * L.inner_num_ := by
    rw [hcount, Nat.mul_div_cancel_left _ houter]
  have hg : ∀ p < L.outer_num_ * (channels * L.inner_num_),
      caffe_copy top.count top.diff_ bottom.diff_ 0 p = top.diff_ p := by
    intro p hp
    simp [caffe_copy, hcount, hp]
  obtain ⟨l1, l2⟩ := Backward_cpu_loop_spec L channels (channels * L.inner_num_)
    top.data_ top.diff_ L.scale_.data_ (caffe_copy top.count top.diff_ bottom.diff_ 0)
    L.outer_num_ rfl hones hg L.outer_num_ (le_refl _)
  refine ⟨_, _, Backward_cpu_eq L top bottom pd channels hshape houter, hdim, rfl, rfl, ?_, ?_⟩
  · intro i hi c hc k hk
    have hlt := idx_lt hc hk
    have hlt2 : i * (channels * L.inner_num_) + (channels * L.inner_num_)
        ≤ L.outer_num_ * (channels * L.inner_num_) := by
      have := Nat.mul_le_mul_right (channels * L.inner_num_) (show i + 1 ≤ L.outer_num_ by omega)
      rwa [Nat.succ_mul] at this
    have hin : 0 ≤ i * (channels * L.inner_num_) + c * L.inner_num_ + k
        ∧ i * (channels * L.inner_num_) + c * L.inner_num_ + k < 0 + top.count := by
      rw [hcount]; omega
    simp only [hdim, caffe_mul]
    rw [if_pos hin, Nat.sub_zero, l1 i hi c hc k hk]
  · intro p hp
    have hout : ¬ (0 ≤ p ∧ p < 0 + top.count) := by omega
    simp only [hdim, caffe_mul]
    rw [if_neg hout, l2 p (by rw [← hcount]; exact hp)]
    have : ¬ p < top.count := by omega
    simp [caffe_copy, this]

end SoftmaxLayer

end Caffe

namespace Caffe

open Finset CBLAS_TRANSPOSE

/-- C3: `Backward_cpu` computes the closed-form softmax gradient: on a reshaped
layer, for every top data `y`, top diff `g` of the input's shape and every outer
index `i`, channel `c` and inner position `k`, the call returns with
`bottom_diff[i][c][k] = (g[i][c][k] - sum over c' of g[i][c'][k] * y[i][c'][k]) * y[i][c][k]`,
the dot product being taken over the original top diff. -/
theorem softmax_backward_closed_form {α : Type} [LinearOrderedField α]
    (L : SoftmaxLayer α) (bottom top0 top : Blob α) (propagate_down : List Bool)
    (haxis : -(bottom.num_axes : Int) ≤ L.axis ∧ L.axis < (bottom.num_axes : Int))
    (hshape : top.shape_ = bottom.shape_) :
    ∃ L1 top1 channels,
      SoftmaxLayer.Reshape L bottom top0 = .ok (L1, top1) ∧
      top.shape L1.softmax_axis_ = .ok channels ∧
      top.count = L1.outer_num_ * (channels * L1.inner_num_) ∧
      ∀ i < L1.outer_num_, ∀ c < channels, ∀ k < L1.inner_num_,
        ∃ L2 bottom2,
          SoftmaxLayer.Backward_cpu L1 top propagate_down bottom = .ok (L2, bottom2) ∧
          bottom2.diff_ (i * (top.count / L1.outer_num_) + c * L1.inner_num_ + k)
            = (top.diff_ (i * (top.count / L1.outer_num_) + c * L1.inner_num_ + k)
                - ∑ c' ∈ range channels,
                    top.diff_ (i * (top.count / L1.outer_num_) + c' * L1.inner_num_ + k)
                      * top.data_ (i * (top.count / L1.outer_num_) + c' * L1.inner_num_ + k))
              * top.data_ (i * (top.count / L1.outer_num_) + c * L1.inner_num_ + k) := by
  obtain ⟨a, L1, top1, ha, halt, hR, _, hsa, hout, hinn, _, hones, _, _, _, _⟩ :=
    SoftmaxLayer.Reshape_spec L bottom top0 haxis
  have hlen : a < bottom.shape_.length := halt
  have hrank : top.num_axes = bottom.num_axes := by simp only [Blob.num_axes, hshape]
  have hsh : top.shape L1.softmax_axis_ = .ok (bottom.shape_.getD a 0) := by
    rw [hsa, Blob.shape_nat top a (by rw [hrank]; exact halt), hshape]
  have hcount : top.count = L1.outer_num_ * (bottom.shape_.getD a 0 * L1.inner_num_) := by
    rw [hout, hinn]
    simp only [Blob.count, hshape]
    exact Blob.prod_split bottom.shape_ a hlen
  refine ⟨L1, top1, _, hR, hsh, hcount, ?_⟩
  intro i hi c hc k hk
  obtain ⟨L2, bottom2, hB, hdim, _, _, hval, _⟩ :=
    SoftmaxLayer.Backward_cpu_spec L1 top bottom propagate_down _ hsh (by omega) hcount hones
  refine ⟨L2, bottom2, hB, ?_⟩
  rw [hdim]
  exact hval i hi c hc k hk

/-- Witness of C3 on `2 x 3 x 2` blobs with softmax axis 1. -/
theorem softmax_backward_closed_form_witness :
    (-((exBottom ℝ).num_axes : Int) ≤ (exSoftmaxLayer ℝ).axis
      ∧ (exSoftmaxLayer ℝ).axis < ((exBottom ℝ).num_axes : Int)) ∧
    (exGrad ℝ).shape_ = (exBottom ℝ).shape_ ∧
    ∃ L1 top1 channels,
      SoftmaxLayer.Reshape (exSoftmaxLayer ℝ) (exBottom ℝ) (exTop ℝ) = .ok (L1, top1) ∧
      (exGrad ℝ).shape L1.softmax_axis_ = .ok channels ∧
      (exGrad ℝ).count = L1.outer_num_ * (channels * L1.inner_num_) ∧
      ∀ i < L1.outer_num_, ∀ c < channels, ∀ k < L1.inner_num_,
        ∃ L2 bottom2,
          SoftmaxLayer.Backward_cpu L1 (exGrad ℝ) [true] (exBottom ℝ)
            = .ok (L2, bottom2) ∧
          bottom2.diff_
              (i * ((exGrad ℝ).count / L1.outer_num_) + c * L1.inner_num_ + k)
            = ((exGrad ℝ).diff_
                  (i * ((exGrad ℝ).count / L1.outer_num_) + c * L1.inner_num_ + k)
                - ∑ c' ∈ range channels,
                    (exGrad ℝ).diff_
                        (i * ((exGrad ℝ).count / L1.outer_num_)
                          + c' * L1.inner_num_ + k)
                      * (exGrad ℝ).data_
                        (i * ((exGrad ℝ).count / L1.outer_num_)
                          + c' * L1.inner_num_ + k))
              * (exGrad ℝ).data_
                  (i * ((exGrad ℝ).count / L1.outer_num_) + c * L1.inner_num_ + k) :=
  ⟨by simp [exBottom, exSoftmaxLayer, Blob.num_axes], rfl,
   softmax_backward_closed_form (exSoftmaxLayer ℝ) (exBottom ℝ) (exTop ℝ)
     (exGrad ℝ) [true]
     (by simp [exBottom, exSoftmaxLayer, Blob.num_axes]) rfl⟩

end Caffe

namespace Caffe

open Finset CBLAS_TRANSPOSE

/-! ## Vector access -/

theorem vecAt_ok_iff {β : Type} (v : List β) (i : Nat) (x : β) :
    vecAt v i = .ok x ↔ v[i]? = some x := by
  unfold vecAt
  cases h : v[i]? with
  | none => simp
  | some y =>
    simp only [Option.some.injEq]
    constructor
    · intro h2; exact Except.ok.inj h2
    · intro h2; rw [h2]

theorem vecAt_set_eq {β : Type} (v : List β) (i : Nat) (x y : β) (h : vecAt v i = .ok x) :
    vecAt (v.set i y) i = .ok y := by
  rw [vecAt_ok_iff] at h ⊢
  have hlt : i < v.length := by
    rcases Nat.lt_or_ge i v.length with h1 | h1
    · exact h1
    · rw [List.getElem?_eq_none h1] at h; cases h
  rw [List.getElem?_eq_getElem (by simpa using hlt)]
  simp

theorem vecAt_set_ne {β : Type} (v : List β) (i j : Nat) (y : β) (h : i ≠ j) :
    vecAt (v.set i y) j = vecAt v j := by
  unfold vecAt
  rw [List.getElem?_set_ne h]

/-- The shape after `resize(axis + 1)` and the write of `N_` at `axis`. -/
theorem resize_set_shape {β : Type} (s : List β) (a : Nat) (fill N : β) (h : a < s.length) :
    (vecResize s (a + 1) fill).set a N = s.take a ++ [N] := by
  unfold vecResize
  have h1 : a + 1 - s.length = 0 := by omega
  rw [h1, List.replicate_zero, List.append_nil, List.take_succ,
    List.getElem?_eq_getElem h]
  simp only [Option.toList]
  rw [List.set_append_right _ _ (by simp)]
  have h2 : a - (List.take a s).length = 0 := by simp; omega
  rw [h2]
  rfl

/-- The shape that `InnerProductLayer::Reshape` hands to the output blob: the
input dimensions before the axis followed by the `int` `N_`. -/
theorem resize_set_top_shape (s : List Nat) (a : Nat) (v : Int) (h : a < s.length) :
    (vecResize (s.map Int.ofNat) (a + 1) 0).set a v = (s.take a).map Int.ofNat ++ [v] := by
  rw [resize_set_shape _ _ _ _ (by simpa using h), List.map_take]

/-- On dimensions that are counts, the checked `Reshape` returns and sets them. -/
theorem ReshapeSigned_map {α : Type} (b : Blob α) (l : List Nat) :
    b.ReshapeSigned (l.map Int.ofNat) = .ok (b.Reshape l) := by
  unfold Blob.ReshapeSigned
  have h1 : ∀ d ∈ l.map Int.ofNat, (0 : Int) ≤ d := by
    intro d hd
    obtain ⟨x, _, rfl⟩ := List.mem_map.mp hd
    exact Int.ofNat_nonneg x
  rw [if_pos h1]
  have h2 : (l.map Int.ofNat).map Int.toNat = l := by
    rw [List.map_map]
    have h3 : (Int.toNat ∘ Int.ofNat) = id := by
      funext x
      simp
    rw [h3, List.map_id]
  rw [h2]

/-- A negative dimension makes the checked `Reshape` fail. -/
theorem ReshapeSigned_negative {α : Type} (b : Blob α) (dims : List Int) (d : Int)
    (hd : d ∈ dims) (hneg : d < 0) :
    b.ReshapeSigned dims = .error Fatal.negative_dimension := by
  unfold Blob.ReshapeSigned
  rw [if_neg]
  intro h
  exact absurd (h d hd) (not_le.mpr hneg)

/-- The narrowing of `num_output` keeps a value below `2^31`. -/
theorem uint32_to_int_small (u : Nat) (h : u < 2 ^ 31) : uint32_to_int u = (u : Int) := by
  unfold uint32_to_int
  have h1 : u % 2 ^ 32 = u := Nat.mod_eq_of_lt (by omega)
  rw [h1, if_pos h]

/-- The narrowing of `num_output` turns a `uint32` value from `2^31` on into a
negative `int`. -/
theorem uint32_to_int_large (u : Nat) (h1 : 2 ^ 31 ≤ u) (h2 : u < 2 ^ 32) :
    uint32_to_int u < 0 := by
  unfold uint32_to_int
  have h3 : u % 2 ^ 32 = u := Nat.mod_eq_of_lt h2
  rw [h3, if_neg (by omega)]
  omega

/-! ## Inner product layer -/

namespace InnerProductLayer

variable {α : Type} [LinearOrderedField α]

/-- `Reshape` returns once the axis is in range and the flattened size is `K_`. -/
theorem ip_Reshape_eq (L : InnerProductLayer α) (bottom top : Blob α) (a N : Nat)
    (ha : bottom.CanonicalAxisIndex L.axis = .ok a)
    (hK : (bottom.shape_.drop a).prod = L.K_)
    (hN : L.N_ = (N : Int)) :
    Reshape L bottom top = .ok
      (reshaped L (bottom.shape_.take a).prod, top.Reshape (bottom.shape_.take a ++ [N])) := by
  have halt := Blob.CanonicalAxisIndex_lt bottom L.axis a ha
  have h2 := Blob.countRange_ok bottom 0 a ⟨Nat.zero_le _, le_of_lt halt⟩
  have h3 := Blob.countFrom_ok bottom a (le_of_lt halt)
  have h4 : top.ReshapeSigned ((bottom.shape_.take a).map Int.ofNat ++ [L.N_])
      = .ok (top.Reshape (bottom.shape_.take a ++ [N])) := by
    rw [← ReshapeSigned_map, hN, List.map_append]
    rfl
  unfold Reshape reshaped
  simp only [ha, h2, h3, hK, bind, Except.bind, pure, Except.pure, ne_eq, not_true_eq_false,
    if_false, resize_set_top_shape _ _ _ halt, h4, List.drop_zero, Nat.sub_zero]
  split_ifs <;> rfl

/-- `Reshape` fails in the `Reshape` of the output blob when the flattened size
is `K_` and `N_` is negative. -/
theorem ip_Reshape_negative (L : InnerProductLayer α) (bottom top : Blob α) (a : Nat)
    (ha : bottom.CanonicalAxisIndex L.axis = .ok a)
    (hK : (bottom.shape_.drop a).prod = L.K_)
    (hN : L.N_ < 0) :
    Reshape L bottom top = .error Fatal.negative_dimension := by
  have halt := Blob.CanonicalAxisIndex_lt bottom L.axis a ha
  have h2 := Blob.countRange_ok bottom 0 a ⟨Nat.zero_le _, le_of_lt halt⟩
  have h3 := Blob.countFrom_ok bottom a (le_of_lt halt)
  have h4 : top.ReshapeSigned ((bottom.shape_.take a).map Int.ofNat ++ [L.N_])
      = .error Fatal.negative_dimension :=
    ReshapeSigned_negative top _ L.N_ (List.mem_append_right _ (List.mem_singleton.mpr rfl)) hN
  unfold Reshape
  simp only [ha, h2, h3, hK, bind, Except.bind, pure, Except.pure, ne_eq, not_true_eq_false,
    if_false, resize_set_top_shape _ _ _ halt, h4]

/-- `Reshape` fails with the fatal size check when the flattened size is not `K_`. -/
theorem ip_Reshape_mismatch (L : InnerProductLayer α) (bottom top : Blob α) (a : Nat)
    (ha : bottom.CanonicalAxisIndex L.axis = .ok a)
    (hK : (bottom.shape_.drop a).prod ≠ L.K_) :
    Reshape L bottom top = .error Fatal.input_size_incompatible := by
  have halt := Blob.CanonicalAxisIndex_lt bottom L.axis a ha
  have h3 := Blob.countFrom_ok bottom a (le_of_lt halt)
  have hK2 : L.K_ ≠ (bottom.shape_.drop a).prod := fun h => hK h.symm
  unfold Reshape
  simp only [ha, h3, bind, Except.bind, ne_eq, hK2, not_false_eq_true, if_true]

end InnerProductLayer

end Caffe

namespace Caffe

open Finset CBLAS_TRANSPOSE

namespace InnerProductLayer

variable {α : Type} [LinearOrderedField α]

theorem reshaped_M (L : InnerProductLayer α) (M : Nat) : (reshaped L M).M_ = M := by
  unfold reshaped; split_ifs <;> rfl

theorem reshaped_K (L : InnerProductLayer α) (M : Nat) : (reshaped L M).K_ = L.K_ := by
  unfold reshaped; split_ifs <;> rfl

theorem reshaped_N (L : InnerProductLayer α) (M : Nat) : (reshaped L M).N_ = L.N_ := by
  unfold reshaped; split_ifs <;> rfl

theorem reshaped_bias_term (L : InnerProductLayer α) (M : Nat) :
    (reshaped L M).bias_term_ = L.bias_term_ := by
  unfold reshaped; split_ifs <;> rfl

theorem reshaped_blobs (L : InnerProductLayer α) (M : Nat) :
    (reshaped L M).blobs_ = L.blobs_ := by
  unfold reshaped; split_ifs <;> rfl

theorem reshaped_param_propagate_down (L : InnerProductLayer α) (M : Nat) :
    (reshaped L M).param_propagate_down_ = L.param_propagate_down_ := by
  unfold reshaped; split_ifs <;> rfl

/-- With a bias, `Reshape` leaves an all-ones multiplier of length `M_`. -/
theorem reshaped_ones (L : InnerProductLayer α) (M : Nat) (hb : L.bias_term_ = true) :
    (reshaped L M).bias_multiplier_.shape_ = [M] ∧
    ∀ m < M, (reshaped L M).bias_multiplier_.data_ m = 1 := by
  unfold reshaped
  rw [if_pos hb]
  refine ⟨rfl, ?_⟩
  intro m hm
  have h : 0 ≤ m ∧ m < 0 + M := by omega
  simp only [caffe_set]
  rw [if_pos h]

/-- The constructor `Blob(shape)` returns on dimensions that are counts. -/
theorem newBlob_map (l : List Nat) :
    (newBlob (l.map Int.ofNat) : Except Fatal (Blob α))
      = .ok ((Blob.mk [] (fun _ => 0) (fun _ => 0)).Reshape l) := by
  unfold newBlob
  exact ReshapeSigned_map _ l

/-- The constructor `Blob(shape)` aborts on a negative dimension. -/
theorem newBlob_negative (dims : List Int) (d : Int) (hd : d ∈ dims) (hneg : d < 0) :
    (newBlob dims : Except Fatal (Blob α)) = .error Fatal.negative_dimension := by
  unfold newBlob
  exact ReshapeSigned_negative _ dims d hd hneg

/-- `LayerSetUp` returns once the axis is in range and `num_output` is below
`2^31`; it records `N_ = num_output` and `K_`, the flattened size from the axis
onward. -/
theorem ip_LayerSetUp_spec (L0 : InnerProductLayer α) (wf bf : Blob α → Blob α)
    (bottom0 : Blob α) (a0 : Nat) (ha0 : bottom0.CanonicalAxisIndex L0.axis = .ok a0)
    (hnum : L0.num_output < 2 ^ 31) :
    ∃ L, LayerSetUp L0 wf bf bottom0 = .ok L ∧ L.axis = L0.axis ∧
      L.K_ = (bottom0.shape_.drop a0).prod ∧ L.N_ = (L0.num_output : Int) ∧
      L.bias_term_ = L0.bias_term := by
  have halt := Blob.CanonicalAxisIndex_lt bottom0 L0.axis a0 ha0
  have h3 := Blob.countFrom_ok bottom0 a0 (le_of_lt halt)
  have hw : (newBlob [(L0.num_output : Int), ((bottom0.shape_.drop a0).prod : Int)] :
      Except Fatal (Blob α))
      = .ok ((Blob.mk [] (fun _ => 0) (fun _ => 0)).Reshape
          [L0.num_output, (bottom0.shape_.drop a0).prod]) :=
    newBlob_map [L0.num_output, (bottom0.shape_.drop a0).prod]
  have hb : (newBlob [(L0.num_output : Int)] : Except Fatal (Blob α))
      = .ok ((Blob.mk [] (fun _ => 0) (fun _ => 0)).Reshape [L0.num_output]) :=
    newBlob_map [L0.num_output]
  unfold LayerSetUp
  simp only [ha0, h3, uint32_to_int_small _ hnum, hw, hb, bind, Except.bind, pure, Except.pure]
  by_cases hl : L0.blobs_.length > 0
  · simp only [hl, if_true]
    exact ⟨_, rfl, rfl, rfl, rfl, rfl⟩
  · by_cases hbt : L0.bias_term = true
    · simp only [hl, hbt, if_true, if_false]
      exact ⟨_, rfl, rfl, rfl, rfl, rfl⟩
    · simp only [hl, hbt, if_false]
      exact ⟨_, rfl, rfl, rfl, rfl, rfl⟩

/-- With parameter blobs attached, `LayerSetUp` skips the initialization and
returns for every `num_output`; `N_` is the narrowed value. -/
theorem ip_LayerSetUp_attached (L0 : InnerProductLayer α) (wf bf : Blob α → Blob α)
    (bottom0 : Blob α) (a0 : Nat) (ha0 : bottom0.CanonicalAxisIndex L0.axis = .ok a0)
    (hl : L0.blobs_.length > 0) :
    ∃ L, LayerSetUp L0 wf bf bottom0 = .ok L ∧ L.axis = L0.axis ∧
      L.K_ = (bottom0.shape_.drop a0).prod ∧ L.N_ = uint32_to_int L0.num_output ∧
      L.blobs_ = L0.blobs_ := by
  have halt := Blob.CanonicalAxisIndex_lt bottom0 L0.axis a0 ha0
  have h3 := Blob.countFrom_ok bottom0 a0 (le_of_lt halt)
  unfold LayerSetUp
  simp only [ha0, h3, hl, if_true, bind, Except.bind, pure, Except.pure]
  exact ⟨_, rfl, rfl, rfl, rfl, rfl⟩

/-- Without attached parameter blobs, `LayerSetUp` aborts in the constructor of
the weight blob when `num_output` is narrowed to a negative `N_`. -/
theorem ip_LayerSetUp_fresh_negative (L0 : InnerProductLayer α) (wf bf : Blob α → Blob α)
    (bottom0 : Blob α) (a0 : Nat) (ha0 : bottom0.CanonicalAxisIndex L0.axis = .ok a0)
    (hl : ¬ L0.blobs_.length > 0) (hneg : uint32_to_int L0.num_output < 0) :
    LayerSetUp L0 wf bf bottom0 = .error Fatal.negative_dimension := by
  have halt := Blob.CanonicalAxisIndex_lt bottom0 L0.axis a0 ha0
  have h3 := Blob.countFrom_ok bottom0 a0 (le_of_lt halt)
  have hw : (newBlob [uint32_to_int L0.num_output, ((bottom0.shape_.drop a0).prod : Int)] :
      Except Fatal (Blob α)) = .error Fatal.negative_dimension :=
    newBlob_negative _ _ (List.mem_cons_self _ _) hneg
  unfold LayerSetUp
  simp only [ha0, h3, hl, hw, if_false, bind, Except.bind, pure, Except.pure]

/-- On a valid axis `Reshape` fails exactly when the flattened size is not `K_`
or `N_` is negative. -/
theorem ip_Reshape_fails_iff (L : InnerProductLayer α) (bottom top : Blob α) (a : Nat)
    (ha : bottom.CanonicalAxisIndex L.axis = .ok a) :
    (∃ e, Reshape L bottom top = .error e)
      ↔ ((bottom.shape_.drop a).prod ≠ L.K_ ∨ L.N_ < 0) := by
  constructor
  · rintro ⟨e, he⟩
    by_contra hcon
    push_neg at hcon
    obtain ⟨hK, hN⟩ := hcon
    rw [ip_Reshape_eq L bottom top a L.N_.toNat ha hK (Int.toNat_of_nonneg hN).symm] at he
    cases he
  · rintro (hK | hN)
    · exact ⟨_, ip_Reshape_mismatch L bottom top a ha hK⟩
    · by_cases hK : (bottom.shape_.drop a).prod = L.K_
      · exact ⟨_, ip_Reshape_negative L bottom top a ha hK hN⟩
      · exact ⟨_, ip_Reshape_mismatch L bottom top a ha hK⟩

/-- With parameter blobs attached and a `uint32` `num_output` from `2^31` on,
`LayerSetUp` returns with a negative `N_` and every later `Reshape` on a valid
axis fails, whatever the flattened size of its input. -/
theorem ip_Reshape_after_narrowed_setup (L0 : InnerProductLayer α) (wf bf : Blob α → Blob α)
    (bottom0 bottom top : Blob α)
    (hl : L0.blobs_.length > 0)
    (h1 : 2 ^ 31 ≤ L0.num_output) (h2 : L0.num_output < 2 ^ 32)
    (haxis0 : -(bottom0.num_axes : Int) ≤ L0.axis ∧ L0.axis < (bottom0.num_axes : Int))
    (haxis : -(bottom.num_axes : Int) ≤ L0.axis ∧ L0.axis < (bottom.num_axes : Int)) :
    ∃ L, LayerSetUp L0 wf bf bottom0 = .ok L ∧ L.N_ < 0 ∧
      ∃ e, Reshape L bottom top = .error e := by
  obtain ⟨a0, ha0, _⟩ := Blob.CanonicalAxisIndex_ok bottom0 L0.axis haxis0
  obtain ⟨a, ha, _⟩ := Blob.CanonicalAxisIndex_ok bottom L0.axis haxis
  obtain ⟨L, hS, hax, _, hN, _⟩ := ip_LayerSetUp_attached L0 wf bf bottom0 a0 ha0 hl
  have hneg : L.N_ < 0 := by rw [hN]; exact uint32_to_int_large _ h1 h2
  have ha2 : bottom.CanonicalAxisIndex L.axis = .ok a := by rw [hax]; exact ha
  exact ⟨L, hS, hneg, (ip_Reshape_fails_iff L bottom top a ha2).mpr (Or.inr hneg)⟩

end InnerProductLayer

/-- C5: shape law of `InnerProductLayer::Reshape`: for an input shape `s` and a
canonical axis `a` (so `0 <= a < rank`) whose flattened size `product(s[a..))`
is the stored `K_`, on a layer whose `N_` is the dimension `N`, the call
returns, the output shape is `s[0..a)` followed by `N` (rank `a + 1`),
`M_ = product(s[0..a))`, `M_ * K_` is the input element count and the output
element count is `M_ * N`. -/
theorem inner_product_reshape_shape_law {α : Type} [LinearOrderedField α]
    (L : InnerProductLayer α) (bottom top : Blob α) (a N : Nat)
    (ha : bottom.CanonicalAxisIndex L.axis = .ok a)
    (hK : (bottom.shape_.drop a).prod = L.K_)
    (hN : L.N_ = (N : Int)) :
    ∃ L1 top1, InnerProductLayer.Reshape L bottom top = .ok (L1, top1) ∧
      a < bottom.num_axes ∧
      top1.shape_ = bottom.shape_.take a ++ [N] ∧
      top1.num_axes = a + 1 ∧
      L1.M_ = (bottom.shape_.take a).prod ∧ L1.K_ = L.K_ ∧ L1.N_ = L.N_ ∧
      L1.M_ * L1.K_ = bottom.count ∧
      top1.count = L1.M_ * N := by
  have halt := Blob.CanonicalAxisIndex_lt bottom L.axis a ha
  have hlen : a < bottom.shape_.length := halt
  refine ⟨_, _, InnerProductLayer.ip_Reshape_eq L bottom top a N ha hK hN, halt, rfl, ?_,
    InnerProductLayer.reshaped_M _ _, InnerProductLayer.reshaped_K _ _,
    InnerProductLayer.reshaped_N _ _, ?_, ?_⟩
  · simp only [Blob.num_axes, Blob.Reshape, List.length_append, List.length_take,
      List.length_singleton]
    omega
  · rw [InnerProductLayer.reshaped_M, InnerProductLayer.reshaped_K, ← hK]
    exact List.prod_take_mul_prod_drop bottom.shape_ a
  · rw [InnerProductLayer.reshaped_M]
    simp [Blob.count, Blob.Reshape]

end Caffe

namespace Caffe

open Finset CBLAS_TRANSPOSE

/-- Witness of C5: a `3 x 10` input on the layer set up for ten features. -/
theorem inner_product_reshape_shape_law_witness :
    (exInput10 ℚ).CanonicalAxisIndex (exInnerProductLayer ℚ).axis = .ok 1 ∧
    ((exInput10 ℚ).shape_.drop 1).prod = (exInnerProductLayer ℚ).K_ ∧
    (exInnerProductLayer ℚ).N_ = ((2 : Nat) : Int) ∧
    ∃ L1 top1,
      InnerProductLayer.Reshape (exInnerProductLayer ℚ) (exInput10 ℚ) (exTop ℚ)
        = .ok (L1, top1) ∧
      1 < (exInput10 ℚ).num_axes ∧
      top1.shape_ = (exInput10 ℚ).shape_.take 1 ++ [2] ∧
      top1.num_axes = 1 + 1 ∧
      L1.M_ = ((exInput10 ℚ).shape_.take 1).prod ∧ L1.K_ = (exInnerProductLayer ℚ).K_ ∧
      L1.N_ = (exInnerProductLayer ℚ).N_ ∧
      L1.M_ * L1.K_ = (exInput10 ℚ).count ∧
      top1.count = L1.M_ * 2 :=
  ⟨rfl, rfl, rfl,
   inner_product_reshape_shape_law (exInnerProductLayer ℚ) (exInput10 ℚ) (exTop ℚ) 1 2
     rfl rfl rfl⟩

/-- Counterexample to C7 as stated: the layer `exInnerProductAttached`, whose
parameter blobs are attached and whose `num_output` is `4294967295`, is set up
on a `3 x 10` input, so `K_ = 10` and `N_ = -1`; `Reshape` on the same input,
whose axis is valid and whose flattened size is `K_`, fails, in the `Reshape`
of the output blob. -/
theorem inner_product_reshape_fails_with_K_unchanged :
    ∃ L, InnerProductLayer.LayerSetUp (exInnerProductAttached ℚ) id id (exInput10 ℚ) = .ok L ∧
      L.K_ = 10 ∧ L.N_ = -1 ∧
      (exInput10 ℚ).CanonicalAxisIndex L.axis = .ok 1 ∧
      ((exInput10 ℚ).shape_.drop 1).prod = L.K_ ∧
      InnerProductLayer.Reshape L (exInput10 ℚ) (exTop ℚ) = .error Fatal.negative_dimension ∧
      ¬ ((∃ e, InnerProductLayer.Reshape L (exInput10 ℚ) (exTop ℚ) = .error e)
          ↔ ((exInput10 ℚ).shape_.drop 1).prod ≠ L.K_) := by
  obtain ⟨L, hS, hax, hK, hN, _⟩ :=
    InnerProductLayer.ip_LayerSetUp_attached (exInnerProductAttached ℚ) id id (exInput10 ℚ) 1
      rfl (by decide)
  have hK10 : L.K_ = 10 := by rw [hK]; rfl
  have hN1 : L.N_ = -1 := by rw [hN]; rfl
  have ha : (exInput10 ℚ).CanonicalAxisIndex L.axis = .ok 1 := by rw [hax]; rfl
  have hKe : ((exInput10 ℚ).shape_.drop 1).prod = L.K_ := by rw [hK10]; rfl
  have hR := InnerProductLayer.ip_Reshape_negative L (exInput10 ℚ) (exTop ℚ) 1 ha hKe
    (by rw [hN1]; decide)
  refine ⟨L, hS, hK10, hN1, ha, hKe, hR, ?_⟩
  intro hiff
  exact (hiff.mp ⟨_, hR⟩) hKe

/-- C7 (amended): `InnerProductLayer::Reshape` rejects a changed feature size:
for a layer whose `num_output` is below `2^31`, set up on an input with
flattened size `K` and a later input with a valid axis, `LayerSetUp` returns
with `N_ = num_output` and `Reshape` fails if and only if the flattened size of
the later input differs from `K`, and it then fails on the size check. -/
theorem inner_product_reshape_rejects_changed_K {α : Type} [LinearOrderedField α]
    (L0 : InnerProductLayer α) (wf bf : Blob α → Blob α) (bottom0 bottom top : Blob α)
    (hnum : L0.num_output < 2 ^ 31)
    (haxis0 : -(bottom0.num_axes : Int) ≤ L0.axis ∧ L0.axis < (bottom0.num_axes : Int))
    (haxis : -(bottom.num_axes : Int) ≤ L0.axis ∧ L0.axis < (bottom.num_axes : Int)) :
    ∃ L a0 a,
      InnerProductLayer.LayerSetUp L0 wf bf bottom0 = .ok L ∧
      L.N_ = (L0.num_output : Int) ∧
      bottom0.CanonicalAxisIndex L0.axis = .ok a0 ∧
      L.K_ = (bottom0.shape_.drop a0).prod ∧
      bottom.CanonicalAxisIndex L.axis = .ok a ∧
      ((∃ e, InnerProductLayer.Reshape L bottom top = .error e)
        ↔ (bottom.shape_.drop a).prod ≠ L.K_) ∧
      ((bottom.shape_.drop a).prod ≠ L.K_ →
        InnerProductLayer.Reshape L bottom top = .error Fatal.input_size_incompatible) := by
  obtain ⟨a0, ha0, _⟩ := Blob.CanonicalAxisIndex_ok bottom0 L0.axis haxis0
  obtain ⟨a, ha, _⟩ := Blob.CanonicalAxisIndex_ok bottom L0.axis haxis
  obtain ⟨L, hS, hax, hK, hN, _⟩ :=
    InnerProductLayer.ip_LayerSetUp_spec L0 wf bf bottom0 a0 ha0 hnum
  have ha2 : bottom.CanonicalAxisIndex L.axis = .ok a := by rw [hax]; exact ha
  refine ⟨L, a0, a, hS, hN, ha0, hK, ha2, ?_, ?_⟩
  · constructor
    · rintro ⟨e, he⟩ heq
      rw [InnerProductLayer.ip_Reshape_eq L bottom top a L0.num_output ha2 heq hN] at he
      cases he
    · intro hne
      exact ⟨_, InnerProductLayer.ip_Reshape_mismatch L bottom top a ha2 hne⟩
  · intro hne
    exact InnerProductLayer.ip_Reshape_mismatch L bottom top a ha2 hne

/-- Witness of C7: set up on ten features, then an input with twelve features. -/
theorem inner_product_reshape_rejects_changed_K_witness :
    (exInnerProductFresh ℚ).num_output < 2 ^ 31 ∧
    (-((exInput10 ℚ).num_axes : Int) ≤ (exInnerProductFresh ℚ).axis
      ∧ (exInnerProductFresh ℚ).axis < ((exInput10 ℚ).num_axes : Int)) ∧
    (-((exInput12 ℚ).num_axes : Int) ≤ (exInnerProductFresh ℚ).axis
      ∧ (exInnerProductFresh ℚ).axis < ((exInput12 ℚ).num_axes : Int)) ∧
    ∃ L a0 a,
      InnerProductLayer.LayerSetUp (exInnerProductFresh ℚ) id id (exInput10 ℚ) = .ok L ∧
      L.N_ = ((exInnerProductFresh ℚ).num_output : Int) ∧
      (exInput10 ℚ).CanonicalAxisIndex (exInnerProductFresh ℚ).axis = .ok a0 ∧
      L.K_ = ((exInput10 ℚ).shape_.drop a0).prod ∧
      (exInput12 ℚ).CanonicalAxisIndex L.axis = .ok a ∧
      ((∃ e, InnerProductLayer.Reshape L (exInput12 ℚ) (exTop ℚ) = .error e)
        ↔ ((exInput12 ℚ).shape_.drop a).prod ≠ L.K_) ∧
      (((exInput12 ℚ).shape_.drop a).prod ≠ L.K_ →
        InnerProductLayer.Reshape L (exInput12 ℚ) (exTop ℚ)
          = .error Fatal.input_size_incompatible) :=
  ⟨by decide, by decide, by decide,
   inner_product_reshape_rejects_changed_K (exInnerProductFresh ℚ) id id (exInput10 ℚ)
     (exInput12 ℚ) (exTop ℚ) (by decide) (by decide) (by decide)⟩

/-- The scenario of the specification: set up with `K = 10`, then `Reshape`
with an input of flattened size 12 fails on the size check. -/
theorem inner_product_K10_then_K12 :
    ∃ L, InnerProductLayer.LayerSetUp (exInnerProductFresh ℚ) id id (exInput10 ℚ) = .ok L ∧
      L.K_ = 10 ∧
      InnerProductLayer.Reshape L (exInput12 ℚ) (exTop ℚ)
        = .error Fatal.input_size_incompatible := by
  obtain ⟨L, hS, hax, hK, _, _⟩ :=
    InnerProductLayer.ip_LayerSetUp_spec (exInnerProductFresh ℚ) id id (exInput10 ℚ) 1 rfl
      (by decide)
  have hK10 : L.K_ = 10 := by rw [hK]; rfl
  refine ⟨L, hS, hK10, ?_⟩
  apply InnerProductLayer.ip_Reshape_mismatch L (exInput12 ℚ) (exTop ℚ) 1
  · rw [hax]; rfl
  · rw [hK10]; decide

/-- Without attached parameter blobs the same `num_output = 4294967295` makes
`LayerSetUp` itself abort, in the constructor of the weight blob. -/
theorem inner_product_setup_aborts_on_narrowed_num_output :
    InnerProductLayer.LayerSetUp
        { exInnerProductFresh ℚ with num_output := 4294967295 } id id (exInput10 ℚ)
      = .error Fatal.negative_dimension :=
  InnerProductLayer.ip_LayerSetUp_fresh_negative _ id id (exInput10 ℚ) 1 rfl (by decide)
    (by decide)

end Caffe

namespace Caffe

open Finset CBLAS_TRANSPOSE

namespace InnerProductLayer

variable {α : Type} [LinearOrderedField α]

/-- `Forward_cpu` returns the affine map of the input once the parameters are
present, the bias multiplier holds ones and `N_` is the dimension `N`. -/
theorem ip_Forward_cpu_spec (L : InnerProductLayer α) (bottom top : Blob α) (w b : Blob α)
    (N : Nat) (hN : L.N_ = (N : Int))
    (hw : vecAt L.blobs_ 0 = .ok w)
    (hb : L.bias_term_ = true → vecAt L.blobs_ 1 = .ok b)
    (hones : L.bias_term_ = true → ∀ m < L.M_, L.bias_multiplier_.data_ m = 1) :
    ∃ top2, Forward_cpu L bottom top = .ok top2 ∧
      top2.shape_ = top.shape_ ∧ top2.diff_ = top.diff_ ∧
      ∀ m < L.M_, ∀ n < N,
        top2.data_ (m * N + n)
          = (∑ k ∈ range L.K_, bottom.data_ (m * L.K_ + k) * w.data_ (n * L.K_ + k))
            + (if L.bias_term_ then b.data_ n else 0) := by
  have hT : L.N_.toNat = N := by rw [hN]; exact Int.toNat_ofNat N
  by_cases hbias : L.bias_term_ = true
  · refine ⟨{ top with data_ := (caffe_cpu_gemm CblasNoTrans CblasNoTrans L.M_ N 1 1
        L.bias_multiplier_.data_ b.data_ 1
        (caffe_cpu_gemm CblasNoTrans CblasTrans L.M_ N L.K_ 1 bottom.data_ w.data_ 0
          top.data_ 0) 0) }, ?_, rfl, rfl, ?_⟩
    · unfold Forward_cpu
      simp only [hw, hb hbias, hbias, hT, bind, Except.bind, pure, Except.pure, if_true]
    · intro m hm n hn
      have h1 := caffe_cpu_gemm_rank1 L.M_ N 1 L.bias_multiplier_.data_ b.data_
        (caffe_cpu_gemm CblasNoTrans CblasTrans L.M_ N L.K_ 1 bottom.data_ w.data_ 0
          top.data_ 0) 0 m n hm hn
      have h2 := caffe_cpu_gemm_nt L.M_ N L.K_ 1 0 bottom.data_ w.data_ top.data_ 0 m n
        hm hn
      rw [Nat.zero_add] at h1 h2
      simp only [hbias, if_true]
      rw [h1, h2, hones hbias m hm]
      ring
  · refine ⟨{ top with data_ := (caffe_cpu_gemm CblasNoTrans CblasTrans L.M_ N L.K_ 1
        bottom.data_ w.data_ 0 top.data_ 0) }, ?_, rfl, rfl, ?_⟩
    · unfold Forward_cpu
      simp only [hw, hbias, hT, bind, Except.bind, pure, Except.pure, if_false]
      rfl
    · intro m hm n hn
      have h2 := caffe_cpu_gemm_nt L.M_ N L.K_ 1 0 bottom.data_ w.data_ top.data_ 0 m n
        hm hn
      rw [Nat.zero_add] at h2
      simp only [hbias, if_false]
      rw [h2]
      simp

end InnerProductLayer

/-- C4: `InnerProductLayer::Forward_cpu` equals the affine reference: for an
`M x K` input, an `N x K` weight and, with a bias, a length-`N` bias, on a layer
whose `N_` is the dimension `N`, `Reshape` and `Forward_cpu` return and
`top[m][n] = sum over k < K of bottom[m][k] * weight[n][k]`, plus `bias[n]`
with a bias, for every `m < M` and `n < N`; the value does not mention the
previous contents of the output buffer. -/
theorem inner_product_forward_affine {α : Type} [LinearOrderedField α]
    (L : InnerProductLayer α) (bottom top : Blob α) (w b : Blob α) (a N : Nat)
    (ha : bottom.CanonicalAxisIndex L.axis = .ok a)
    (hK : (bottom.shape_.drop a).prod = L.K_)
    (hN : L.N_ = (N : Int))
    (hw : vecAt L.blobs_ 0 = .ok w)
    (hb : L.bias_term_ = true → vecAt L.blobs_ 1 = .ok b) :
    ∃ L1 top1 top2,
      InnerProductLayer.Reshape L bottom top = .ok (L1, top1) ∧
      InnerProductLayer.Forward_cpu L1 bottom top1 = .ok top2 ∧
      L1.M_ = (bottom.shape_.take a).prod ∧ L1.K_ = L.K_ ∧ L1.N_ = L.N_ ∧
      top2.shape_ = bottom.shape_.take a ++ [N] ∧
      ∀ m < L1.M_, ∀ n < N,
        top2.data_ (m * N + n)
          = (∑ k ∈ range L1.K_, bottom.data_ (m * L1.K_ + k) * w.data_ (n * L1.K_ + k))
            + (if L.bias_term_ then b.data_ n else 0) := by
  have hR := InnerProductLayer.ip_Reshape_eq L bottom top a N ha hK hN
  have hbt := InnerProductLayer.reshaped_bias_term L (bottom.shape_.take a).prod
  have hbl := InnerProductLayer.reshaped_blobs L (bottom.shape_.take a).prod
  obtain ⟨top2, hF, hs, _, hval⟩ := InnerProductLayer.ip_Forward_cpu_spec
    (InnerProductLayer.reshaped L (bottom.shape_.take a).prod) bottom
    (top.Reshape (bottom.shape_.take a ++ [N])) w b N
    (by rw [InnerProductLayer.reshaped_N]; exact hN)
    (by rw [hbl]; exact hw)
    (by rw [hbl, hbt]; exact hb)
    (by
      rw [hbt, InnerProductLayer.reshaped_M]
      intro h
      exact (InnerProductLayer.reshaped_ones L _ h).2)
  refine ⟨_, _, top2, hR, hF, InnerProductLayer.reshaped_M _ _,
    InnerProductLayer.reshaped_K _ _, InnerProductLayer.reshaped_N _ _, ?_, ?_⟩
  · rw [hs]; rfl
  · rw [hbt] at hval
    exact hval

/-- Witness of C4: a `3 x 10` input on the layer set up for ten features with
a bias. -/
theorem inner_product_forward_affine_witness :
    (exInput10 ℚ).CanonicalAxisIndex (exInnerProductLayer ℚ).axis = .ok 1 ∧
    ((exInput10 ℚ).shape_.drop 1).prod = (exInnerProductLayer ℚ).K_ ∧
    (exInnerProductLayer ℚ).N_ = ((2 : Nat) : Int) ∧
    ∃ L1 top1 top2,
      InnerProductLayer.Reshape (exInnerProductLayer ℚ) (exInput10 ℚ) (exTop ℚ)
        = .ok (L1, top1) ∧
      InnerProductLayer.Forward_cpu L1 (exInput10 ℚ) top1 = .ok top2 ∧
      L1.M_ = ((exInput10 ℚ).shape_.take 1).prod ∧ L1.K_ = (exInnerProductLayer ℚ).K_ ∧
      L1.N_ = (exInnerProductLayer ℚ).N_ ∧
      top2.shape_ = (exInput10 ℚ).shape_.take 1 ++ [2] ∧
      ∀ m < L1.M_, ∀ n < 2,
        top2.data_ (m * 2 + n)
          = (∑ k ∈ range L1.K_,
              (exInput10 ℚ).data_ (m * L1.K_ + k) * (exWeight ℚ).data_ (n * L1.K_ + k))
            + (if (exInnerProductLayer ℚ).bias_term_ then (exBias ℚ).data_ n else 0) :=
  ⟨rfl, rfl, rfl,
   inner_product_forward_affine (exInnerProductLayer ℚ) (exInput10 ℚ) (exTop ℚ)
     (exWeight ℚ) (exBias ℚ) 1 2 rfl rfl rfl rfl (fun _ => rfl)⟩

end Caffe

namespace Caffe

open Finset CBLAS_TRANSPOSE

namespace InnerProductLayer

variable {α : Type} [LinearOrderedField α]

/-- `Backward_cpu` with parameter propagation enabled returns; it rewrites the
weight gradient by the accumulating matrix product and, with a bias, the bias
gradient by the accumulating matrix-vector product, and keeps the rest of the
layer and the input values. -/
theorem ip_Backward_cpu_params (L : InnerProductLayer α) (top bottom : Blob α)
    (pd : List Bool) (w b : Blob α) (pd0 : Bool)
    (hp0 : vecAt L.param_propagate_down_ 0 = .ok true)
    (hw : vecAt L.blobs_ 0 = .ok w)
    (hb : L.bias_term_ = true →
      vecAt L.param_propagate_down_ 1 = .ok true ∧ vecAt L.blobs_ 1 = .ok b)
    (hpd : vecAt pd 0 = .ok pd0) :
    ∃ L2 bottom2, Backward_cpu L top pd bottom = .ok (L2, bottom2) ∧
      L2.M_ = L.M_ ∧ L2.K_ = L.K_ ∧ L2.N_ = L.N_ ∧ L2.bias_term_ = L.bias_term_ ∧
      L2.bias_multiplier_ = L.bias_multiplier_ ∧
      L2.param_propagate_down_ = L.param_propagate_down_ ∧
      bottom2.data_ = bottom.data_ ∧
      vecAt L2.blobs_ 0 = .ok { w with diff_ :=
        (caffe_cpu_gemm CblasTrans CblasNoTrans L.N_.toNat L.K_ L.M_ 1 top.diff_ bottom.data_ 1
          w.diff_ 0) } ∧
      (L.bias_term_ = true → vecAt L2.blobs_ 1 = .ok { b with diff_ :=
        (caffe_cpu_gemv CblasTrans L.M_ L.N_.toNat 1 top.diff_ L.bias_multiplier_.data_ 1
          b.diff_ 0) }) := by
  -- the weight step
  obtain ⟨Lw, hLw, h1⟩ : ∃ Lw : InnerProductLayer α,
      Lw = { L with blobs_ := L.blobs_.set 0 { w with diff_ :=
        (caffe_cpu_gemm CblasTrans CblasNoTrans L.N_.toNat L.K_ L.M_ 1 top.diff_ bottom.data_ 1
          w.diff_ 0) } } ∧ Backward_cpu_weight L top bottom = .ok Lw := by
    refine ⟨_, rfl, ?_⟩
    unfold Backward_cpu_weight
    simp only [hp0, hw, bind, Except.bind, pure, Except.pure, if_true]
  have hw0 : vecAt Lw.blobs_ 0 = .ok { w with diff_ :=
      (caffe_cpu_gemm CblasTrans CblasNoTrans L.N_.toNat L.K_ L.M_ 1 top.diff_ bottom.data_ 1
        w.diff_ 0) } := by
    rw [hLw]; exact vecAt_set_eq _ _ _ _ hw
  have hw1 : vecAt Lw.blobs_ 1 = vecAt L.blobs_ 1 := by
    rw [hLw]; exact vecAt_set_ne _ 0 1 _ (by decide)
  -- the bias step
  obtain ⟨Lb, h2, hb0, hb1, hM, hKK, hN, hbt, hbm, hppd⟩ : ∃ Lb : InnerProductLayer α,
      Backward_cpu_bias Lw top = .ok Lb ∧
      vecAt Lb.blobs_ 0 = vecAt Lw.blobs_ 0 ∧
      (L.bias_term_ = true → vecAt Lb.blobs_ 1 = .ok { b with diff_ :=
        (caffe_cpu_gemv CblasTrans L.M_ L.N_.toNat 1 top.diff_ L.bias_multiplier_.data_ 1
          b.diff_ 0) }) ∧
      Lb.M_ = L.M_ ∧ Lb.K_ = L.K_ ∧ Lb.N_ = L.N_ ∧ Lb.bias_term_ = L.bias_term_ ∧
      Lb.bias_multiplier_ = L.bias_multiplier_ ∧
      Lb.param_propagate_down_ = L.param_propagate_down_ := by
    by_cases hbias : L.bias_term_ = true
    · obtain ⟨hp1, hbb⟩ := hb hbias
      have hbias' : Lw.bias_term_ = true := by rw [hLw]; exact hbias
      have hp1' : vecAt Lw.param_propagate_down_ 1 = .ok true := by rw [hLw]; exact hp1
      have hbb' : vecAt Lw.blobs_ 1 = .ok b := by rw [hw1]; exact hbb
      refine ⟨{ Lw with blobs_ := Lw.blobs_.set 1 { b with diff_ :=
        (caffe_cpu_gemv CblasTrans Lw.M_ Lw.N_.toNat 1 top.diff_ Lw.bias_multiplier_.data_ 1
          b.diff_ 0) } }, ?_, ?_, ?_, ?_⟩
      · unfold Backward_cpu_bias
        simp only [hbias', hp1', hbb', bind, Except.bind, pure, Except.pure, if_true]
      · exact vecAt_set_ne _ 1 0 _ (by decide)
      · intro _
        have := vecAt_set_eq Lw.blobs_ 1 b { b with diff_ :=
          (caffe_cpu_gemv CblasTrans Lw.M_ Lw.N_.toNat 1 top.diff_ Lw.bias_multiplier_.data_ 1
            b.diff_ 0) } hbb'
        rw [hLw] at this ⊢
        exact this
      · rw [hLw]; exact ⟨rfl, rfl, rfl, rfl, rfl, rfl⟩
    · have hbias' : ¬ Lw.bias_term_ = true := by rw [hLw]; exact hbias
      refine ⟨Lw, ?_, rfl, fun h => absurd h hbias, ?_⟩
      · unfold Backward_cpu_bias
        simp only [hbias', bind, Except.bind, pure, Except.pure, if_false]
        rfl
      · rw [hLw]; exact ⟨rfl, rfl, rfl, rfl, rfl, rfl⟩
  -- the input-gradient step
  obtain ⟨bottom2, h3, hdata⟩ : ∃ bottom2 : Blob α,
      Backward_cpu_bottom Lb top pd bottom = .ok bottom2 ∧ bottom2.data_ = bottom.data_ := by
    unfold Backward_cpu_bottom
    rw [hb0] at *
    cases pd0 with
    | true =>
      simp only [hpd, hb0, hw0, bind, Except.bind, pure, Except.pure, if_true]
      exact ⟨_, rfl, rfl⟩
    | false =>
      simp only [hpd, bind, Except.bind, pure, Except.pure]
      exact ⟨_, rfl, rfl⟩
  refine ⟨Lb, bottom2, ?_, hM, hKK, hN, hbt, hbm, hppd, hdata, ?_, hb1⟩
  · unfold Backward_cpu
    simp only [h1, h2, h3, bind, Except.bind, pure, Except.pure]
  · rw [hb0]; exact hw0

end InnerProductLayer

end Caffe

namespace Caffe

open Finset CBLAS_TRANSPOSE

/-- C6: `InnerProductLayer::Backward_cpu` accumulates parameter gradients: on a
reshaped layer whose `N_` is the dimension `N`, with parameter propagation
enabled, one call adds
`sum over m of g[m][n] * bottom[m][k]` to `weightGrad[n][k]` and, with a bias,
`sum over m of g[m][n]` to `biasGrad[n]`, whatever the gradients held before; a
second call on the same input and output gradient, starting from zero
parameter gradients, leaves exactly twice the gradients of the first call. -/
theorem inner_product_backward_accumulates {α : Type} [LinearOrderedField α]
    (L : InnerProductLayer α) (bottom top0 top : Blob α) (propagate_down : List Bool)
    (w b : Blob α) (pd0 : Bool) (a N : Nat)
    (ha : bottom.CanonicalAxisIndex L.axis = .ok a)
    (hK : (bottom.shape_.drop a).prod = L.K_)
    (hN : L.N_ = (N : Int))
    (hp0 : vecAt L.param_propagate_down_ 0 = .ok true)
    (hw : vecAt L.blobs_ 0 = .ok w)
    (hb : L.bias_term_ = true →
      vecAt L.param_propagate_down_ 1 = .ok true ∧ vecAt L.blobs_ 1 = .ok b)
    (hpd : vecAt propagate_down 0 = .ok pd0) :
    ∃ L1 top1 L2 bottom2 L3 bottom3 w2 w3,
      InnerProductLayer.Reshape L bottom top0 = .ok (L1, top1) ∧
      InnerProductLayer.Backward_cpu L1 top propagate_down bottom = .ok (L2, bottom2) ∧
      InnerProductLayer.Backward_cpu L2 top propagate_down bottom2 = .ok (L3, bottom3) ∧
      vecAt L2.blobs_ 0 = .ok w2 ∧ vecAt L3.blobs_ 0 = .ok w3 ∧
      (∀ n < N, ∀ k < L1.K_,
        w2.diff_ (n * L1.K_ + k)
          = w.diff_ (n * L1.K_ + k)
            + ∑ m ∈ range L1.M_, top.diff_ (m * N + n) * bottom.data_ (m * L1.K_ + k) ∧
        (w.diff_ (n * L1.K_ + k) = 0 →
          w3.diff_ (n * L1.K_ + k) = 2 * w2.diff_ (n * L1.K_ + k))) ∧
      (L.bias_term_ = true → ∃ b2 b3,
        vecAt L2.blobs_ 1 = .ok b2 ∧ vecAt L3.blobs_ 1 = .ok b3 ∧
        ∀ n < N,
          b2.diff_ n = b.diff_ n + ∑ m ∈ range L1.M_, top.diff_ (m * N + n) ∧
          (b.diff_ n = 0 → b3.diff_ n = 2 * b2.diff_ n)) := by
  have hR := InnerProductLayer.ip_Reshape_eq L bottom top0 a N ha hK hN
  generalize hL1 : InnerProductLayer.reshaped L (bottom.shape_.take a).prod = L1 at hR
  have hT : L1.N_.toNat = N := by
    rw [← hL1, InnerProductLayer.reshaped_N, hN]; exact Int.toNat_ofNat N
  have hbt : L1.bias_term_ = L.bias_term_ := by
    rw [← hL1]; exact InnerProductLayer.reshaped_bias_term _ _
  have hbl : L1.blobs_ = L.blobs_ := by
    rw [← hL1]; exact InnerProductLayer.reshaped_blobs _ _
  have hpp : L1.param_propagate_down_ = L.param_propagate_down_ := by
    rw [← hL1]; exact InnerProductLayer.reshaped_param_propagate_down _ _
  have hones : L.bias_term_ = true → ∀ m < L1.M_, L1.bias_multiplier_.data_ m = 1 := by
    intro h
    rw [← hL1, InnerProductLayer.reshaped_M]
    exact (InnerProductLayer.reshaped_ones L _ h).2
  -- first call
  obtain ⟨L2, bottom2, hB1, hM2, hK2, hN2, hbt2, hbm2, hpp2, hdata2, hw2, hb2⟩ :=
    InnerProductLayer.ip_Backward_cpu_params L1 top bottom propagate_down w b pd0
      (by rw [hpp]; exact hp0) (by rw [hbl]; exact hw) (by rw [hbt, hpp, hbl]; exact hb) hpd
  -- second call
  obtain ⟨L3, bottom3, hB2, _, _, _, _, _, _, _, hw3, hb3⟩ :=
    InnerProductLayer.ip_Backward_cpu_params L2 top bottom2 propagate_down
      { w with diff_ :=
        (caffe_cpu_gemm CblasTrans CblasNoTrans L1.N_.toNat L1.K_ L1.M_ 1 top.diff_
          bottom.data_ 1 w.diff_ 0) }
      { b with diff_ :=
        (caffe_cpu_gemv CblasTrans L1.M_ L1.N_.toNat 1 top.diff_ L1.bias_multiplier_.data_ 1
          b.diff_ 0) } pd0
      (by rw [hpp2, hpp]; exact hp0) hw2
      (by
        rw [hbt2, hbt, hpp2, hpp]
        intro h
        exact ⟨(hb h).1, hb2 (by rw [hbt]; exact h)⟩) hpd
  simp only [hM2, hK2, hN2, hbm2, hdata2] at hw3 hb3
  rw [hbt2, hbt] at hb3
  rw [hbt] at hb2
  simp only [hT] at hw2 hw3 hb2 hb3
  refine ⟨L1, _, L2, bottom2, L3, bottom3, _, _, hR, hB1, hB2, hw2, hw3, ?_, ?_⟩
  · intro n hn k hk
    have g1 := caffe_cpu_gemm_tn N L1.K_ L1.M_ 1 1 top.diff_ bottom.data_ w.diff_ 0 n k
      hn hk
    have g2 := caffe_cpu_gemm_tn N L1.K_ L1.M_ 1 1 top.diff_ bottom.data_
      (caffe_cpu_gemm CblasTrans CblasNoTrans N L1.K_ L1.M_ 1 top.diff_ bottom.data_ 1
        w.diff_ 0) 0 n k hn hk
    rw [Nat.zero_add] at g1 g2
    refine ⟨?_, ?_⟩
    · show caffe_cpu_gemm CblasTrans CblasNoTrans N L1.K_ L1.M_ 1 top.diff_ bottom.data_ 1
        w.diff_ 0 (n * L1.K_ + k) = _
      rw [g1]; ring
    · intro hz
      show caffe_cpu_gemm CblasTrans CblasNoTrans N L1.K_ L1.M_ 1 top.diff_ bottom.data_ 1
        (caffe_cpu_gemm CblasTrans CblasNoTrans N L1.K_ L1.M_ 1 top.diff_ bottom.data_ 1
          w.diff_ 0) 0 (n * L1.K_ + k)
        = 2 * caffe_cpu_gemm CblasTrans CblasNoTrans N L1.K_ L1.M_ 1 top.diff_
          bottom.data_ 1 w.diff_ 0 (n * L1.K_ + k)
      rw [g2, g1, hz]; ring
  · intro hbias
    refine ⟨_, _, hb2 hbias, hb3 hbias, ?_⟩
    intro n hn
    have v1 := caffe_cpu_gemv_t_in L1.M_ N 1 1 top.diff_ L1.bias_multiplier_.data_
      b.diff_ n hn
    have v2 := caffe_cpu_gemv_t_in L1.M_ N 1 1 top.diff_ L1.bias_multiplier_.data_
      (caffe_cpu_gemv CblasTrans L1.M_ N 1 top.diff_ L1.bias_multiplier_.data_ 1
        b.diff_ 0) n hn
    have hsum : ∑ m ∈ range L1.M_, top.diff_ (m * N + n) * L1.bias_multiplier_.data_ m
        = ∑ m ∈ range L1.M_, top.diff_ (m * N + n) := by
      apply Finset.sum_congr rfl
      intro m hm
      rw [hones hbias m (Finset.mem_range.mp hm), mul_one]
    rw [hsum] at v1 v2
    refine ⟨?_, ?_⟩
    · show caffe_cpu_gemv CblasTrans L1.M_ N 1 top.diff_ L1.bias_multiplier_.data_ 1
        b.diff_ 0 n = _
      rw [v1]; ring
    · intro hz
      show caffe_cpu_gemv CblasTrans L1.M_ N 1 top.diff_ L1.bias_multiplier_.data_ 1
        (caffe_cpu_gemv CblasTrans L1.M_ N 1 top.diff_ L1.bias_multiplier_.data_ 1
          b.diff_ 0) 0 n
        = 2 * caffe_cpu_gemv CblasTrans L1.M_ N 1 top.diff_ L1.bias_multiplier_.data_ 1
          b.diff_ 0 n
      rw [v2, v1, hz]; ring

/-- Witness of C6: the layer set up for ten features with zero parameter
gradients, a `3 x 10` input and the output gradient `1, 2, 3, ...`. -/
theorem inner_product_backward_accumulates_witness :
    (exInput10 ℚ).CanonicalAxisIndex (exInnerProductLayer ℚ).axis = .ok 1 ∧
    ((exInput10 ℚ).shape_.drop 1).prod = (exInnerProductLayer ℚ).K_ ∧
    (exInnerProductLayer ℚ).N_ = ((2 : Nat) : Int) ∧
    vecAt (exInnerProductLayer ℚ).param_propagate_down_ 0 = .ok true ∧
    vecAt (exInnerProductLayer ℚ).blobs_ 0 = .ok (exWeight ℚ) ∧
    vecAt (exInnerProductLayer ℚ).param_propagate_down_ 1 = .ok true ∧
    vecAt (exInnerProductLayer ℚ).blobs_ 1 = .ok (exBias ℚ) ∧
    ∃ L1 top1 L2 bottom2 L3 bottom3 w2 w3,
      InnerProductLayer.Reshape (exInnerProductLayer ℚ) (exInput10 ℚ) (exTop ℚ)
        = .ok (L1, top1) ∧
      InnerProductLayer.Backward_cpu L1 (exOutput ℚ) [true] (exInput10 ℚ)
        = .ok (L2, bottom2) ∧
      InnerProductLayer.Backward_cpu L2 (exOutput ℚ) [true] bottom2 = .ok (L3, bottom3) ∧
      vecAt L2.blobs_ 0 = .ok w2 ∧ vecAt L3.blobs_ 0 = .ok w3 ∧
      (∀ n < 2, ∀ k < L1.K_,
        w2.diff_ (n * L1.K_ + k)
          = (exWeight ℚ).diff_ (n * L1.K_ + k)
            + ∑ m ∈ range L1.M_,
                (exOutput ℚ).diff_ (m * 2 + n) * (exInput10 ℚ).data_ (m * L1.K_ + k) ∧
        ((exWeight ℚ).diff_ (n * L1.K_ + k) = 0 →
          w3.diff_ (n * L1.K_ + k) = 2 * w2.diff_ (n * L1.K_ + k))) ∧
      ((exInnerProductLayer ℚ).bias_term_ = true → ∃ b2 b3,
        vecAt L2.blobs_ 1 = .ok b2 ∧ vecAt L3.blobs_ 1 = .ok b3 ∧
        ∀ n < 2,
          b2.diff_ n
            = (exBias ℚ).diff_ n + ∑ m ∈ range L1.M_, (exOutput ℚ).diff_ (m * 2 + n) ∧
          ((exBias ℚ).diff_ n = 0 → b3.diff_ n = 2 * b2.diff_ n)) :=
  ⟨rfl, rfl, rfl, rfl, rfl, rfl, rfl,
   inner_product_backward_accumulates (exInnerProductLayer ℚ) (exInput10 ℚ) (exTop ℚ)
     (exOutput ℚ) [true] (exWeight ℚ) (exBias ℚ) true 1 2 rfl rfl rfl rfl rfl
     (fun _ => ⟨rfl, rfl⟩) rfl⟩

end Caffe

namespace Caffe

open Finset CBLAS_TRANSPOSE

/-! ## Split layer -/

theorem vecAt_lt {β : Type} (v : List β) (i : Nat) (h : i < v.length) :
    vecAt v i = .ok v[i] := by
  unfold vecAt
  rw [List.getElem?_eq_getElem h]

theorem vecAt_cons_zero {β : Type} (x : β) (v : List β) : vecAt (x :: v) 0 = .ok x := by
  simp [vecAt]

theorem take_succ_of_lt {β : Type} (v : List β) (n : Nat) (h : n < v.length) :
    v.take (n + 1) = v.take n ++ [v[n]] := by
  rw [List.take_succ, List.getElem?_eq_getElem h]
  rfl

namespace SplitLayer

variable {α : Type}

/-- The loop of `Reshape` over the first `n` outputs when none of them is the
input: it returns, and exactly those outputs took the shape of the input. -/
theorem split_Reshape_loop_ok (count_ b0 : Nat) (bs top : List Nat) (mem : Mem α)
    (hc : count_ = (mem b0).count) (n : Nat) (hn : n ≤ top.length)
    (hne : ∀ t ∈ top.take n, t ≠ b0) :
    ∃ mem1, forLoopM n (Reshape_body count_ (b0 :: bs) top) mem = .ok mem1 ∧
      ∀ t, mem1 t = if t ∈ top.take n then (mem t).ReshapeLike (mem b0) else mem t := by
  induction n with
  | zero => exact ⟨mem, rfl, by simp⟩
  | succ n ih =>
    have hlt : n < top.length := by omega
    have htake := take_succ_of_lt top n hlt
    obtain ⟨mem1, h1, h2⟩ := ih (by omega) (fun t ht => hne t (by
      rw [htake]; exact List.mem_append_left _ ht))
    have hnb : top[n] ≠ b0 := hne _ (by
      rw [htake]; exact List.mem_append_right _ (List.mem_singleton.mpr rfl))
    have hb0 : mem1 b0 = mem b0 := by
      rw [h2 b0]
      have : b0 ∉ top.take n := fun hmem => hne b0 (by
        rw [htake]; exact List.mem_append_left _ hmem) rfl
      rw [if_neg this]
    refine ⟨Function.update mem1 top[n] ((mem1 top[n]).ReshapeLike (mem1 b0)), ?_, ?_⟩
    · rw [forLoopM_succ, h1]
      have hcnt : count_ = (Function.update mem1 top[n]
          ((mem1 top[n]).ReshapeLike (mem1 b0)) top[n]).count := by
        rw [Function.update_same, hb0, hc]
        rfl
      simp only [bind, Except.bind, Reshape_body, vecAt_lt top n hlt, vecAt_cons_zero, hnb,
        if_false, pure, Except.pure, ne_eq]
      rw [if_neg (not_not.mpr hcnt)]
    · intro t
      rw [htake, hb0]
      by_cases ht : t = top[n]
      · subst ht
        rw [Function.update_same, h2]
        have : top[n] ∈ top.take n ++ [top[n]] :=
          List.mem_append_right _ (List.mem_singleton.mpr rfl)
        rw [if_pos this]
        split_ifs <;> rfl
      · rw [Function.update_noteq ht, h2]
        have : t ∈ top.take n ++ [top[n]] ↔ t ∈ top.take n := by
          simp only [List.mem_append, List.mem_singleton, ht, or_false]
        simp only [this]

/-- The loop of `Reshape` over the first `n` outputs when one of them is the
input: the in-place check aborts. -/
theorem split_Reshape_loop_err (count_ b0 : Nat) (bs top : List Nat) (mem : Mem α)
    (hc : count_ = (mem b0).count) (n : Nat) (hn : n ≤ top.length)
    (hmem : b0 ∈ top.take n) :
    forLoopM n (Reshape_body count_ (b0 :: bs) top) mem = .error Fatal.in_place := by
  induction n with
  | zero => simp at hmem
  | succ n ih =>
    have hlt : n < top.length := by omega
    have htake := take_succ_of_lt top n hlt
    rw [forLoopM_succ]
    by_cases hprev : b0 ∈ top.take n
    · rw [ih (by omega) hprev]
      rfl
    · have hlast : top[n] = b0 := by
        rw [htake] at hmem
        rcases List.mem_append.mp hmem with h | h
        · exact absurd h hprev
        · simpa using (List.mem_singleton.mp h).symm
      obtain ⟨mem1, h1, _⟩ := split_Reshape_loop_ok count_ b0 bs top mem hc n (by omega)
        (fun t ht heq => hprev (heq ▸ ht))
      rw [h1]
      simp only [bind, Except.bind, Reshape_body, vecAt_lt top n hlt, vecAt_cons_zero, hlast,
        if_true]

/-- `Reshape` aborts on the in-place check when an output is the input. -/
theorem split_Reshape_in_place (L : SplitLayer) (mem : Mem α) (b0 : Nat) (bs top : List Nat)
    (hmem : b0 ∈ top) :
    Reshape L mem (b0 :: bs) top = .error Fatal.in_place := by
  unfold Reshape
  rw [vecAt_cons_zero]
  simp only [bind, Except.bind]
  rw [split_Reshape_loop_err (mem b0).count b0 bs top mem rfl top.length
    (le_refl _) (by rw [List.take_length]; exact hmem)]

/-- `Reshape` returns when no output is the input; the outputs took the shape
of the input. -/
theorem split_Reshape_ok (L : SplitLayer) (mem : Mem α) (b0 : Nat) (bs top : List Nat)
    (hmem : b0 ∉ top) :
    ∃ mem1, Reshape L mem (b0 :: bs) top = .ok ({ count_ := (mem b0).count }, mem1) ∧
      ∀ t, mem1 t = if t ∈ top then (mem t).ReshapeLike (mem b0) else mem t := by
  obtain ⟨mem1, h1, h2⟩ := split_Reshape_loop_ok (mem b0).count b0 bs top mem rfl
    top.length (le_refl _) (fun t ht heq => hmem (by
      rw [List.take_length] at ht; exact heq ▸ ht))
  rw [List.take_length] at h2
  refine ⟨mem1, ?_, h2⟩
  unfold Reshape
  rw [vecAt_cons_zero]
  simp only [bind, Except.bind]
  rw [h1]
  rfl

/-- A layer that `Reshape` returned has outputs distinct from the input and
holds the element count of the input. -/
theorem split_Reshape_distinct (L0 L : SplitLayer) (mem0 mem1 : Mem α) (b0 : Nat)
    (bs top : List Nat) (hR : Reshape L0 mem0 (b0 :: bs) top = .ok (L, mem1)) :
    (∀ t ∈ top, t ≠ b0) ∧ L.count_ = (mem0 b0).count := by
  have hmem : b0 ∉ top := by
    intro hmem
    rw [split_Reshape_in_place L0 mem0 b0 bs top hmem] at hR
    cases hR
  obtain ⟨mem1', h1, _⟩ := split_Reshape_ok L0 mem0 b0 bs top hmem
  rw [h1] at hR
  have hL : L = { count_ := (mem0 b0).count } :=
    (congrArg Prod.fst (Except.ok.inj hR)).symm
  refine ⟨fun t ht heq => hmem (heq ▸ ht), ?_⟩
  rw [hL]

end SplitLayer

/-- C10: `SplitLayer::Reshape` forbids in-place use: it fails if and only if
some output is the very buffer of the input, and then on the in-place check;
the equal-count check never fails; when it returns, every output has the shape
and the element count of the input and no other blob changed. -/
theorem split_reshape_forbids_in_place {α : Type}
    (L : SplitLayer) (mem : Mem α) (b0 : Nat) (bs top : List Nat) :
    ((∃ e, SplitLayer.Reshape L mem (b0 :: bs) top = .error e) ↔ b0 ∈ top) ∧
    (b0 ∈ top → SplitLayer.Reshape L mem (b0 :: bs) top = .error Fatal.in_place) ∧
    SplitLayer.Reshape L mem (b0 :: bs) top ≠ .error Fatal.count_mismatch ∧
    (∀ L1 mem1, SplitLayer.Reshape L mem (b0 :: bs) top = .ok (L1, mem1) →
      L1.count_ = (mem b0).count ∧ mem1 b0 = mem b0 ∧
      (∀ t ∈ top, (mem1 t).shape_ = (mem b0).shape_ ∧ (mem1 t).count = L1.count_
        ∧ (mem1 t).data_ = (mem t).data_ ∧ (mem1 t).diff_ = (mem t).diff_) ∧
      (∀ t, t ∉ top → mem1 t = mem t)) := by
  have herr := SplitLayer.split_Reshape_in_place L mem b0 bs top
  have hok := SplitLayer.split_Reshape_ok L mem b0 bs top
  refine ⟨⟨?_, fun h => ⟨_, herr h⟩⟩, herr, ?_, ?_⟩
  · rintro ⟨e, he⟩
    by_contra hmem
    obtain ⟨mem1, h1, _⟩ := hok hmem
    rw [h1] at he
    cases he
  · intro hcm
    by_cases hmem : b0 ∈ top
    · rw [herr hmem] at hcm
      cases hcm
    · obtain ⟨mem1, h1, _⟩ := hok hmem
      rw [h1] at hcm
      cases hcm
  · intro L1 mem1 hR
    have hmem : b0 ∉ top := by
      intro hmem
      rw [herr hmem] at hR
      cases hR
    obtain ⟨mem1', h1, h2⟩ := hok hmem
    rw [h1] at hR
    have hpair := Except.ok.inj hR
    have hL : L1 = { count_ := (mem b0).count } := (congrArg Prod.fst hpair).symm
    have hm : mem1 = mem1' := (congrArg Prod.snd hpair).symm
    subst hL; subst hm
    refine ⟨rfl, ?_, ?_, ?_⟩
    · rw [h2, if_neg hmem]
    · intro t ht
      rw [h2, if_pos ht]
      exact ⟨rfl, rfl, rfl, rfl⟩
    · intro t ht
      rw [h2, if_neg ht]

end Caffe

namespace Caffe

open Finset CBLAS_TRANSPOSE

theorem vecAt_cons_succ {β : Type} (x : β) (v : List β) (i : Nat) :
    vecAt (x :: v) (i + 1) = vecAt v i := by
  simp [vecAt]

namespace SplitLayer

variable {α : Type} [LinearOrderedField α]

/-- The loop of `Backward_cpu` over the outputs from the third on: after `n`
passes the input gradient grew by the gradients of `n` more outputs. -/
theorem split_Backward_cpu_loop (L : SplitLayer) (b0 t0 t1 : Nat) (bs rest : List Nat)
    (mem0 : Mem α) (hne : ∀ t ∈ rest, t ≠ b0) (n : Nat) (hn : n ≤ rest.length) :
    ∃ mem1, forLoopM n (Backward_cpu_body L (t0 :: t1 :: rest) (b0 :: bs)) mem0 = .ok mem1 ∧
      (∀ t, t ≠ b0 → mem1 t = mem0 t) ∧
      (mem1 b0).shape_ = (mem0 b0).shape_ ∧ (mem1 b0).data_ = (mem0 b0).data_ ∧
      (∀ j, j < L.count_ → (mem1 b0).diff_ j
        = (mem0 b0).diff_ j + ((rest.take n).map (fun t => (mem0 t).diff_ j)).sum) ∧
      (∀ j, L.count_ ≤ j → (mem1 b0).diff_ j = (mem0 b0).diff_ j) := by
  induction n with
  | zero => exact ⟨mem0, rfl, fun _ _ => rfl, rfl, rfl, by simp, fun _ _ => rfl⟩
  | succ n ih =>
    have hlt : n < rest.length := by omega
    have htake := take_succ_of_lt rest n hlt
    obtain ⟨mem1, h1, h2, h3, h4, h5, h6⟩ := ih (by omega)
    have hnb : rest[n] ≠ b0 := hne _ (List.getElem_mem hlt)
    have hat : vecAt (t0 :: t1 :: rest) (n + 2) = .ok rest[n] := by
      rw [vecAt_cons_succ, vecAt_cons_succ, vecAt_lt rest n hlt]
    refine ⟨Function.update mem1 b0 { mem1 b0 with diff_ :=
      (caffe_axpy L.count_ 1 (mem1 rest[n]).diff_ (mem1 b0).diff_ 0) }, ?_, ?_, ?_, ?_, ?_, ?_⟩
    · rw [forLoopM_succ, h1]
      simp only [bind, Except.bind, Backward_cpu_body, hat, vecAt_cons_zero, pure, Except.pure]
    · intro t ht
      rw [Function.update_noteq ht]
      exact h2 t ht
    · rw [Function.update_same]; exact h3
    · rw [Function.update_same]; exact h4
    · intro j hj
      rw [Function.update_same, htake, List.map_append, List.sum_append]
      have hin : 0 ≤ j ∧ j < 0 + L.count_ := by omega
      simp only [caffe_axpy]
      rw [if_pos hin, h5 j hj, h2 _ hnb]
      simp only [Nat.sub_zero, List.map_cons, List.map_nil, List.sum_cons, List.sum_nil]
      ring
    · intro j hj
      rw [Function.update_same]
      have hout : ¬ (0 ≤ j ∧ j < 0 + L.count_) := by omega
      simp only [caffe_axpy]
      rw [if_neg hout]
      exact h6 j hj

end SplitLayer

/-- C8: fan-in law of `SplitLayer::Backward_cpu`: on a layer that `Reshape`
returned for `k >= 1` outputs, with `propagate_down[0]` true and whatever the
blobs hold by then, the call returns and the input gradient is the elementwise
sum of the `k` output gradients on the `count_` elements, whatever it held
before; for `k = 1` it is the single output gradient; every other buffer is
kept. -/
theorem split_backward_fan_in {α : Type} [LinearOrderedField α]
    (L0 L : SplitLayer) (mem0 mem1 mem : Mem α) (b0 : Nat) (bs top : List Nat)
    (pds : List Bool)
    (hR : SplitLayer.Reshape L0 mem0 (b0 :: bs) top = .ok (L, mem1))
    (hk : 1 ≤ top.length) :
    ∃ mem2, SplitLayer.Backward_cpu L mem top (true :: pds) (b0 :: bs) = .ok mem2 ∧
      L.count_ = (mem0 b0).count ∧
      (∀ j < L.count_, (mem2 b0).diff_ j = (top.map (fun t => (mem t).diff_ j)).sum) ∧
      (∀ t0, top = [t0] → ∀ j < L.count_, (mem2 b0).diff_ j = (mem t0).diff_ j) ∧
      (∀ t, t ≠ b0 → mem2 t = mem t) ∧
      (mem2 b0).shape_ = (mem b0).shape_ ∧ (mem2 b0).data_ = (mem b0).data_ := by
  obtain ⟨hne, hcount⟩ := SplitLayer.split_Reshape_distinct L0 L mem0 mem1 b0 bs top hR
  have hsingle : ∀ t0, top = [t0] → ∃ mem1,
      SplitLayer.Backward_cpu L mem top (true :: pds) (b0 :: bs) = .ok mem1 ∧
      (∀ j < L.count_, (mem1 b0).diff_ j = (mem t0).diff_ j) ∧
      (∀ t, t ≠ b0 → mem1 t = mem t) ∧
      (mem1 b0).shape_ = (mem b0).shape_ ∧ (mem1 b0).data_ = (mem b0).data_ := by
    intro t0 htop
    subst htop
    refine ⟨Function.update mem b0 { mem b0 with diff_ :=
      (caffe_copy L.count_ (mem t0).diff_ (mem b0).diff_ 0) }, ?_, ?_, ?_, ?_, ?_⟩
    · unfold SplitLayer.Backward_cpu
      simp [vecAt_cons_zero, bind, Except.bind, pure, Except.pure]
    · intro j hj
      rw [Function.update_same]
      have hin : 0 ≤ j ∧ j < 0 + L.count_ := by omega
      simp only [caffe_copy]
      rw [if_pos hin, Nat.sub_zero]
    · intro t ht
      rw [Function.update_noteq ht]
    · rw [Function.update_same]
    · rw [Function.update_same]
  match top, hk, hne, hsingle with
  | [], hk, _, _ => simp at hk
  | [t0], _, _, hsingle =>
    obtain ⟨mem1, h1, h2, h3, h4, h5⟩ := hsingle t0 rfl
    refine ⟨mem1, h1, hcount, ?_, ?_, h3, h4, h5⟩
    · intro j hj
      rw [h2 j hj]
      simp
    · intro t0' ht j hj
      have : t0 = t0' := by simpa using ht
      subst this
      exact h2 j hj
  | t0 :: t1 :: rest, _, hne, _ =>
    have hne0 : t0 ≠ b0 := hne t0 (by simp)
    have hne1 : t1 ≠ b0 := hne t1 (by simp)
    have hrest : ∀ t ∈ rest, t ≠ b0 := fun t ht => hne t (by simp [ht])
    obtain ⟨mem1, h1, h2, h3, h4, h5, _⟩ := SplitLayer.split_Backward_cpu_loop L b0 t0 t1 bs rest
      (Function.update mem b0 { mem b0 with diff_ :=
        (caffe_add L.count_ (mem t0).diff_ (mem t1).diff_ (mem b0).diff_ 0) })
      hrest rest.length (le_refl _)
    refine ⟨mem1, ?_, hcount, ?_, ?_, ?_, ?_, ?_⟩
    · unfold SplitLayer.Backward_cpu
      simp only [vecAt_cons_zero, vecAt_cons_succ, bind, Except.bind, pure, Except.pure,
        List.length_cons, Bool.not_true, Bool.false_eq_true, if_false]
      have hlen : ¬ (rest.length + 1 + 1 = 1) := by omega
      rw [if_neg hlen]
      exact h1
    · intro j hj
      rw [h5 j hj, Function.update_same, List.take_length]
      have hin : 0 ≤ j ∧ j < 0 + L.count_ := by omega
      have hmap : rest.map (fun t => (Function.update mem b0 { mem b0 with diff_ :=
            (caffe_add L.count_ (mem t0).diff_ (mem t1).diff_ (mem b0).diff_ 0) } t).diff_ j)
          = rest.map (fun t => (mem t).diff_ j) := by
        apply List.map_congr_left
        intro t ht
        rw [Function.update_noteq (hrest t ht)]
      rw [hmap]
      simp only [caffe_add]
      rw [if_pos hin]
      simp only [Nat.sub_zero, List.map_cons, List.sum_cons]
      ring
    · intro t0' ht
      simp at ht
    · intro t ht
      rw [h2 t ht, Function.update_noteq ht]
    · rw [h3, Function.update_same]
    · rw [h4, Function.update_same]

/-- Witness of C8: three outputs at the addresses 1, 2, 3 and the input at 0 in
the memory `exMem`. -/
theorem split_backward_fan_in_witness :
    SplitLayer.Reshape ⟨0⟩ (exMem ℚ) [0] [1, 2, 3]
      = .ok (⟨4⟩, Function.update (Function.update (Function.update (exMem ℚ) 1
          ((exMem ℚ 1).ReshapeLike (exMem ℚ 0))) 2 ((exMem ℚ 2).ReshapeLike (exMem ℚ 0))) 3
          ((exMem ℚ 3).ReshapeLike (exMem ℚ 0))) ∧
    1 ≤ [1, 2, 3].length ∧
    ∃ mem2, SplitLayer.Backward_cpu ⟨4⟩ (exMem ℚ) [1, 2, 3] [true] [0] = .ok mem2 ∧
      (⟨4⟩ : SplitLayer).count_ = (exMem ℚ 0).count ∧
      (∀ j < (⟨4⟩ : SplitLayer).count_,
        (mem2 0).diff_ j = ([1, 2, 3].map (fun t => (exMem ℚ t).diff_ j)).sum) ∧
      (∀ t0, [1, 2, 3] = [t0] →
        ∀ j < (⟨4⟩ : SplitLayer).count_, (mem2 0).diff_ j = (exMem ℚ t0).diff_ j) ∧
      (∀ t, t ≠ 0 → mem2 t = exMem ℚ t) ∧
      (mem2 0).shape_ = (exMem ℚ 0).shape_ ∧ (mem2 0).data_ = (exMem ℚ 0).data_ :=
  ⟨rfl, by decide,
   split_backward_fan_in ⟨0⟩ ⟨4⟩ (exMem ℚ) _ (exMem ℚ) 0 [] [1, 2, 3] [] rfl (by decide)⟩

/-- C9: `SplitLayer::Backward_cpu` with `propagate_down[0]` false returns at
once: for every number of outputs and every state, every blob, the input
gradient included, is exactly as before the call. -/
theorem split_backward_no_propagate {α : Type} [LinearOrderedField α]
    (L : SplitLayer) (mem : Mem α) (top bottom : List Nat) (pds : List Bool) :
    SplitLayer.Backward_cpu L mem top (false :: pds) bottom = .ok mem := by
  unfold SplitLayer.Backward_cpu
  simp [vecAt_cons_zero, bind, Except.bind, pure, Except.pure]

end Caffe

namespace Caffe

open Finset CBLAS_TRANSPOSE

/-! ## Log layer -/

namespace LogLayer

variable {α : Type} [LinearOrderedField α]

/-- `LayerSetUp` with the base `-1`: `log_base` is one and nothing is rejected. -/
theorem log_LayerSetUp_natural (ln : α → α) (L : LogLayer α) (h : L.base = -1) :
    LayerSetUp_log_base ln L.base = Fp.finite 1 ∧
    LayerSetUp ln L = .ok
      { L with
        base_scale_ := 1
        input_scale_ := L.scale
        input_shift_ := L.shift
        backward_num_scale_ := L.scale } := by
  have hlb : LayerSetUp_log_base ln L.base = Fp.finite 1 := by
    unfold LayerSetUp_log_base
    rw [if_pos h]
  refine ⟨hlb, ?_⟩
  unfold LayerSetUp
  have hdiv : Fp.div (1 : α) 1 = Fp.finite 1 := by
    unfold Fp.div
    simp
  have hlb' : LayerSetUp_log_base ln (-1) = Fp.finite 1 := by rw [← h]; exact hlb
  simp only [h, hlb', ne_eq, not_true_eq_false, if_false, Fp.checked, hdiv, bind, Except.bind,
    pure, Except.pure, div_one]

/-- `LayerSetUp` with a base other than `-1` that is not strictly positive. -/
theorem log_LayerSetUp_not_positive (ln : α → α) (L : LogLayer α) (h1 : L.base ≠ -1)
    (h2 : ¬ 0 < L.base) : LayerSetUp ln L = .error Fatal.base_not_positive := by
  unfold LayerSetUp
  simp only [ne_eq, h1, not_false_eq_true, if_true, gt_iff_lt, h2, bind, Except.bind]

/-- `LayerSetUp` with a positive base whose logarithm is zero: `1 / log_base` is
an infinity and is rejected. -/
theorem log_LayerSetUp_log_zero (ln : α → α) (L : LogLayer α) (h1 : L.base ≠ -1)
    (h2 : 0 < L.base) (h3 : ln L.base = 0) :
    LayerSetUp_log_base ln L.base = Fp.finite 0 ∧ Fp.div (1 : α) 0 = Fp.inf ∧
    LayerSetUp ln L = .error Fatal.inf_result := by
  have hlb : LayerSetUp_log_base ln L.base = Fp.finite 0 := by
    unfold LayerSetUp_log_base Fp.log
    rw [if_neg h1, if_pos h2, h3]
  have hdiv : Fp.div (1 : α) 0 = Fp.inf := by
    unfold Fp.div
    simp
  refine ⟨hlb, hdiv, ?_⟩
  unfold LayerSetUp
  simp only [ne_eq, h1, not_false_eq_true, if_true, gt_iff_lt, h2, not_true_eq_false, if_false,
    hlb, Fp.checked, hdiv, bind, Except.bind, pure, Except.pure]

/-- `LayerSetUp` with a positive base whose logarithm is not zero. -/
theorem log_LayerSetUp_positive (ln : α → α) (L : LogLayer α) (h1 : L.base ≠ -1)
    (h2 : 0 < L.base) (h3 : ln L.base ≠ 0) :
    LayerSetUp_log_base ln L.base = Fp.finite (ln L.base) ∧
    LayerSetUp ln L = .ok
      { L with
        base_scale_ := 1 / ln L.base
        input_scale_ := L.scale
        input_shift_ := L.shift
        backward_num_scale_ := L.scale / ln L.base } := by
  have hlb : LayerSetUp_log_base ln L.base = Fp.finite (ln L.base) := by
    unfold LayerSetUp_log_base Fp.log
    rw [if_neg h1, if_pos h2]
  have hdiv : Fp.div (1 : α) (ln L.base) = Fp.finite (1 / ln L.base) := by
    unfold Fp.div
    rw [if_neg h3]
  refine ⟨hlb, ?_⟩
  unfold LayerSetUp
  simp only [ne_eq, h1, not_false_eq_true, if_true, gt_iff_lt, h2, not_true_eq_false, if_false,
    hlb, Fp.checked, hdiv, bind, Except.bind, pure, Except.pure]

/-- Every accepted set-up stores `base_scale_ = 1 / log_base` and
`backward_num_scale_ = scale / log_base` for a nonzero `log_base`, and copies
scale and shift. -/
theorem log_LayerSetUp_accepted (ln : α → α) (L : LogLayer α)
    (h : L.base = -1 ∨ (0 < L.base ∧ ln L.base ≠ 0)) :
    ∃ L1 lb, LayerSetUp ln L = .ok L1 ∧ LayerSetUp_log_base ln L.base = Fp.finite lb ∧
      lb ≠ 0 ∧ (L.base = -1 → lb = 1) ∧ (L.base ≠ -1 → lb = ln L.base) ∧
      L1.base_scale_ = 1 / lb ∧ L1.backward_num_scale_ = L.scale / lb ∧
      L1.input_scale_ = L.scale ∧ L1.input_shift_ = L.shift := by
  by_cases h1 : L.base = -1
  · obtain ⟨hlb, hS⟩ := log_LayerSetUp_natural ln L h1
    exact ⟨_, 1, hS, hlb, one_ne_zero, fun _ => rfl, fun hne => absurd h1 hne, by simp,
      by simp, rfl, rfl⟩
  · rcases h with h | ⟨h2, h3⟩
    · exact absurd h h1
    · obtain ⟨hlb, hS⟩ := log_LayerSetUp_positive ln L h1 h2 h3
      exact ⟨_, ln L.base, hS, hlb, h3, fun he => absurd he h1, fun _ => rfl, rfl, rfl, rfl,
        rfl⟩

/-- `LayerSetUp` returns exactly on the base `-1` and on the positive bases whose
logarithm is not zero. -/
theorem log_LayerSetUp_ok_iff (ln : α → α) (L : LogLayer α) :
    (∃ L1, LayerSetUp ln L = .ok L1) ↔ (L.base = -1 ∨ (0 < L.base ∧ ln L.base ≠ 0)) := by
  constructor
  · rintro ⟨L1, hS⟩
    by_cases h1 : L.base = -1
    · exact Or.inl h1
    · by_cases h2 : 0 < L.base
      · by_cases h3 : ln L.base = 0
        · rw [(log_LayerSetUp_log_zero ln L h1 h2 h3).2.2] at hS
          cases hS
        · exact Or.inr ⟨h2, h3⟩
      · rw [log_LayerSetUp_not_positive ln L h1 h2] at hS
        cases hS
  · intro h
    obtain ⟨L1, _, hS, _⟩ := log_LayerSetUp_accepted ln L h
    exact ⟨L1, hS⟩

end LogLayer

end Caffe

namespace Caffe

open Finset CBLAS_TRANSPOSE

/-- For a positive real base the logarithm vanishes exactly at one. -/
theorem real_log_ne_zero_iff (x : ℝ) (hx : 0 < x) : Real.log x ≠ 0 ↔ x ≠ 1 := by
  constructor
  · intro h h1
    rw [h1, Real.log_one] at h
    exact h rfl
  · intro h
    exact Real.log_ne_zero_of_pos_of_ne_one hx h

/-- C14: `LogLayer::LayerSetUp` rejects invalid bases: every base that is neither
the sentinel `-1` nor strictly positive fails the fatal check on the base; for
the sentinel `-1` the set-up returns with `log_base` exactly 1,
`base_scale_ = 1` and `backward_num_scale_ = scale`. -/
theorem log_setup_rejects_invalid_base (L : LogLayer ℝ) :
    (L.base ≠ -1 ∧ ¬ 0 < L.base → LogLayer.LayerSetUp Real.log L = .error Fatal.base_not_positive) ∧
    (L.base = -1 →
      LogLayer.LayerSetUp_log_base Real.log L.base = Fp.finite 1 ∧
      ∃ L1, LogLayer.LayerSetUp Real.log L = .ok L1 ∧
        L1.base_scale_ = 1 ∧ L1.backward_num_scale_ = L.scale ∧
        L1.input_scale_ = L.scale ∧ L1.input_shift_ = L.shift) := by
  refine ⟨fun h => LogLayer.log_LayerSetUp_not_positive Real.log L h.1 h.2, ?_⟩
  intro h
  obtain ⟨hlb, hS⟩ := LogLayer.log_LayerSetUp_natural Real.log L h
  exact ⟨hlb, _, hS, rfl, rfl, rfl, rfl⟩

/-- The scenarios of the specification: the bases `-2` and `0` fail the set-up. -/
theorem log_setup_base_minus_two_and_zero (scale shift : ℝ) :
    LogLayer.LayerSetUp Real.log ⟨-2, scale, shift, 0, 0, 0, 0⟩
      = .error Fatal.base_not_positive ∧
    LogLayer.LayerSetUp Real.log ⟨0, scale, shift, 0, 0, 0, 0⟩
      = .error Fatal.base_not_positive := by
  constructor
  · apply LogLayer.log_LayerSetUp_not_positive <;> norm_num
  · apply LogLayer.log_LayerSetUp_not_positive <;> norm_num

/-- C20: acceptance of `LogLayer::LayerSetUp` on a real base, `1 / 0` being the
rejected infinity: the set-up returns if and only if `base = -1` or
(`base > 0` and `base != 1`); for `base = 1` the logarithm is `0`, `1 / log_base`
is an infinity and the set-up fails on it; whenever the set-up returns,
`log_base != 0` and `base_scale_ * log_base = 1`. -/
theorem log_setup_acceptance (L : LogLayer ℝ) :
    ((∃ L1, LogLayer.LayerSetUp Real.log L = .ok L1)
      ↔ (L.base = -1 ∨ (0 < L.base ∧ L.base ≠ 1))) ∧
    (L.base = 1 →
      LogLayer.LayerSetUp_log_base Real.log L.base = Fp.finite 0 ∧
      Fp.div (1 : ℝ) 0 = Fp.inf ∧
      LogLayer.LayerSetUp Real.log L = .error Fatal.inf_result) ∧
    (∀ L1, LogLayer.LayerSetUp Real.log L = .ok L1 →
      ∃ lb, LogLayer.LayerSetUp_log_base Real.log L.base = Fp.finite lb ∧
        lb ≠ 0 ∧ L1.base_scale_ * lb = 1) := by
  have hiff : (L.base = -1 ∨ (0 < L.base ∧ Real.log L.base ≠ 0))
      ↔ (L.base = -1 ∨ (0 < L.base ∧ L.base ≠ 1)) := by
    constructor
    · rintro (h | ⟨h2, h3⟩)
      · exact Or.inl h
      · exact Or.inr ⟨h2, (real_log_ne_zero_iff _ h2).mp h3⟩
    · rintro (h | ⟨h2, h3⟩)
      · exact Or.inl h
      · exact Or.inr ⟨h2, (real_log_ne_zero_iff _ h2).mpr h3⟩
  refine ⟨?_, ?_, ?_⟩
  · rw [LogLayer.log_LayerSetUp_ok_iff, hiff]
  · intro h1
    apply LogLayer.log_LayerSetUp_log_zero Real.log L
    · rw [h1]; norm_num
    · rw [h1]; norm_num
    · rw [h1, Real.log_one]
  · intro L1 hS
    have hacc := (LogLayer.log_LayerSetUp_ok_iff Real.log L).mp ⟨L1, hS⟩
    obtain ⟨L1', lb, hS', hlb, hne, _, _, hbs, _⟩ :=
      LogLayer.log_LayerSetUp_accepted Real.log L hacc
    rw [hS'] at hS
    have hL : L1' = L1 := Except.ok.inj hS
    subst hL
    refine ⟨lb, hlb, hne, ?_⟩
    rw [hbs]
    field_simp

end Caffe

namespace Caffe

open Finset CBLAS_TRANSPOSE

namespace LogLayer

variable {α : Type} [LinearOrderedField α]

/-- `Forward_cpu` writes `log(input_scale_ * x + input_shift_) / log_base` on the
`count` elements, whichever steps are skipped, and keeps the rest. -/
theorem log_Forward_cpu_spec (ln : α → α) (L1 : LogLayer α) (lb : α)
    (hbs : L1.base_scale_ = 1 / lb) (bottom top : Blob α) :
    (Forward_cpu ln L1 bottom top).shape_ = top.shape_ ∧
    (Forward_cpu ln L1 bottom top).diff_ = top.diff_ ∧
    (∀ p < bottom.count, (Forward_cpu ln L1 bottom top).data_ p
      = ln (L1.input_scale_ * bottom.data_ p + L1.input_shift_) / lb) ∧
    (∀ p, bottom.count ≤ p → (Forward_cpu ln L1 bottom top).data_ p = top.data_ p) := by
  refine ⟨rfl, rfl, ?_, ?_⟩
  · intro p hp
    have hin : 0 ≤ p ∧ p < 0 + bottom.count := by omega
    have hlb : L1.base_scale_ = 1 → lb = 1 := by
      intro h
      rw [hbs, one_div] at h
      exact inv_eq_one.mp h
    unfold Forward_cpu
    by_cases hs : L1.input_scale_ = 1 <;> by_cases hsh : L1.input_shift_ = 0 <;>
      by_cases hb : L1.base_scale_ = 1
    all_goals
      simp only [hs, hsh, hb, and_self, and_true, and_false, true_and, false_and, if_true,
        if_false, ne_eq, not_true_eq_false, not_false_eq_true, caffe_log, caffe_scal,
        caffe_add_scalar, caffe_copy, hin, Nat.sub_zero, one_mul, add_zero]
    all_goals first
      | (rw [hlb hb, div_one])
      | (rw [hbs]; ring)
  · intro p hp
    have hout : ¬ (0 ≤ p ∧ p < 0 + bottom.count) := by omega
    unfold Forward_cpu
    by_cases hs : L1.input_scale_ = 1 <;> by_cases hsh : L1.input_shift_ = 0 <;>
      by_cases hb : L1.base_scale_ = 1
    all_goals
      simp only [hs, hsh, hb, and_self, and_true, and_false, true_and, false_and, if_true,
        if_false, ne_eq, not_true_eq_false, not_false_eq_true, caffe_log, caffe_scal,
        caffe_add_scalar, caffe_copy, hout]

/-- `Backward_cpu` with `propagate_down[0]` true returns; it writes
`g * backward_num_scale_ / (input_scale_ * x + input_shift_)` on the `count`
elements, whichever steps are skipped, and keeps the rest. -/
theorem log_Backward_cpu_spec (L1 : LogLayer α) (top bottom : Blob α) (pds : List Bool) :
    ∃ bottom2, Backward_cpu L1 top (true :: pds) bottom = .ok bottom2 ∧
      bottom2.shape_ = bottom.shape_ ∧ bottom2.data_ = bottom.data_ ∧
      (∀ p < bottom.count, bottom2.diff_ p
        = top.diff_ p * L1.backward_num_scale_
            / (L1.input_scale_ * bottom.data_ p + L1.input_shift_)) ∧
      (∀ p, bottom.count ≤ p → bottom2.diff_ p = bottom.diff_ p) := by
  have hv : vecAt (true :: pds) 0 = .ok true := by simp [vecAt]
  unfold Backward_cpu
  simp only [hv, bind, Except.bind, pure, Except.pure, Bool.not_true, Bool.false_eq_true,
    if_false]
  refine ⟨_, rfl, rfl, rfl, ?_, ?_⟩
  · intro p hp
    have hin : 0 ≤ p ∧ p < 0 + bottom.count := by omega
    by_cases hs : L1.input_scale_ = 1 <;> by_cases hsh : L1.input_shift_ = 0 <;>
      by_cases hb : L1.backward_num_scale_ = 1
    all_goals
      simp only [hs, hsh, hb, if_true, if_false, ne_eq, not_true_eq_false, not_false_eq_true,
        caffe_powx, caffe_scal, caffe_add_scalar, caffe_copy, caffe_mul, hin, and_self,
        Nat.sub_zero, one_mul, add_zero, mul_one, zpow_neg_one, div_eq_mul_inv]
    all_goals ring
  · intro p hp
    have hout : ¬ (0 ≤ p ∧ p < 0 + bottom.count) := by omega
    by_cases hs : L1.input_scale_ = 1 <;> by_cases hsh : L1.input_shift_ = 0 <;>
      by_cases hb : L1.backward_num_scale_ = 1
    all_goals
      simp only [hs, hsh, hb, if_true, if_false, ne_eq, not_true_eq_false, not_false_eq_true,
        caffe_powx, caffe_scal, caffe_add_scalar, caffe_copy, caffe_mul, hout]

/-- `Backward_cpu` with `propagate_down[0]` false returns the input blob as it is. -/
theorem log_Backward_cpu_no_propagate (L1 : LogLayer α) (top bottom : Blob α)
    (pds : List Bool) : Backward_cpu L1 top (false :: pds) bottom = .ok bottom := by
  have hv : vecAt (false :: pds) 0 = .ok false := by simp [vecAt]
  unfold Backward_cpu
  simp only [hv, bind, Except.bind, pure, Except.pure, Bool.not_false, if_true]

end LogLayer

end Caffe

namespace Caffe

open Finset CBLAS_TRANSPOSE

/-- An accepted real base is `-1` or positive with a nonzero logarithm. -/
theorem real_accepted_base (L : LogLayer ℝ) (hbase : L.base = -1 ∨ (0 < L.base ∧ L.base ≠ 1)) :
    L.base = -1 ∨ (0 < L.base ∧ Real.log L.base ≠ 0) := by
  rcases hbase with h | ⟨h2, h3⟩
  · exact Or.inl h
  · exact Or.inr ⟨h2, (real_log_ne_zero_iff _ h2).mpr h3⟩

/-- C11: `LogLayer::Forward_cpu` equals the reference transform for every
configuration: for every scale, shift and accepted base, with `log_base = 1`
for the sentinel `-1` and `ln(base)` otherwise, the set-up returns and every
output element is `log(scale * x + shift) / log_base` in real arithmetic,
whichever of the scale, shift and base steps the code skips. -/
theorem log_forward_reference (L : LogLayer ℝ) (bottom top : Blob ℝ)
    (hbase : L.base = -1 ∨ (0 < L.base ∧ L.base ≠ 1)) :
    ∃ L1 lb, LogLayer.LayerSetUp Real.log L = .ok L1 ∧
      LogLayer.LayerSetUp_log_base Real.log L.base = Fp.finite lb ∧
      (L.base = -1 → lb = 1) ∧ (L.base ≠ -1 → lb = Real.log L.base) ∧
      ∀ p < bottom.count,
        (LogLayer.Forward_cpu Real.log L1 bottom top).data_ p
          = Real.log (L.scale * bottom.data_ p + L.shift) / lb := by
  obtain ⟨L1, lb, hS, hlb, _, h1, h2, hbs, _, hsc, hsh⟩ :=
    LogLayer.log_LayerSetUp_accepted Real.log L (real_accepted_base L hbase)
  refine ⟨L1, lb, hS, hlb, h1, h2, ?_⟩
  intro p hp
  rw [(LogLayer.log_Forward_cpu_spec Real.log L1 lb hbs bottom top).2.2.1 p hp, hsc, hsh]

/-- Witness of C11: base 2, scale 3 and shift 1 on the inputs `1, 2, 3, 4`. -/
theorem log_forward_reference_witness :
    ((exLogBase2 ℝ).base = -1 ∨ (0 < (exLogBase2 ℝ).base ∧ (exLogBase2 ℝ).base ≠ 1)) ∧
    ∃ L1 lb, LogLayer.LayerSetUp Real.log (exLogBase2 ℝ) = .ok L1 ∧
      LogLayer.LayerSetUp_log_base Real.log (exLogBase2 ℝ).base = Fp.finite lb ∧
      ((exLogBase2 ℝ).base = -1 → lb = 1) ∧
      ((exLogBase2 ℝ).base ≠ -1 → lb = Real.log (exLogBase2 ℝ).base) ∧
      ∀ p < (exPositive ℝ).count,
        (LogLayer.Forward_cpu Real.log L1 (exPositive ℝ) (exLogTop ℝ)).data_ p
          = Real.log ((exLogBase2 ℝ).scale * (exPositive ℝ).data_ p + (exLogBase2 ℝ).shift)
            / lb :=
  ⟨Or.inr (by norm_num [exLogBase2]),
   log_forward_reference (exLogBase2 ℝ) (exPositive ℝ) (exLogTop ℝ)
     (Or.inr (by norm_num [exLogBase2]))⟩

/-- C12: `LogLayer::Backward_cpu` equals the derivative of the forward
transform: with `propagate_down[0]` true, for every scale, shift and accepted
base and every input element `x` with `scale * x + shift != 0`, the input
gradient is `g * (scale / log_base) / (scale * x + shift)` in real arithmetic,
which is `g / x` for scale 1, shift 0 and the natural base; with
`propagate_down[0]` false the input blob is returned unchanged. -/
theorem log_backward_derivative (L : LogLayer ℝ) (bottom top : Blob ℝ) (pds : List Bool)
    (hbase : L.base = -1 ∨ (0 < L.base ∧ L.base ≠ 1)) :
    ∃ L1 lb bottom2, LogLayer.LayerSetUp Real.log L = .ok L1 ∧
      LogLayer.LayerSetUp_log_base Real.log L.base = Fp.finite lb ∧
      (L.base = -1 → lb = 1) ∧ (L.base ≠ -1 → lb = Real.log L.base) ∧
      LogLayer.Backward_cpu L1 top (true :: pds) bottom = .ok bottom2 ∧
      (∀ p < bottom.count, L.scale * bottom.data_ p + L.shift ≠ 0 →
        bottom2.diff_ p
          = top.diff_ p * (L.scale / lb) / (L.scale * bottom.data_ p + L.shift)) ∧
      (L.base = -1 → L.scale = 1 → L.shift = 0 →
        ∀ p < bottom.count, bottom.data_ p ≠ 0 →
          bottom2.diff_ p = top.diff_ p / bottom.data_ p) ∧
      LogLayer.Backward_cpu L1 top (false :: pds) bottom = .ok bottom := by
  obtain ⟨L1, lb, hS, hlb, _, h1, h2, _, hbn, hsc, hsh⟩ :=
    LogLayer.log_LayerSetUp_accepted Real.log L (real_accepted_base L hbase)
  obtain ⟨bottom2, hB, _, _, hval, _⟩ := LogLayer.log_Backward_cpu_spec L1 top bottom pds
  have hgen : ∀ p < bottom.count, bottom2.diff_ p
      = top.diff_ p * (L.scale / lb) / (L.scale * bottom.data_ p + L.shift) := by
    intro p hp
    rw [hval p hp, hbn, hsc, hsh]
  refine ⟨L1, lb, bottom2, hS, hlb, h1, h2, hB, fun p hp _ => hgen p hp, ?_,
    LogLayer.log_Backward_cpu_no_propagate L1 top bottom pds⟩
  intro hb1 hs1 hsh0 p hp _
  rw [hgen p hp, h1 hb1, hs1, hsh0]
  simp

/-- Witness of C12: base 2, scale 3 and shift 1 on the inputs `1, 2, 3, 4` with
the output gradient `5, 6, 7, 8`. -/
theorem log_backward_derivative_witness :
    ((exLogBase2 ℝ).base = -1 ∨ (0 < (exLogBase2 ℝ).base ∧ (exLogBase2 ℝ).base ≠ 1)) ∧
    ∃ L1 lb bottom2, LogLayer.LayerSetUp Real.log (exLogBase2 ℝ) = .ok L1 ∧
      LogLayer.LayerSetUp_log_base Real.log (exLogBase2 ℝ).base = Fp.finite lb ∧
      ((exLogBase2 ℝ).base = -1 → lb = 1) ∧
      ((exLogBase2 ℝ).base ≠ -1 → lb = Real.log (exLogBase2 ℝ).base) ∧
      LogLayer.Backward_cpu L1 (exLogTop ℝ) [true] (exPositive ℝ) = .ok bottom2 ∧
      (∀ p < (exPositive ℝ).count,
        (exLogBase2 ℝ).scale * (exPositive ℝ).data_ p + (exLogBase2 ℝ).shift ≠ 0 →
        bottom2.diff_ p
          = (exLogTop ℝ).diff_ p * ((exLogBase2 ℝ).scale / lb)
            / ((exLogBase2 ℝ).scale * (exPositive ℝ).data_ p + (exLogBase2 ℝ).shift)) ∧
      ((exLogBase2 ℝ).base = -1 → (exLogBase2 ℝ).scale = 1 → (exLogBase2 ℝ).shift = 0 →
        ∀ p < (exPositive ℝ).count, (exPositive ℝ).data_ p ≠ 0 →
          bottom2.diff_ p = (exLogTop ℝ).diff_ p / (exPositive ℝ).data_ p) ∧
      LogLayer.Backward_cpu L1 (exLogTop ℝ) [false] (exPositive ℝ) = .ok (exPositive ℝ) :=
  ⟨Or.inr (by norm_num [exLogBase2]),
   log_backward_derivative (exLogBase2 ℝ) (exPositive ℝ) (exLogTop ℝ) []
     (Or.inr (by norm_num [exLogBase2]))⟩

/-- C13: round trip of the log layer: with scale 1, shift 0 and the natural base
(the sentinel `-1`), for every input whose elements are all strictly positive,
the exponential of every output element of `Forward_cpu` is the input
element, in real arithmetic. -/
theorem log_round_trip (L : LogLayer ℝ) (bottom top : Blob ℝ)
    (hb : L.base = -1) (hs : L.scale = 1) (hsh : L.shift = 0)
    (hpos : ∀ p < bottom.count, 0 < bottom.data_ p) :
    ∃ L1, LogLayer.LayerSetUp Real.log L = .ok L1 ∧
      ∀ p < bottom.count,
        Real.exp ((LogLayer.Forward_cpu Real.log L1 bottom top).data_ p) = bottom.data_ p := by
  obtain ⟨L1, lb, hS, _, _, h1, _, hbs, _, hsc, hshift⟩ :=
    LogLayer.log_LayerSetUp_accepted Real.log L (Or.inl hb)
  refine ⟨L1, hS, ?_⟩
  intro p hp
  rw [(LogLayer.log_Forward_cpu_spec Real.log L1 lb hbs bottom top).2.2.1 p hp, hsc, hshift,
    h1 hb, hs, hsh, one_mul, add_zero, div_one]
  exact Real.exp_log (hpos p hp)

/-- Witness of C13: the natural layer on the inputs `1, 2, 3, 4`. -/
theorem log_round_trip_witness :
    (exLogNatural ℝ).base = -1 ∧ (exLogNatural ℝ).scale = 1 ∧ (exLogNatural ℝ).shift = 0 ∧
    (∀ p < (exPositive ℝ).count, 0 < (exPositive ℝ).data_ p) ∧
    ∃ L1, LogLayer.LayerSetUp Real.log (exLogNatural ℝ) = .ok L1 ∧
      ∀ p < (exPositive ℝ).count,
        Real.exp ((LogLayer.Forward_cpu Real.log L1 (exPositive ℝ) (exLogTop ℝ)).data_ p)
          = (exPositive ℝ).data_ p :=
  ⟨rfl, rfl, rfl, fun p _ => by simp only [exPositive]; positivity,
   log_round_trip (exLogNatural ℝ) (exPositive ℝ) (exLogTop ℝ) rfl rfl rfl
     (fun p _ => by simp only [exPositive]; positivity)⟩

end Caffe

namespace Caffe

open Finset CBLAS_TRANSPOSE

/-! ## cuDNN activation layers -/

theorem callsSince_append (B0 : Cudnn) (n : Nat) (evs : List DescEvent) :
    Cudnn.callsSince B0 { next := n, calls := B0.calls ++ evs } = evs := by
  unfold Cudnn.callsSince
  simp

/-- The calls of `CuDNNReLULayer::LayerSetUp` and of the destructor after it. -/
theorem relu_setup_teardown_calls (L : CuDNNReLULayer) (B : Cudnn) :
    Cudnn.callsSince B (L.LayerSetUp B).2
      = [DescEvent.create B.next, DescEvent.create (B.next + 1)] ∧
    Cudnn.callsSince (L.LayerSetUp B).2 ((L.LayerSetUp B).1.destructor (L.LayerSetUp B).2)
      = [DescEvent.destroy B.next, DescEvent.destroy (B.next + 1)] := by
  constructor
  · have h : (L.LayerSetUp B).2 = { next := B.next + 1 + 1, calls := B.calls ++
        [DescEvent.create B.next, DescEvent.create (B.next + 1)] } := by
      simp [CuDNNReLULayer.LayerSetUp, Cudnn.createTensor4dDesc]
    rw [h, callsSince_append]
  · have h : (L.LayerSetUp B).1.destructor (L.LayerSetUp B).2
        = { next := (L.LayerSetUp B).2.next, calls := (L.LayerSetUp B).2.calls ++
          [DescEvent.destroy B.next, DescEvent.destroy (B.next + 1)] } := by
      simp [CuDNNReLULayer.LayerSetUp, CuDNNReLULayer.destructor, Cudnn.createTensor4dDesc,
        Cudnn.cudnnDestroyTensorDescriptor]
    rw [h, callsSince_append]

/-- The calls of `CuDNNSigmoidLayer::LayerSetUp` and of the destructor after it. -/
theorem sigmoid_setup_teardown_calls (L : CuDNNSigmoidLayer) (B : Cudnn) :
    Cudnn.callsSince B (L.LayerSetUp B).2
      = [DescEvent.create B.next, DescEvent.create (B.next + 1)] ∧
    Cudnn.callsSince (L.LayerSetUp B).2 ((L.LayerSetUp B).1.destructor (L.LayerSetUp B).2)
      = [DescEvent.destroy B.next, DescEvent.destroy (B.next + 1)] := by
  constructor
  · have h : (L.LayerSetUp B).2 = { next := B.next + 1 + 1, calls := B.calls ++
        [DescEvent.create B.next, DescEvent.create (B.next + 1)] } := by
      simp [CuDNNSigmoidLayer.LayerSetUp, Cudnn.createTensor4dDesc]
    rw [h, callsSince_append]
  · have h : (L.LayerSetUp B).1.destructor (L.LayerSetUp B).2
        = { next := (L.LayerSetUp B).2.next, calls := (L.LayerSetUp B).2.calls ++
          [DescEvent.destroy B.next, DescEvent.destroy (B.next + 1)] } := by
      simp [CuDNNSigmoidLayer.LayerSetUp, CuDNNSigmoidLayer.destructor,
        Cudnn.createTensor4dDesc, Cudnn.cudnnDestroyTensorDescriptor]
    rw [h, callsSince_append]

/-- C16, as stated, fails: on a ReLU layer and on a sigmoid layer set up on an
unused descriptor interface the descriptors are created in the order `0, 1`
and destroyed in the order `0, 1`, which is not the reverse `1, 0`. -/
theorem cudnn_release_order_counterexample :
    Cudnn.destroyed (Cudnn.callsSince (exReLU.LayerSetUp exCudnn).2
        ((exReLU.LayerSetUp exCudnn).1.destructor (exReLU.LayerSetUp exCudnn).2))
      ≠ (Cudnn.created (Cudnn.callsSince exCudnn (exReLU.LayerSetUp exCudnn).2)).reverse ∧
    Cudnn.destroyed (Cudnn.callsSince (exSigmoid.LayerSetUp exCudnn).2
        ((exSigmoid.LayerSetUp exCudnn).1.destructor (exSigmoid.LayerSetUp exCudnn).2))
      ≠ (Cudnn.created (Cudnn.callsSince exCudnn (exSigmoid.LayerSetUp exCudnn).2)).reverse := by
  decide

/-- C16, amended: the accelerator-backed activation layers release their
descriptors in acquisition order: for every ReLU and sigmoid layer that
completed `LayerSetUp`, the sequence of descriptors destroyed by the destructor
equals the sequence created by `LayerSetUp`, the bottom descriptor first and
the top descriptor second. -/
theorem cudnn_release_in_acquisition_order (Lr : CuDNNReLULayer) (Ls : CuDNNSigmoidLayer)
    (B : Cudnn) :
    (Cudnn.created (Cudnn.callsSince B (Lr.LayerSetUp B).2)
        = [(Lr.LayerSetUp B).1.bottom_desc_, (Lr.LayerSetUp B).1.top_desc_] ∧
      Cudnn.destroyed (Cudnn.callsSince (Lr.LayerSetUp B).2
          ((Lr.LayerSetUp B).1.destructor (Lr.LayerSetUp B).2))
        = Cudnn.created (Cudnn.callsSince B (Lr.LayerSetUp B).2)) ∧
    (Cudnn.created (Cudnn.callsSince B (Ls.LayerSetUp B).2)
        = [(Ls.LayerSetUp B).1.bottom_desc_, (Ls.LayerSetUp B).1.top_desc_] ∧
      Cudnn.destroyed (Cudnn.callsSince (Ls.LayerSetUp B).2
          ((Ls.LayerSetUp B).1.destructor (Ls.LayerSetUp B).2))
        = Cudnn.created (Cudnn.callsSince B (Ls.LayerSetUp B).2)) := by
  obtain ⟨r1, r2⟩ := relu_setup_teardown_calls Lr B
  obtain ⟨s1, s2⟩ := sigmoid_setup_teardown_calls Ls B
  rw [r1, r2, s1, s2]
  refine ⟨⟨rfl, rfl⟩, ⟨rfl, rfl⟩⟩

/-- A layer that did not complete `LayerSetUp` destroys nothing. -/
theorem cudnn_destructor_guard (Lr : CuDNNReLULayer) (Ls : CuDNNSigmoidLayer) (B : Cudnn)
    (hr : Lr.handles_setup_ = false) (hs : Ls.handles_setup_ = false) :
    Lr.destructor B = B ∧ Ls.destructor B = B := by
  simp [CuDNNReLULayer.destructor, CuDNNSigmoidLayer.destructor, hr, hs]

end Caffe

namespace Caffe

open Finset CBLAS_TRANSPOSE

/-- Setting a range to a value twice is setting it once. -/
theorem caffe_set_twice {α : Type} (N : Nat) (v : α) (Y : Buf α) :
    caffe_set N v (caffe_set N v Y 0) 0 = caffe_set N v Y 0 := by
  funext p
  simp only [caffe_set]
  split_ifs <;> rfl

namespace InnerProductLayer

variable {α : Type} [LinearOrderedField α]

theorem reshaped_axis (L : InnerProductLayer α) (M : Nat) : (reshaped L M).axis = L.axis := by
  unfold reshaped; split_ifs <;> rfl

/-- The layer state that `Reshape` leaves is a fixed point of `Reshape`. -/
theorem reshaped_twice (L : InnerProductLayer α) (M : Nat) :
    reshaped (reshaped L M) M = reshaped L M := by
  by_cases hb : L.bias_term_ = true
  · have h1 : reshaped L M = { L with M_ := M, bias_multiplier_ :=
        { (L.bias_multiplier_.Reshape [M]) with
          data_ := caffe_set M 1 (L.bias_multiplier_.Reshape [M]).data_ 0 } } := by
      unfold reshaped; rw [if_pos hb]
    rw [h1]
    unfold reshaped
    simp only [hb, if_true, Blob.Reshape, caffe_set_twice]
  · have h1 : reshaped L M = { L with M_ := M } := by
      unfold reshaped; rw [if_neg hb]
    rw [h1]
    unfold reshaped
    simp only [hb, if_false]
    rfl

/-- What a returning `Reshape` computed. -/
theorem ip_Reshape_inv (L L1 : InnerProductLayer α) (bottom top top1 : Blob α)
    (hR : Reshape L bottom top = .ok (L1, top1)) :
    ∃ a N : Nat, bottom.CanonicalAxisIndex L.axis = .ok a ∧
      (bottom.shape_.drop a).prod = L.K_ ∧
      L.N_ = (N : Int) ∧
      L1 = reshaped L (bottom.shape_.take a).prod ∧
      top1 = top.Reshape (bottom.shape_.take a ++ [N]) := by
  cases ha : bottom.CanonicalAxisIndex L.axis with
  | error e =>
    unfold Reshape at hR
    simp only [ha, bind, Except.bind] at hR
    cases hR
  | ok a =>
    by_cases hK : (bottom.shape_.drop a).prod = L.K_
    · by_cases hneg : L.N_ < 0
      · rw [ip_Reshape_negative L bottom top a ha hK hneg] at hR
        cases hR
      · have hN : L.N_ = (L.N_.toNat : Int) := (Int.toNat_of_nonneg (not_lt.mp hneg)).symm
        rw [ip_Reshape_eq L bottom top a L.N_.toNat ha hK hN] at hR
        have hp := Except.ok.inj hR
        exact ⟨a, L.N_.toNat, rfl, hK, hN, (congrArg Prod.fst hp).symm,
          (congrArg Prod.snd hp).symm⟩
    · rw [ip_Reshape_mismatch L bottom top a ha hK] at hR
      cases hR

end InnerProductLayer

/-- C15: `InnerProductLayer::Reshape` is idempotent: whenever `Reshape` returns
on a layer and an input, a second `Reshape` on the same input returns as well
and leaves the layer (with `M_`, `K_`, `N_` and the bias multiplier) and the
output blob exactly as after the first call; with a bias the multiplier has
length `M_` and holds ones. -/
theorem inner_product_reshape_idempotent {α : Type} [LinearOrderedField α]
    (L L1 : InnerProductLayer α) (bottom top top1 : Blob α)
    (hR : InnerProductLayer.Reshape L bottom top = .ok (L1, top1)) :
    InnerProductLayer.Reshape L1 bottom top1 = .ok (L1, top1) ∧
    L1.K_ = L.K_ ∧ L1.N_ = L.N_ ∧
    (L1.bias_term_ = true →
      L1.bias_multiplier_.shape_ = [L1.M_] ∧ ∀ m < L1.M_, L1.bias_multiplier_.data_ m = 1) := by
  obtain ⟨a, N, ha, hK, hN, hL1, ht1⟩ :=
    InnerProductLayer.ip_Reshape_inv L L1 bottom top top1 hR
  subst hL1; subst ht1
  refine ⟨?_, InnerProductLayer.reshaped_K _ _, InnerProductLayer.reshaped_N _ _, ?_⟩
  · rw [InnerProductLayer.ip_Reshape_eq _ bottom _ a N
      (by rw [InnerProductLayer.reshaped_axis]; exact ha)
      (by rw [InnerProductLayer.reshaped_K]; exact hK)
      (by rw [InnerProductLayer.reshaped_N]; exact hN),
      InnerProductLayer.reshaped_twice]
    rfl
  · intro hb
    rw [InnerProductLayer.reshaped_bias_term] at hb
    rw [InnerProductLayer.reshaped_M]
    exact InnerProductLayer.reshaped_ones L _ hb

/-- Witness of C15: the layer set up for ten features on a `3 x 10` input. -/
theorem inner_product_reshape_idempotent_witness :
    InnerProductLayer.Reshape (exInnerProductLayer ℚ) (exInput10 ℚ) (exTop ℚ)
      = .ok (InnerProductLayer.reshaped (exInnerProductLayer ℚ) 3,
             (exTop ℚ).Reshape [3, 2]) ∧
    (InnerProductLayer.Reshape (InnerProductLayer.reshaped (exInnerProductLayer ℚ) 3)
        (exInput10 ℚ) ((exTop ℚ).Reshape [3, 2])
      = .ok (InnerProductLayer.reshaped (exInnerProductLayer ℚ) 3, (exTop ℚ).Reshape [3, 2]) ∧
    (InnerProductLayer.reshaped (exInnerProductLayer ℚ) 3).K_ = (exInnerProductLayer ℚ).K_ ∧
    (InnerProductLayer.reshaped (exInnerProductLayer ℚ) 3).N_ = (exInnerProductLayer ℚ).N_ ∧
    ((InnerProductLayer.reshaped (exInnerProductLayer ℚ) 3).bias_term_ = true →
      (InnerProductLayer.reshaped (exInnerProductLayer ℚ) 3).bias_multiplier_.shape_
        = [(InnerProductLayer.reshaped (exInnerProductLayer ℚ) 3).M_] ∧
      ∀ m < (InnerProductLayer.reshaped (exInnerProductLayer ℚ) 3).M_,
        (InnerProductLayer.reshaped (exInnerProductLayer ℚ) 3).bias_multiplier_.data_ m = 1)) :=
  ⟨rfl, inner_product_reshape_idempotent (exInnerProductLayer ℚ) _ (exInput10 ℚ) (exTop ℚ) _ rfl⟩

end Caffe

namespace Caffe

open Finset CBLAS_TRANSPOSE

/-! ## The running maximum of the softmax layer -/

section RunningMax

variable {α : Type} [LinearOrderedField α]

theorem forLoop_max_ge_init (n : Nat) (f : Nat → α) (m0 : α) :
    m0 ≤ forLoop n (fun j m => max m (f j)) m0 := by
  induction n with
  | zero => exact le_refl _
  | succ n ih =>
    rw [forLoop_succ]
    exact le_trans ih (le_max_left _ _)

theorem forLoop_max_ge (n : Nat) (f : Nat → α) (m0 : α) (j : Nat) (hj : j < n) :
    f j ≤ forLoop n (fun j m => max m (f j)) m0 := by
  induction n with
  | zero => omega
  | succ n ih =>
    rw [forLoop_succ]
    by_cases hjn : j = n
    · subst hjn
      exact le_max_right _ _
    · exact le_trans (ih (by omega)) (le_max_left _ _)

theorem forLoop_max_attained (n : Nat) (f : Nat → α) (m0 : α) :
    forLoop n (fun j m => max m (f j)) m0 = m0
      ∨ ∃ j, j < n ∧ forLoop n (fun j m => max m (f j)) m0 = f j := by
  induction n with
  | zero => exact Or.inl rfl
  | succ n ih =>
    rw [forLoop_succ]
    rcases max_choice (forLoop n (fun j m => max m (f j)) m0) (f n) with h | h
    · rw [h]
      rcases ih with h0 | ⟨j, hj, hval⟩
      · exact Or.inl h0
      · exact Or.inr ⟨j, by omega, hval⟩
    · rw [h]
      exact Or.inr ⟨n, by omega, rfl⟩

/-- The running maximum of `Forward_cpu` is the maximum over the channels. -/
theorem chanMax_isMax (channels inner dim i k : Nat) (x : Buf α) (hch : 0 < channels) :
    (∀ c < channels, x (i * dim + c * inner + k) ≤ chanMax channels inner dim i x k) ∧
    (∃ c, c < channels ∧ x (i * dim + c * inner + k) = chanMax channels inner dim i x k) := by
  have h0 : x (i * dim + k) = x (i * dim + 0 * inner + k) := by
    rw [Nat.zero_mul, Nat.add_zero]
  unfold chanMax
  refine ⟨?_, ?_⟩
  · intro c hc
    exact forLoop_max_ge channels (fun j => x (i * dim + j * inner + k)) _ c hc
  · rcases forLoop_max_attained channels (fun j => x (i * dim + j * inner + k))
      (x (i * dim + k)) with h | ⟨j, hj, hval⟩
    · exact ⟨0, hch, by rw [h, ← h0]⟩
    · exact ⟨j, hj, hval.symm⟩

end RunningMax

/-- In real arithmetic the subtraction of the maximum cancels: the value written
by `Forward_cpu` is the naive softmax. -/
theorem softmaxRef_eq_naive (channels inner dim : Nat) (x : Buf ℝ) (i c k : Nat) :
    softmaxRef Real.exp channels inner dim x i c k
      = naiveSoftmax Real.exp channels inner dim x i c k := by
  unfold softmaxRef naiveSoftmax
  simp only [Real.exp_sub]
  rw [← Finset.sum_div]
  have hne : Real.exp (chanMax channels inner dim i x k) ≠ 0 := Real.exp_ne_zero _
  by_cases hs : ∑ c' ∈ range channels, Real.exp (x (i * dim + c' * inner + k)) = 0
  · rw [hs]; simp
  · field_simp

/-- C17: the max-subtracted softmax is the naive softmax: for every input
without empty dimensions and every valid axis, `Forward_cpu` returns with
`top[i][c][k] = exp(x[i][c][k] - m) / sum over c' of exp(x[i][c'][k] - m)`, where
`m` is the maximum of `x[i][c'][k]` over the channels, and this equals
`exp(x[i][c][k]) / sum over c' of exp(x[i][c'][k])` in real arithmetic, for every
outer index `i`, the groups lying `dim = channels * inner_num` apart. -/
theorem softmax_forward_equals_naive (L : SoftmaxLayer ℝ) (bottom top : Blob ℝ)
    (hdims : ∀ d ∈ bottom.shape_, 1 ≤ d)
    (haxis : -(bottom.num_axes : Int) ≤ L.axis ∧ L.axis < (bottom.num_axes : Int)) :
    ∃ L1 top1 L2 top2 channels,
      SoftmaxLayer.Reshape L bottom top = .ok (L1, top1) ∧
      SoftmaxLayer.Forward_cpu Real.exp L1 bottom top1 = .ok (L2, top2) ∧
      bottom.shape L1.softmax_axis_ = .ok channels ∧
      bottom.count / L1.outer_num_ = channels * L1.inner_num_ ∧
      ∀ i < L1.outer_num_, ∀ c < channels, ∀ k < L1.inner_num_,
        ∃ m,
          (∀ c' < channels,
            bottom.data_ (i * (bottom.count / L1.outer_num_) + c' * L1.inner_num_ + k) ≤ m) ∧
          (∃ c', c' < channels ∧
            bottom.data_ (i * (bottom.count / L1.outer_num_) + c' * L1.inner_num_ + k) = m) ∧
          top2.data_ (i * (bottom.count / L1.outer_num_) + c * L1.inner_num_ + k)
            = Real.exp
                (bottom.data_ (i * (bottom.count / L1.outer_num_) + c * L1.inner_num_ + k) - m)
              / ∑ c' ∈ range channels, Real.exp
                (bottom.data_ (i * (bottom.count / L1.outer_num_) + c' * L1.inner_num_ + k)
                  - m) ∧
          top2.data_ (i * (bottom.count / L1.outer_num_) + c * L1.inner_num_ + k)
            = naiveSoftmax Real.exp channels L1.inner_num_ (bottom.count / L1.outer_num_)
                bottom.data_ i c k := by
  obtain ⟨L1, top1, L2, top2, channels, hR, hF, hshape, hch, _, _, hdim, _, _, hval, _⟩ :=
    SoftmaxLayer.Reshape_Forward_spec Real.exp L bottom top hdims haxis
  refine ⟨L1, top1, L2, top2, channels, hR, hF, hshape, hdim, ?_⟩
  intro i hi c hc k hk
  rw [hdim]
  obtain ⟨hmax, hatt⟩ := chanMax_isMax channels L1.inner_num_ (channels * L1.inner_num_) i k
    bottom.data_ hch
  refine ⟨chanMax channels L1.inner_num_ (channels * L1.inner_num_) i bottom.data_ k,
    hmax, hatt, ?_, ?_⟩
  · rw [hval i hi c hc k hk]
    rfl
  · rw [hval i hi c hc k hk]
    exact softmaxRef_eq_naive _ _ _ _ i c k

/-- Witness of C17 on a `2 x 3 x 2` input with softmax axis 1. -/
theorem softmax_forward_equals_naive_witness :
    (∀ d ∈ (exBottom ℝ).shape_, 1 ≤ d) ∧
    (-((exBottom ℝ).num_axes : Int) ≤ (exSoftmaxLayer ℝ).axis
      ∧ (exSoftmaxLayer ℝ).axis < ((exBottom ℝ).num_axes : Int)) ∧
    ∃ L1 top1 L2 top2 channels,
      SoftmaxLayer.Reshape (exSoftmaxLayer ℝ) (exBottom ℝ) (exTop ℝ) = .ok (L1, top1) ∧
      SoftmaxLayer.Forward_cpu Real.exp L1 (exBottom ℝ) top1 = .ok (L2, top2) ∧
      (exBottom ℝ).shape L1.softmax_axis_ = .ok channels ∧
      (exBottom ℝ).count / L1.outer_num_ = channels * L1.inner_num_ ∧
      ∀ i < L1.outer_num_, ∀ c < channels, ∀ k < L1.inner_num_,
        ∃ m,
          (∀ c' < channels,
            (exBottom ℝ).data_
              (i * ((exBottom ℝ).count / L1.outer_num_) + c' * L1.inner_num_ + k) ≤ m) ∧
          (∃ c', c' < channels ∧
            (exBottom ℝ).data_
              (i * ((exBottom ℝ).count / L1.outer_num_) + c' * L1.inner_num_ + k) = m) ∧
          top2.data_ (i * ((exBottom ℝ).count / L1.outer_num_) + c * L1.inner_num_ + k)
            = Real.exp
                ((exBottom ℝ).data_
                  (i * ((exBottom ℝ).count / L1.outer_num_) + c * L1.inner_num_ + k) - m)
              / ∑ c' ∈ range channels, Real.exp
                ((exBottom ℝ).data_
                  (i * ((exBottom ℝ).count / L1.outer_num_) + c' * L1.inner_num_ + k) - m) ∧
          top2.data_ (i * ((exBottom ℝ).count / L1.outer_num_) + c * L1.inner_num_ + k)
            = naiveSoftmax Real.exp channels L1.inner_num_
                ((exBottom ℝ).count / L1.outer_num_) (exBottom ℝ).data_ i c k :=
  ⟨by simp [exBottom], by simp [exBottom, exSoftmaxLayer, Blob.num_axes],
   softmax_forward_equals_naive (exSoftmaxLayer ℝ) (exBottom ℝ) (exTop ℝ)
     (by simp [exBottom]) (by simp [exBottom, exSoftmaxLayer, Blob.num_axes])⟩

end Caffe

namespace Caffe

open Finset CBLAS_TRANSPOSE

/-- C19: softmax gradients sum to zero along the axis: on a reshaped layer, for
every top diff `g` and every top data `y` of the input's shape whose channel
values sum to 1 at every outer index and inner position, `Backward_cpu`
returns an input gradient whose channel values sum to 0 at every outer index
and inner position. -/
theorem softmax_backward_sums_to_zero {α : Type} [LinearOrderedField α]
    (L : SoftmaxLayer α) (bottom top0 top : Blob α) (propagate_down : List Bool)
    (haxis : -(bottom.num_axes : Int) ≤ L.axis ∧ L.axis < (bottom.num_axes : Int))
    (hshape : top.shape_ = bottom.shape_)
    (hsum : ∀ L1 top1 channels, SoftmaxLayer.Reshape L bottom top0 = .ok (L1, top1) →
      top.shape L1.softmax_axis_ = .ok channels →
      ∀ i < L1.outer_num_, ∀ k < L1.inner_num_,
        ∑ c ∈ range channels,
          top.data_ (i * (top.count / L1.outer_num_) + c * L1.inner_num_ + k) = 1) :
    ∃ L1 top1 channels,
      SoftmaxLayer.Reshape L bottom top0 = .ok (L1, top1) ∧
      top.shape L1.softmax_axis_ = .ok channels ∧
      ∀ i < L1.outer_num_, ∀ k < L1.inner_num_,
        ∃ L2 bottom2,
          SoftmaxLayer.Backward_cpu L1 top propagate_down bottom = .ok (L2, bottom2) ∧
          ∑ c ∈ range channels,
            bottom2.diff_ (i * (top.count / L1.outer_num_) + c * L1.inner_num_ + k) = 0 := by
  obtain ⟨a, L1, top1, ha, halt, hR, _, hsa, hout, hinn, _, hones, _, _, _, _⟩ :=
    SoftmaxLayer.Reshape_spec L bottom top0 haxis
  have hlen : a < bottom.shape_.length := halt
  have hrank : top.num_axes = bottom.num_axes := by simp only [Blob.num_axes, hshape]
  have hsh : top.shape L1.softmax_axis_ = .ok (bottom.shape_.getD a 0) := by
    rw [hsa, Blob.shape_nat top a (by rw [hrank]; exact halt), hshape]
  have hcount : top.count = L1.outer_num_ * (bottom.shape_.getD a 0 * L1.inner_num_) := by
    rw [hout, hinn]
    simp only [Blob.count, hshape]
    exact Blob.prod_split bottom.shape_ a hlen
  refine ⟨L1, top1, _, hR, hsh, ?_⟩
  intro i hi k hk
  obtain ⟨L2, bottom2, hB, hdim, _, _, hval, _⟩ :=
    SoftmaxLayer.Backward_cpu_spec L1 top bottom propagate_down _ hsh (by omega) hcount hones
  have hy := hsum L1 top1 _ hR hsh i hi k hk
  refine ⟨L2, bottom2, hB, ?_⟩
  rw [hdim] at hy ⊢
  rw [Finset.sum_congr rfl (fun c hc => hval i hi c (Finset.mem_range.mp hc) k hk)]
  simp only [sub_mul, Finset.sum_sub_distrib]
  rw [← Finset.mul_sum, hy, mul_one, sub_self]

/-- Witness of C19: top data `1/3` on three channels and top diff `0, 1, 2, ...`. -/
theorem softmax_backward_sums_to_zero_witness :
    (-((exBottom ℚ).num_axes : Int) ≤ (exSoftmaxLayer ℚ).axis
      ∧ (exSoftmaxLayer ℚ).axis < ((exBottom ℚ).num_axes : Int)) ∧
    (exUniform ℚ).shape_ = (exBottom ℚ).shape_ ∧
    (∑ c ∈ range 3, (exUniform ℚ).data_ c = 1) ∧
    ∃ L1 top1 channels,
      SoftmaxLayer.Reshape (exSoftmaxLayer ℚ) (exBottom ℚ) (exTop ℚ) = .ok (L1, top1) ∧
      (exUniform ℚ).shape L1.softmax_axis_ = .ok channels ∧
      ∀ i < L1.outer_num_, ∀ k < L1.inner_num_,
        ∃ L2 bottom2,
          SoftmaxLayer.Backward_cpu L1 (exUniform ℚ) [true] (exBottom ℚ) = .ok (L2, bottom2) ∧
          ∑ c ∈ range channels,
            bottom2.diff_
              (i * ((exUniform ℚ).count / L1.outer_num_) + c * L1.inner_num_ + k) = 0 := by
  have hax : -((exBottom ℚ).num_axes : Int) ≤ (exSoftmaxLayer ℚ).axis
      ∧ (exSoftmaxLayer ℚ).axis < ((exBottom ℚ).num_axes : Int) := by decide
  have h3 : ∑ c ∈ range 3, (exUniform ℚ).data_ c = 1 := by
    simp [exUniform, Finset.sum_range_succ]
  refine ⟨hax, rfl, h3, ?_⟩
  apply softmax_backward_sums_to_zero (exSoftmaxLayer ℚ) (exBottom ℚ) (exTop ℚ) (exUniform ℚ)
    [true] hax rfl
  intro L1 top1 channels hR hsh i _ k _
  rw [SoftmaxLayer.Reshape_eq (exSoftmaxLayer ℚ) (exBottom ℚ) (exTop ℚ) 1 rfl] at hR
  have hL := (congrArg Prod.fst (Except.ok.inj hR)).symm
  subst hL
  have hch : (exUniform ℚ).shape ((1 : Nat) : Int) = .ok 3 := rfl
  have hsh' : (exUniform ℚ).shape ((1 : Nat) : Int) = .ok channels := hsh
  rw [hch] at hsh'
  have hc3 : 3 = channels := Except.ok.inj hsh'
  subst hc3
  simp [exUniform, Finset.sum_range_succ]

end Caffe

namespace Caffe

open Finset CBLAS_TRANSPOSE

/-! ## Parameter values under the backward pass of the inner product layer -/

/-- Rewriting the gradient of one blob of a vector keeps the values of all. -/
theorem set_diff_keeps_data {α : Type} (l : List (Blob α)) (i : Nat) (x : Blob α)
    (d : Buf α) (h : vecAt l i = .ok x) :
    (l.set i { x with diff_ := d }).map Blob.data_ = l.map Blob.data_ := by
  rw [vecAt_ok_iff] at h
  apply List.ext_getElem?
  intro j
  rw [List.getElem?_map, List.getElem?_map, List.getElem?_set]
  by_cases hij : i = j
  · subst hij
    rw [if_pos rfl, h]
    split_ifs with hlt
    · rfl
    · exfalso
      rw [List.getElem?_eq_none (by omega)] at h
      cases h
  · rw [if_neg hij]

/-- Vectors of blobs with the same values have, at every index, blobs with the
same values. -/
theorem same_data_at {α : Type} (l l' : List (Blob α)) (i : Nat) (x : Blob α)
    (hd : l'.map Blob.data_ = l.map Blob.data_) (h : vecAt l i = .ok x) :
    ∃ x', vecAt l' i = .ok x' ∧ x'.data_ = x.data_ := by
  rw [vecAt_ok_iff] at h
  have hi := congrArg (fun v => v[i]?) hd
  simp only [List.getElem?_map, h, Option.map_some'] at hi
  cases hx : l'[i]? with
  | none => rw [hx] at hi; cases hi
  | some x' =>
    rw [hx] at hi
    refine ⟨x', (vecAt_ok_iff _ _ _).mpr hx, ?_⟩
    simpa using hi

namespace InnerProductLayer

variable {α : Type} [LinearOrderedField α]

/-- The weight step of `Backward_cpu` returns and keeps everything but the
gradient of the weight. -/
theorem ip_Backward_cpu_weight_keeps (L : InnerProductLayer α) (top bottom : Blob α)
    (w : Blob α) (p0 : Bool)
    (hp0 : vecAt L.param_propagate_down_ 0 = .ok p0) (hw : vecAt L.blobs_ 0 = .ok w) :
    ∃ Lw, Backward_cpu_weight L top bottom = .ok Lw ∧
      Lw.blobs_.map Blob.data_ = L.blobs_.map Blob.data_ ∧
      Lw.M_ = L.M_ ∧ Lw.K_ = L.K_ ∧ Lw.N_ = L.N_ ∧ Lw.bias_term_ = L.bias_term_ ∧
      Lw.param_propagate_down_ = L.param_propagate_down_ ∧
      Lw.bias_multiplier_ = L.bias_multiplier_ := by
  unfold Backward_cpu_weight
  cases p0 with
  | true =>
    simp only [hp0, hw, bind, Except.bind, pure, Except.pure, if_true]
    exact ⟨_, rfl, set_diff_keeps_data _ _ _ _ hw, rfl, rfl, rfl, rfl, rfl, rfl⟩
  | false =>
    simp only [hp0, bind, Except.bind, pure, Except.pure]
    exact ⟨_, rfl, rfl, rfl, rfl, rfl, rfl, rfl, rfl⟩

/-- The bias step of `Backward_cpu` returns and keeps everything but the
gradient of the bias. -/
theorem ip_Backward_cpu_bias_keeps (L : InnerProductLayer α) (top : Blob α)
    (hb : L.bias_term_ = true →
      ∃ p1 b, vecAt L.param_propagate_down_ 1 = .ok p1 ∧ vecAt L.blobs_ 1 = .ok b) :
    ∃ Lb, Backward_cpu_bias L top = .ok Lb ∧
      Lb.blobs_.map Blob.data_ = L.blobs_.map Blob.data_ ∧
      Lb.M_ = L.M_ ∧ Lb.K_ = L.K_ ∧ Lb.N_ = L.N_ := by
  unfold Backward_cpu_bias
  by_cases hbias : L.bias_term_ = true
  · obtain ⟨p1, b, hp1, hbb⟩ := hb hbias
    cases p1 with
    | true =>
      simp only [hbias, hp1, hbb, bind, Except.bind, pure, Except.pure, if_true]
      exact ⟨_, rfl, set_diff_keeps_data _ _ _ _ hbb, rfl, rfl, rfl⟩
    | false =>
      simp only [hbias, hp1, bind, Except.bind, pure, Except.pure, if_true]
      exact ⟨_, rfl, rfl, rfl, rfl, rfl⟩
  · simp only [hbias, bind, Except.bind, pure, Except.pure, if_false]
    exact ⟨_, rfl, rfl, rfl, rfl, rfl⟩

/-- `Backward_cpu` returns once the flags and parameters it reads exist; the
parameter values are kept, and the input gradient is overwritten by the
matrix product when `propagate_down[0]` holds and kept otherwise. -/
theorem ip_Backward_cpu_general (L : InnerProductLayer α) (top bottom : Blob α)
    (pd : List Bool) (w : Blob α) (p0 pd0 : Bool)
    (hp0 : vecAt L.param_propagate_down_ 0 = .ok p0) (hw : vecAt L.blobs_ 0 = .ok w)
    (hb : L.bias_term_ = true →
      ∃ p1 b, vecAt L.param_propagate_down_ 1 = .ok p1 ∧ vecAt L.blobs_ 1 = .ok b)
    (hpd : vecAt pd 0 = .ok pd0) :
    ∃ L2 bottom2, Backward_cpu L top pd bottom = .ok (L2, bottom2) ∧
      L2.blobs_.map Blob.data_ = L.blobs_.map Blob.data_ ∧
      bottom2.shape_ = bottom.shape_ ∧ bottom2.data_ = bottom.data_ ∧
      bottom2.diff_ = (if pd0 then caffe_cpu_gemm CblasNoTrans CblasNoTrans L.M_ L.K_ L.N_.toNat 1
        top.diff_ w.data_ 0 bottom.diff_ 0 else bottom.diff_) := by
  obtain ⟨Lw, h1, hd1, hM1, hK1, hN1, hbt1, hpp1, _⟩ :=
    ip_Backward_cpu_weight_keeps L top bottom w p0 hp0 hw
  have hb1 : Lw.bias_term_ = true →
      ∃ p1 b, vecAt Lw.param_propagate_down_ 1 = .ok p1 ∧ vecAt Lw.blobs_ 1 = .ok b := by
    intro h
    rw [hbt1] at h
    obtain ⟨p1, b, hp1, hbb⟩ := hb h
    obtain ⟨b', hb', _⟩ := same_data_at L.blobs_ Lw.blobs_ 1 b hd1 hbb
    exact ⟨p1, b', by rw [hpp1]; exact hp1, hb'⟩
  obtain ⟨Lb, h2, hd2, hM2, hK2, hN2⟩ := ip_Backward_cpu_bias_keeps Lw top hb1
  have hd : Lb.blobs_.map Blob.data_ = L.blobs_.map Blob.data_ := by rw [hd2, hd1]
  obtain ⟨w', hw', hwd⟩ := same_data_at L.blobs_ Lb.blobs_ 0 w hd hw
  have h3 : ∃ bottom2, Backward_cpu_bottom Lb top pd bottom = .ok bottom2 ∧
      bottom2.shape_ = bottom.shape_ ∧ bottom2.data_ = bottom.data_ ∧
      bottom2.diff_ = (if pd0 then caffe_cpu_gemm CblasNoTrans CblasNoTrans L.M_ L.K_ L.N_.toNat 1
        top.diff_ w.data_ 0 bottom.diff_ 0 else bottom.diff_) := by
    unfold Backward_cpu_bottom
    cases pd0 with
    | true =>
      simp only [hpd, hw', bind, Except.bind, pure, Except.pure, if_true]
      refine ⟨_, rfl, rfl, rfl, ?_⟩
      simp only [hM2, hK2, hN2, hM1, hK1, hN1, hwd]
    | false =>
      simp only [hpd, bind, Except.bind, pure, Except.pure]
      exact ⟨_, rfl, rfl, rfl, by simp⟩
  obtain ⟨bottom2, h3, hs, hdat, hdiff⟩ := h3
  refine ⟨Lb, bottom2, ?_, hd, hs, hdat, hdiff⟩
  unfold Backward_cpu
  simp only [h1, h2, h3, bind, Except.bind, pure, Except.pure]

end InnerProductLayer

end Caffe

namespace Caffe

open Finset CBLAS_TRANSPOSE

/-- C18: `InnerProductLayer::Backward_cpu` overwrites the input gradient: on a
reshaped layer whose `N_` is the dimension `N`, whatever the parameter flags
and the previous input gradient,
with `propagate_down[0]` true the call returns with
`bottom_diff[m][k] = sum over n < N of g[m][n] * weight[n][k]` for every `m < M`
and `k < K`; the values of all parameter blobs are unchanged; with
`propagate_down[0]` false the input gradient is unchanged. -/
theorem inner_product_backward_input_gradient {α : Type} [LinearOrderedField α]
    (L : InnerProductLayer α) (bottom top0 top : Blob α) (pds : List Bool)
    (w : Blob α) (p0 : Bool) (a N : Nat)
    (ha : bottom.CanonicalAxisIndex L.axis = .ok a)
    (hK : (bottom.shape_.drop a).prod = L.K_)
    (hN : L.N_ = (N : Int))
    (hp0 : vecAt L.param_propagate_down_ 0 = .ok p0)
    (hw : vecAt L.blobs_ 0 = .ok w)
    (hb : L.bias_term_ = true →
      ∃ p1 b, vecAt L.param_propagate_down_ 1 = .ok p1 ∧ vecAt L.blobs_ 1 = .ok b) :
    ∃ L1 top1 L2 bottom2 L3 bottom3,
      InnerProductLayer.Reshape L bottom top0 = .ok (L1, top1) ∧
      InnerProductLayer.Backward_cpu L1 top (true :: pds) bottom = .ok (L2, bottom2) ∧
      (∀ m < L1.M_, ∀ k < L1.K_,
        bottom2.diff_ (m * L1.K_ + k)
          = ∑ n ∈ range N, top.diff_ (m * N + n) * w.data_ (n * L1.K_ + k)) ∧
      L2.blobs_.map Blob.data_ = L.blobs_.map Blob.data_ ∧
      InnerProductLayer.Backward_cpu L1 top (false :: pds) bottom = .ok (L3, bottom3) ∧
      bottom3.diff_ = bottom.diff_ ∧
      L3.blobs_.map Blob.data_ = L.blobs_.map Blob.data_ := by
  have hR := InnerProductLayer.ip_Reshape_eq L bottom top0 a N ha hK hN
  generalize hL1 : InnerProductLayer.reshaped L (bottom.shape_.take a).prod = L1 at hR
  have hT : L1.N_.toNat = N := by
    rw [← hL1, InnerProductLayer.reshaped_N, hN]; exact Int.toNat_ofNat N
  have hbt : L1.bias_term_ = L.bias_term_ := by
    rw [← hL1]; exact InnerProductLayer.reshaped_bias_term _ _
  have hbl : L1.blobs_ = L.blobs_ := by
    rw [← hL1]; exact InnerProductLayer.reshaped_blobs _ _
  have hpp : L1.param_propagate_down_ = L.param_propagate_down_ := by
    rw [← hL1]; exact InnerProductLayer.reshaped_param_propagate_down _ _
  obtain ⟨L2, bottom2, hB2, hd2, _, _, hdiff2⟩ :=
    InnerProductLayer.ip_Backward_cpu_general L1 top bottom (true :: pds) w p0 true
      (by rw [hpp]; exact hp0) (by rw [hbl]; exact hw) (by rw [hbt, hpp, hbl]; exact hb)
      (vecAt_cons_zero _ _)
  obtain ⟨L3, bottom3, hB3, hd3, _, _, hdiff3⟩ :=
    InnerProductLayer.ip_Backward_cpu_general L1 top bottom (false :: pds) w p0 false
      (by rw [hpp]; exact hp0) (by rw [hbl]; exact hw) (by rw [hbt, hpp, hbl]; exact hb)
      (vecAt_cons_zero _ _)
  rw [hbl] at hd2 hd3
  rw [hT] at hdiff2
  refine ⟨L1, _, L2, bottom2, L3, bottom3, hR, hB2, ?_, hd2, hB3, ?_, hd3⟩
  · intro m hm k hk
    have g := caffe_cpu_gemm_nn L1.M_ L1.K_ N 1 0 top.diff_ w.data_ bottom.diff_ 0 m k
      hm hk
    rw [Nat.zero_add] at g
    rw [hdiff2]
    simp only [if_true]
    rw [g]
    simp
  · rw [hdiff3]
    simp

/-- Witness of C18: the layer set up for ten features, a `3 x 10` input and the
output gradient `1, 2, 3, ...`. -/
theorem inner_product_backward_input_gradient_witness :
    (exInput10 ℚ).CanonicalAxisIndex (exInnerProductLayer ℚ).axis = .ok 1 ∧
    ((exInput10 ℚ).shape_.drop 1).prod = (exInnerProductLayer ℚ).K_ ∧
    (exInnerProductLayer ℚ).N_ = ((2 : Nat) : Int) ∧
    vecAt (exInnerProductLayer ℚ).param_propagate_down_ 0 = .ok true ∧
    vecAt (exInnerProductLayer ℚ).blobs_ 0 = .ok (exWeight ℚ) ∧
    vecAt (exInnerProductLayer ℚ).param_propagate_down_ 1 = .ok true ∧
    vecAt (exInnerProductLayer ℚ).blobs_ 1 = .ok (exBias ℚ) ∧
    ∃ L1 top1 L2 bottom2 L3 bottom3,
      InnerProductLayer.Reshape (exInnerProductLayer ℚ) (exInput10 ℚ) (exTop ℚ)
        = .ok (L1, top1) ∧
      InnerProductLayer.Backward_cpu L1 (exOutput ℚ) [true] (exInput10 ℚ)
        = .ok (L2, bottom2) ∧
      (∀ m < L1.M_, ∀ k < L1.K_,
        bottom2.diff_ (m * L1.K_ + k)
          = ∑ n ∈ range 2,
              (exOutput ℚ).diff_ (m * 2 + n) * (exWeight ℚ).data_ (n * L1.K_ + k)) ∧
      L2.blobs_.map Blob.data_ = (exInnerProductLayer ℚ).blobs_.map Blob.data_ ∧
      InnerProductLayer.Backward_cpu L1 (exOutput ℚ) [false] (exInput10 ℚ)
        = .ok (L3, bottom3) ∧
      bottom3.diff_ = (exInput10 ℚ).diff_ ∧
      L3.blobs_.map Blob.data_ = (exInnerProductLayer ℚ).blobs_.map Blob.data_ :=
  ⟨rfl, rfl, rfl, rfl, rfl, rfl, rfl,
   inner_product_backward_input_gradient (exInnerProductLayer ℚ) (exInput10 ℚ) (exTop ℚ)
     (exOutput ℚ) [] (exWeight ℚ) true 1 2 rfl rfl rfl rfl rfl
     (fun _ => ⟨true, exBias ℚ, rfl, rfl⟩)⟩

end Caffe
